import Mathlib

/-!
# The asn1go lexer (`lexer.go`)

A shallow embedding of the hand-written ASN.1 lexer and the properties proved about it.

Conventions of the embedding.

* A Go `rune` is a natural number (its code point), written `Nat`; a Go `string` is the list of
  its runes, `List Nat`.
* The `bufio.Reader` is the list of runes not yet read.  The reader is taken over a finite text,
  so the only read error is `io.EOF`; as in Go, a read at end of input yields the rune `0`.
* `lex.err` is `Option Message`; a `Message` is the format string of the source together with
  its arguments.  The branches of the source for a read error other than `io.EOF` (messages
  `Failed to read: ...`) cannot be taken over a finite text and are left out.
* The token constants (`SEQUENCE`, `NUMBER`, ...) are generated by goyacc from the grammar and
  are not part of `lexer.go`; they are the parameter `T : TokenCodes`.
* The Unicode tables behind `unicode.IsLetter`, `unicode.IsDigit`, `unicode.IsUpper` and
  `unicode.ToLower` are fixed on ASCII and otherwise the parameter `U : UnicodeTables`.
* A `float64` value is `NaN`, one of the two infinities, or a finite binary64 value, given as
  the rational number it denotes.  Conversion from `int`, multiplication, addition and division
  round to the nearest binary64 value (ties to even) and overflow to an infinity, as IEEE 754
  prescribes; `math.Pow10` is the table product of the Go standard library.  The sign of zero
  is not represented, and the logarithm in `math.Log10` is taken exactly (see `ceilLog10`).
-/

namespace Asn1go

/-- The rune sequence of a text literal. -/
def str (s : String) : List Nat := s.toList.map Char.toNat

/-! ## Token constants -/

/-- Modelled from the spec: the token kinds, whose Go constants are declared in the goyacc
output and not in `lexer.go`.  One name per constant used by the lexer: the reserved words,
`TYPEORMODULEREFERENCE`, `VALUEIDENTIFIER`, `NUMBER`, `REALNUMBER` and the punctuation and
digraph kinds. -/
inductive Token
  | ABSENT | ENCODED | INTEGER | RELATIVE_OID | ABSTRACT_SYNTAX | END | INTERSECTION | SEQUENCE
  | ALL | ENUMERATED | ISO646String | SET | APPLICATION | EXCEPT | MAX | SIZE
  | AUTOMATIC | EXPLICIT | MIN | STRING | BEGIN | EXPORTS | MINUS_INFINITY | SYNTAX
  | BIT | EXTENSIBILITY | NULL | T61String | BMPString | EXTERNAL | NumericString | TAGS
  | BOOLEAN | FALSE | OBJECT | TeletexString | BY | FROM | ObjectDescriptor | TRUE
  | CHARACTER | GeneralizedTime | OCTET | TYPE_IDENTIFIER | CHOICE | GeneralString | OF | UNION
  | CLASS | GraphicString | OPTIONAL | UNIQUE | COMPONENT | IA5String | PATTERN | UNIVERSAL
  | COMPONENTS | IDENTIFIER | PDV | UniversalString | CONSTRAINED | IMPLICIT | PLUS_INFINITY
  | UTCTime | CONTAINING | IMPLIED | PRESENT | UTF8String | DEFAULT | IMPORTS | PrintableString
  | VideotexString | DEFINITIONS | INCLUDES | PRIVATE | VisibleString | EMBEDDED | INSTANCE
  | REAL | WITH
  | TYPEORMODULEREFERENCE | VALUEIDENTIFIER | NUMBER | REALNUMBER
  | ASSIGNMENT | ELLIPSIS | RANGE_SEPARATOR | LEFT_VERSION_BRACKETS | RIGHT_VERSION_BRACKETS
  | OPEN_CURLY | CLOSE_CURLY | LESS | GREATER | COMMA | DOT | OPEN_ROUND | CLOSE_ROUND
  | OPEN_SQUARE | CLOSE_SQUARE | MINUS | COLON | EQUALS | QUOTATION_MARK | APOSTROPHE | SPACE
  | SEMICOLON | AT | PIPE | EXCLAMATION | CARET
  deriving DecidableEq, Repr

/-- Modelled from the spec: the integer values of the token constants, declared in the goyacc
output and not in `lexer.go`.  A token-kind code is neither `0` (end of input) nor negative
(error), and the codes correspond one-to-one to the kinds; goyacc numbers the named tokens of
a grammar consecutively from 57346.  The numbering itself is left open. -/
structure TokenCodes where
  code : Token → Int
  code_pos : ∀ t, 0 < code t
  code_inj : ∀ a b, code a = code b → a = b

/-- A numbering of the kind goyacc produces: consecutive from 57346 in declaration order. -/
def consecutiveCodes : TokenCodes where
  code t := 57346 + (t.toCtorIdx : Int)
  code_pos t := by
    show 0 < 57346 + (t.toCtorIdx : Int)
    omega
  code_inj a b h := by
    have h1 : 57346 + (a.toCtorIdx : Int) = 57346 + (b.toCtorIdx : Int) := h
    have h2 : a.toCtorIdx = b.toCtorIdx := by omega
    have := congrArg Token.ofNat h2
    simpa [Token.ofNat_toCtorIdx] using this

/-! ## Unicode classification -/

/-- The part of Go's Unicode tables above ASCII: category L, category Nd, category Lu and the
lower-case mapping. -/
structure UnicodeTables where
  letter : Nat → Bool
  digit : Nat → Bool
  upper : Nat → Bool
  lower : Nat → Nat

/-- The tables of the Latin-1 supplement (U+0080..U+00FF); nothing above it is classified. -/
def latin1Tables : UnicodeTables where
  letter r := r == 0xAA || r == 0xB5 || r == 0xBA || (0xC0 ≤ r && r ≤ 0xD6) ||
    (0xD8 ≤ r && r ≤ 0xF6) || (0xF8 ≤ r && r ≤ 0xFF)
  digit _ := false
  upper r := (0xC0 ≤ r && r ≤ 0xD6) || (0xD8 ≤ r && r ≤ 0xDE)
  lower r := if (0xC0 ≤ r && r ≤ 0xD6) || (0xD8 ≤ r && r ≤ 0xDE) then r + 32 else r

/-- Go `unicode.IsLetter`. -/
def IsLetter (U : UnicodeTables) (r : Nat) : Bool :=
  if r < 128 then (65 ≤ r && r ≤ 90) || (97 ≤ r && r ≤ 122) else U.letter r

/-- Go `unicode.IsDigit`. -/
def IsDigit (U : UnicodeTables) (r : Nat) : Bool :=
  if r < 128 then 48 ≤ r && r ≤ 57 else U.digit r

/-- Go `unicode.IsUpper`. -/
def IsUpper (U : UnicodeTables) (r : Nat) : Bool :=
  if r < 128 then 65 ≤ r && r ≤ 90 else U.upper r

/-- Go `unicode.ToLower`. -/
def ToLower (U : UnicodeTables) (r : Nat) : Nat :=
  if r < 128 then (if 65 ≤ r && r ≤ 90 then r + 32 else r) else U.lower r

/-- Source `isWhitespace`: HT, LF, VT, FF, CR, SPACE. -/
def isWhitespace (r : Nat) : Bool :=
  r == 9 || r == 10 || r == 11 || r == 12 || r == 13 || r == 32

/-- Source `isNewline`: LF, VT, FF, CR. -/
def isNewline (r : Nat) : Bool :=
  r == 10 || r == 11 || r == 12 || r == 13

/-- Source `isIdentifierChar`. -/
def isIdentifierChar (U : UnicodeTables) (r : Nat) : Bool :=
  IsLetter U r || IsDigit U r || r == 45

/-! ## float64 -/

/-- Go `float64` (IEEE 754 binary64): the special values and the finite values, a finite value
being the rational number it denotes.  Every operation below rounds its exact result to the
nearest binary64 value, ties to even, and overflows to an infinity, as the hardware does.  The
sign of zero is not represented: the two zeros are the one value `fin 0`. -/
inductive Float64
  | NaN
  | Inf (negative : Bool)
  | fin (q : Rat)
  deriving DecidableEq

namespace Float64

/-- The number of times `n` can be halved before it drops below `2`. -/
def log2Aux : Nat → Nat → Nat
  | 0, _ => 0
  | fuel + 1, n => if n < 2 then 0 else log2Aux fuel (n / 2) + 1

/-- The integer `⌊log₂ n⌋` for `n ≥ 1`. -/
def natLog2 (n : Nat) : Nat := log2Aux n n

/-- The power `2^u` for an integer `u`. -/
def pow2 (u : Int) : Rat :=
  if 0 ≤ u then ((2 ^ u.toNat : Nat) : Rat) else 1 / ((2 ^ (-u).toNat : Nat) : Rat)

/-- The binary exponent `⌊log₂ q⌋` of a positive rational. -/
def floorLog2 (q : Rat) : Int :=
  let e0 : Int := (natLog2 q.num.natAbs : Int) - (natLog2 q.den : Int)
  if pow2 e0 ≤ q then e0 else e0 - 1

/-- The integer nearest to `t`, the even one of two that are equally near. -/
def roundHalfEven (t : Rat) : Int :=
  let m := ⌊t⌋
  let f := t - m
  if f < 1 / 2 then m else if 1 / 2 < f then m + 1 else if m % 2 = 0 then m else m + 1

/-- The binary64 value nearest to the positive rational `a`, or `none` when `a` rounds beyond
the largest finite value.  With `e` the binary exponent of `a`, the values near `a` are the
multiples of `2^(e - 52)` (53 significant bits); below the smallest normal exponent `-1022`
they are the multiples of `2^(-1074)` (subnormal values). -/
def roundMag (a : Rat) : Option Rat :=
  let u := max (floorLog2 a) (-1022) - 52
  let r := (roundHalfEven (a / pow2 u) : Rat) * pow2 u
  if pow2 1024 ≤ r then none else some r

/-- Rounding of an exact result to binary64: to nearest, ties to even, overflow to an
infinity. -/
def round (q : Rat) : Float64 :=
  if q = 0 then fin 0
  else
    match roundMag |q| with
    | none => Inf (decide (q < 0))
    | some r => fin (if q < 0 then -r else r)

/-- IEEE 754 multiplication. -/
def mul : Float64 → Float64 → Float64
  | NaN, _ => NaN
  | _, NaN => NaN
  | fin a, fin b => round (a * b)
  | Inf s, Inf t => Inf (s != t)
  | Inf s, fin q => if q = 0 then NaN else Inf (s != decide (q < 0))
  | fin q, Inf s => if q = 0 then NaN else Inf (s != decide (q < 0))

/-- IEEE 754 addition. -/
def add : Float64 → Float64 → Float64
  | NaN, _ => NaN
  | _, NaN => NaN
  | fin a, fin b => round (a + b)
  | Inf s, Inf t => if s = t then Inf s else NaN
  | Inf s, fin _ => Inf s
  | fin _, Inf s => Inf s

/-- IEEE 754 division (a zero divisor is taken as `+0`). -/
def div : Float64 → Float64 → Float64
  | NaN, _ => NaN
  | _, NaN => NaN
  | fin a, fin b => if b = 0 then (if a = 0 then NaN else Inf (decide (a < 0))) else round (a / b)
  | Inf _, Inf _ => NaN
  | Inf s, fin q => Inf (s != decide (q < 0))
  | fin _, Inf _ => fin 0

instance : Mul Float64 := ⟨mul⟩
instance : Add Float64 := ⟨add⟩
instance : Div Float64 := ⟨div⟩

/-- Go `math.IsNaN`. -/
def IsNaN : Float64 → Bool
  | NaN => true
  | _ => false

/-- The value is finite. -/
def isFin : Float64 → Bool
  | fin _ => true
  | _ => false

/-- Conversion `float64(i)` of an integer: the nearest binary64 value. -/
def ofInt (i : Int) : Float64 := round (i : Rat)

/-- The table `pow10tab` of Go's `math/pow10.go`: the constants `1e00` to `1e31`, each the
binary64 value nearest to the power of ten. -/
def pow10tab (i : Nat) : Float64 := round ((10 ^ i : Nat) : Rat)

/-- The table `pow10postab32` of Go's `math/pow10.go`: the constants `1e00`, `1e32`, ...,
`1e288`. -/
def pow10postab32 (i : Nat) : Float64 := round ((10 ^ (32 * i) : Nat) : Rat)

/-- The table `pow10negtab32` of Go's `math/pow10.go`: the constants `1e-00`, `1e-32`, ...,
`1e-320`. -/
def pow10negtab32 (i : Nat) : Float64 := round (1 / ((10 ^ (32 * i) : Nat) : Rat))

/-- Go `math.Pow10`, as in the standard library: a product of two table entries for
`0 ≤ n ≤ 308`, a quotient of two table entries for `-323 ≤ n ≤ 0`, `+Inf` above and `0`
below. -/
def Pow10 (n : Int) : Float64 :=
  if 0 ≤ n ∧ n ≤ 308 then pow10postab32 (n.toNat / 32) * pow10tab (n.toNat % 32)
  else if -323 ≤ n ∧ n ≤ 0 then pow10negtab32 ((-n).toNat / 32) / pow10tab ((-n).toNat % 32)
  else if 0 < n then Inf false
  else fin 0

end Float64

/-- Least `k` with `n ≤ 10^k`, searched upwards from `k`. -/
def clog10Aux : Nat → Nat → Nat → Nat
  | 0, k, _ => k
  | fuel + 1, k, n => if n ≤ 10 ^ k then k else clog10Aux fuel (k + 1) n

/-- The smallest `k` with `n ≤ 10^k`, i.e. `⌈log₁₀ n⌉` for `n ≥ 1`. -/
def clog10 (n : Nat) : Nat := clog10Aux n 0 n

/-- The expression `int(math.Ceil(math.Log10(float64(n))))` of the source.  The integer is
first converted to binary64; for a value `x ≥ 1` the result is `⌈log₁₀ x⌉`, with the logarithm
taken exactly.  Go computes the logarithm in floating point, with a last bit that depends on
the platform, so the two can differ by one where `log₁₀ x` is within rounding error of an
integer (a power of ten, or a value of sixteen digits or more just above one); the statements
below that give a value use this function at `0` and at `5` only, and the others use no more
than that its result on a positive argument is between `0` and `19`.  For `x ≤ 0` the
logarithm is `-Inf` or `NaN`, whose conversion to `int` is implementation-specific in Go; the
value taken here is the one of the gc compiler on amd64 and arm64, the most negative 64-bit
integer. -/
def ceilLog10 (n : Int) : Int :=
  match Float64.ofInt n with
  | .fin q => if q ≤ 0 then -(2 : Int) ^ 63 else (clog10 ⌈q⌉₊ : Int)
  | _ => -(2 : Int) ^ 63

/-! ## strconv.Atoi -/

/-- The two failures of `strconv.Atoi`: `strconv.ErrSyntax` and `strconv.ErrRange`. -/
inductive AtoiErr
  | ErrSyntax
  | ErrRange
  deriving DecidableEq, Repr

/-- ASCII decimal digit. -/
def isAsciiDigit (r : Nat) : Bool := 48 ≤ r && r ≤ 57

/-- Decimal value of a string of ASCII digits. -/
def digitsValue (s : List Nat) : Nat := s.foldl (fun n r => 10 * n + (r - 48)) 0

/-- Largest value of Go `int` on a 64-bit platform. -/
def maxInt : Int := 2 ^ 63 - 1

/-- Go `strconv.Atoi` for a 64-bit `int`: an optional sign, then one or more ASCII digits;
the value has to lie in `[-2^63, 2^63 - 1]`. -/
def Atoi (s : List Nat) : Except AtoiErr Int :=
  let neg := s.head? == some 45
  let digits := if s.head? == some 43 || s.head? == some 45 then s.tail else s
  if digits.isEmpty || !digits.all isAsciiDigit then .error .ErrSyntax
  else
    let n : Int := (digitsValue digits : Int)
    if neg then (if n ≤ maxInt + 1 then .ok (-n) else .error .ErrRange)
    else if n ≤ maxInt then .ok n else .error .ErrRange

/-! ## Lexer state -/

/-- The messages the lexer can record: the format string of the source with its arguments. -/
inductive Message
  /-- The text `EOF` (the `err.Error()` of `io.EOF` in `consumeNumber`). -/
  | eof
  /-- Format `Token can not end on hyphen, got %v`. -/
  | endsOnHyphen (label : List Nat)
  /-- Format `Expected valid identifier char, got '%c' while reading '%v'`. -/
  | expectedIdentifierChar (r : Nat) (acc : List Nat)
  /-- Format `Token can not contain two hyphens in a row, got %v`. -/
  | twoHyphens (acc : List Nat)
  /-- Format `Failed to parse number: %v`, with the `strconv.NumError` of `Atoi` on `repr`. -/
  | failedToParseNumber (repr : List Nat) (e : AtoiErr)
  /-- Format `Expected exponent after '%v' got '%c'`. -/
  | expectedExponent (fullRepr : List Nat) (r : Nat)
  /-- Format `Unexpected character: %c`. -/
  | unexpectedCharacter (r : Nat)
  deriving DecidableEq, Repr

/-- Source `MyLexer`: the reader (the runes still unread) and the recorded error. -/
structure MyLexer where
  bufReader : List Nat
  err : Option Message
  deriving DecidableEq, Repr

/-- Modelled from the spec: the result record `yySymType` the caller supplies per call, declared
in the goyacc output and not in `lexer.go`.  Its fields are the payloads the lexer writes:
identifier text, integer value with its text, and real value (the text field is shared). -/
structure yySymType where
  name : List Nat
  number : Int
  numberRepr : List Nat
  real : Float64
  deriving DecidableEq

namespace MyLexer

/-- A fresh lexer over a text. -/
def start (text : List Nat) : MyLexer := ⟨text, none⟩

/-- Source `readRune`: the rune read and whether the read failed with `io.EOF`. -/
def readRune (lex : MyLexer) : Nat × Bool × MyLexer :=
  match lex.bufReader with
  | [] => (0, true, lex)
  | r :: rest => (r, false, { lex with bufReader := rest })

/-- Source `unreadRune`.  `bufio.Reader.UnreadRune` restores the rune returned by the
immediately preceding `ReadRune`; every call in the source directly follows the read of `r`,
so the call pushes `r` back. -/
def unreadRune (lex : MyLexer) (r : Nat) : MyLexer :=
  { lex with bufReader := r :: lex.bufReader }

/-- Source `peekRune`: the next rune without consuming it, `0` at end of input. -/
def peekRune (lex : MyLexer) : Nat := lex.bufReader.headD 0

/-- Source `peekRunes`: up to `n` next runes without consuming them. -/
def peekRunes (lex : MyLexer) (n : Nat) : List Nat := lex.bufReader.take n

/-- Source `discard`.  It drops bytes; at every call the dropped runes were just matched
against ASCII punctuation, one byte each. -/
def discard (lex : MyLexer) (n : Nat) : MyLexer :=
  { lex with bufReader := lex.bufReader.drop n }

/-- Source `Error`: records the message, replacing whatever was recorded. -/
def Error (lex : MyLexer) (e : Message) : MyLexer := { lex with err := some e }

end MyLexer

/-! ## The reserved words -/

/-- Source `RESERVED_WORDS`, the map built by `init`, as its list of entries. -/
def RESERVED_WORDS : List (List Nat × Token) :=
  [ (str "ABSENT", Token.ABSENT), (str "ENCODED", Token.ENCODED), (str "INTEGER", Token.INTEGER),
    (str "RELATIVE-OID", Token.RELATIVE_OID), (str "ABSTRACT-SYNTAX", Token.ABSTRACT_SYNTAX),
    (str "END", Token.END), (str "INTERSECTION", Token.INTERSECTION), (str "SEQUENCE", Token.SEQUENCE),
    (str "ALL", Token.ALL), (str "ENUMERATED", Token.ENUMERATED), (str "ISO646String", Token.ISO646String),
    (str "SET", Token.SET), (str "APPLICATION", Token.APPLICATION), (str "EXCEPT", Token.EXCEPT),
    (str "MAX", Token.MAX), (str "SIZE", Token.SIZE), (str "AUTOMATIC", Token.AUTOMATIC),
    (str "EXPLICIT", Token.EXPLICIT), (str "MIN", Token.MIN), (str "STRING", Token.STRING),
    (str "BEGIN", Token.BEGIN), (str "EXPORTS", Token.EXPORTS), (str "MINUS-INFINITY", Token.MINUS_INFINITY),
    (str "SYNTAX", Token.SYNTAX), (str "BIT", Token.BIT), (str "EXTENSIBILITY", Token.EXTENSIBILITY),
    (str "NULL", Token.NULL), (str "T61String", Token.T61String), (str "BMPString", Token.BMPString),
    (str "EXTERNAL", Token.EXTERNAL), (str "NumericString", Token.NumericString), (str "TAGS", Token.TAGS),
    (str "BOOLEAN", Token.BOOLEAN), (str "FALSE", Token.FALSE), (str "OBJECT", Token.OBJECT),
    (str "TeletexString", Token.TeletexString), (str "BY", Token.BY), (str "FROM", Token.FROM),
    (str "ObjectDescriptor", Token.ObjectDescriptor), (str "TRUE", Token.TRUE),
    (str "CHARACTER", Token.CHARACTER), (str "GeneralizedTime", Token.GeneralizedTime),
    (str "OCTET", Token.OCTET), (str "TYPE-IDENTIFIER", Token.TYPE_IDENTIFIER), (str "CHOICE", Token.CHOICE),
    (str "GeneralString", Token.GeneralString), (str "OF", Token.OF), (str "UNION", Token.UNION),
    (str "CLASS", Token.CLASS), (str "GraphicString", Token.GraphicString), (str "OPTIONAL", Token.OPTIONAL),
    (str "UNIQUE", Token.UNIQUE), (str "COMPONENT", Token.COMPONENT), (str "IA5String", Token.IA5String),
    (str "PATTERN", Token.PATTERN), (str "UNIVERSAL", Token.UNIVERSAL), (str "COMPONENTS", Token.COMPONENTS),
    (str "IDENTIFIER", Token.IDENTIFIER), (str "PDV", Token.PDV), (str "UniversalString", Token.UniversalString),
    (str "CONSTRAINED", Token.CONSTRAINED), (str "IMPLICIT", Token.IMPLICIT),
    (str "PLUS-INFINITY", Token.PLUS_INFINITY), (str "UTCTime", Token.UTCTime),
    (str "CONTAINING", Token.CONTAINING), (str "IMPLIED", Token.IMPLIED), (str "PRESENT", Token.PRESENT),
    (str "UTF8String", Token.UTF8String), (str "DEFAULT", Token.DEFAULT), (str "IMPORTS", Token.IMPORTS),
    (str "PrintableString", Token.PrintableString), (str "VideotexString", Token.VideotexString),
    (str "DEFINITIONS", Token.DEFINITIONS), (str "INCLUDES", Token.INCLUDES), (str "PRIVATE", Token.PRIVATE),
    (str "VisibleString", Token.VisibleString), (str "EMBEDDED", Token.EMBEDDED),
    (str "INSTANCE", Token.INSTANCE), (str "REAL", Token.REAL), (str "WITH", Token.WITH) ]

/-- The map access `RESERVED_WORDS[content]`: the value and whether the key exists. -/
def lookupReserved (content : List Nat) : Option Token :=
  RESERVED_WORDS.lookup content

/-! ## The lexer -/

namespace MyLexer

/-- The `for` loop of source `skipLineComment`, on the unread runes; it returns the runes left
unread.  The empty list is the read that fails with `io.EOF`. -/
def skipLineCommentLoop (lastIsHyphen : Bool) : List Nat → List Nat
  | [] => []
  | r :: rest =>
      if isNewline r then rest
      else if r == 45 then
        if lastIsHyphen then rest
        else skipLineCommentLoop true rest
      else skipLineCommentLoop false rest

/-- Source `skipLineComment`. -/
def skipLineComment (lex : MyLexer) : MyLexer :=
  { lex with bufReader := skipLineCommentLoop false lex.bufReader }

/-- The `for` loop of source `skipBlockComment` with its two flags; the recursive call of
`skipBlockComment` is the loop started afresh.  `fuel` bounds the number of iterations and
calls; `none` is returned when it is used up. -/
def skipBlockCommentLoop : Nat → Bool → Bool → MyLexer → Option MyLexer
  | 0, _, _, _ => none
  | fuel + 1, lastIsOpeningSlash, lastIsClosingStar, lex =>
      let (r, eof, lex) := lex.readRune
      if eof then some lex
      else if r == 47 then
        if lastIsClosingStar then some lex
        else skipBlockCommentLoop fuel true lastIsClosingStar lex
      else if r == 42 then
        if lastIsOpeningSlash then
          match skipBlockCommentLoop fuel false false lex with
          | none => none
          | some lex => skipBlockCommentLoop fuel false false lex
        else skipBlockCommentLoop fuel lastIsOpeningSlash true lex
      else skipBlockCommentLoop fuel false false lex

/-- Source `skipBlockComment`; every iteration and every nested call reads a rune, so one
more unit of fuel than there are unread runes is enough. -/
def skipBlockComment (lex : MyLexer) : Option MyLexer :=
  skipBlockCommentLoop (lex.bufReader.length + 1) false false lex

/-- The exit of the loop of `consumeWord` at a rune that ends the word (or at end of input):
`unread` is the rune to push back, if one was read. -/
def consumeWordEnd (acc : List Nat) (unread : Option Nat) (rest : List Nat) :
    Except Message (List Nat) × List Nat :=
  let label := acc
  if label.getLast? == some 45 then (.error (.endsOnHyphen label), rest)
  else
    match unread with
    | some r => (.ok label, r :: rest)
    | none => (.ok label, rest)

/-- The `for` loop of source `consumeWord`, on the unread runes, with the accumulated word
`acc` and the last rune `lastR`; it returns the result and the runes left unread. -/
def consumeWordLoop (U : UnicodeTables) (acc : List Nat) (lastR : Nat) :
    List Nat → Except Message (List Nat) × List Nat
  | [] => consumeWordEnd acc none []
  | r :: rest =>
      if isWhitespace r || !isIdentifierChar U r then consumeWordEnd acc (some r) rest
      else if !isIdentifierChar U r then
        (.error (.expectedIdentifierChar r (acc ++ [r])), rest)
      else
        let acc := acc ++ [r]
        if lastR == 45 && r == 45 then (.error (.twoHyphens acc), rest)
        else consumeWordLoop U acc r rest

/-- Source `consumeWord`. -/
def consumeWord (U : UnicodeTables) (lex : MyLexer) : Except Message (List Nat) × MyLexer :=
  let (r, _, lex) := lex.readRune
  let (res, rest) := consumeWordLoop U [r] r lex.bufReader
  (res, { lex with bufReader := rest })

/-- The exit of the loop of `consumeNumber`: the digits read are converted with `Atoi`. -/
def consumeNumberEnd (T : TokenCodes) (acc : List Nat) (lex : MyLexer) (lval : yySymType) :
    Int × MyLexer × yySymType :=
  let repr := acc
  match Atoi repr with
  | .error e => (-1, lex.Error (.failedToParseNumber repr e), lval)
  | .ok i => (T.code .NUMBER, lex, { lval with numberRepr := repr, number := i })

/-- The `for` loop of source `consumeNumber`, by recursion on the unread runes. -/
def consumeNumberLoop (T : TokenCodes) (U : UnicodeTables) (acc : List Nat) (lex : MyLexer)
    (lval : yySymType) : List Nat → Int × MyLexer × yySymType
  | [] => consumeNumberEnd T acc { lex with bufReader := [] } lval
  | r :: rest =>
      if !IsDigit U r then
        consumeNumberEnd T acc (({ lex with bufReader := rest } : MyLexer).unreadRune r) lval
      else consumeNumberLoop T U (acc ++ [r]) lex lval rest

/-- Source `consumeNumber`. -/
def consumeNumber (T : TokenCodes) (U : UnicodeTables) (lex : MyLexer) (lval : yySymType) :
    Int × MyLexer × yySymType :=
  let (r, eof, lex) := lex.readRune
  if eof then (-1, lex.Error .eof, lval)
  else consumeNumberLoop T U [r] lex lval lex.bufReader

/-- The end of source `consumeNumberOrReal`: `NUMBER` when the value is still `NaN`,
`REALNUMBER` otherwise. -/
def consumeNumberOrRealEnd (T : TokenCodes) (lex : MyLexer) (lval : yySymType)
    (realValue : Float64) (fullRepr : List Nat) : Int × MyLexer × yySymType :=
  if realValue.IsNaN then (T.code .NUMBER, lex, lval)
  else (T.code .REALNUMBER, lex, { lval with real := realValue, numberRepr := fullRepr })

/-- The exponent block of source `consumeNumberOrReal` (`if unicode.ToLower(lex.peekRune())
== 'e'`) followed by the end of the function. -/
def consumeNumberOrRealExponent (T : TokenCodes) (U : UnicodeTables) (lex : MyLexer)
    (lval : yySymType) (realValue : Float64) (fullRepr : List Nat) :
    Int × MyLexer × yySymType :=
  if ToLower U lex.peekRune == 101 then
    let realValue := if realValue.IsNaN then Float64.ofInt lval.number else realValue
    let (r, _, lex) := lex.readRune
    let fullRepr := fullRepr ++ [r]
    let exponent : Int := 1
    let possibleSignRune := lex.peekRune
    let (exponent, fullRepr, lex) :=
      if possibleSignRune == 45 then
        ((-1 : Int), fullRepr ++ [possibleSignRune], (lex.readRune).2.2)
      else (exponent, fullRepr, lex)
    let firstExponentRune := lex.peekRune
    if IsDigit U firstExponentRune then
      let (res, lex, lval) := lex.consumeNumber T U lval
      if res != T.code .NUMBER then (res, lex, lval)
      else
        let exponent := exponent * lval.number
        let fullRepr := fullRepr ++ lval.numberRepr
        let realValue := realValue * Float64.Pow10 exponent
        consumeNumberOrRealEnd T lex lval realValue fullRepr
    else
      let lex := lex.Error (.expectedExponent fullRepr firstExponentRune)
      consumeNumberOrRealEnd T lex lval realValue fullRepr
  else consumeNumberOrRealEnd T lex lval realValue fullRepr

/-- The fraction block of source `consumeNumberOrReal` (`if lex.peekRune() == '.'`) followed
by the rest of the function. -/
def consumeNumberOrRealFraction (T : TokenCodes) (U : UnicodeTables) (lex : MyLexer)
    (lval : yySymType) (realValue : Float64) (fullRepr : List Nat) :
    Int × MyLexer × yySymType :=
  if lex.peekRune == 46 then
    let realValue := if realValue.IsNaN then Float64.ofInt lval.number else realValue
    let lex := (lex.readRune).2.2
    let fullRepr := fullRepr ++ [46]
    if IsDigit U lex.peekRune then
      let (res, lex, lval) := lex.consumeNumber T U lval
      if res != T.code .NUMBER then (res, lex, lval)
      else
        let fullRepr := fullRepr ++ lval.numberRepr
        let shift := Float64.Pow10 (ceilLog10 lval.number)
        let realValue := realValue + Float64.ofInt lval.number / shift
        consumeNumberOrRealExponent T U lex lval realValue fullRepr
    else consumeNumberOrRealExponent T U lex lval realValue fullRepr
  else consumeNumberOrRealExponent T U lex lval realValue fullRepr

set_option linter.unusedVariables false in
/-- Source `consumeNumberOrReal`.  As in the source, `fullRepr` first receives the sign
(`fullRepr += "-"`) and is then assigned the digits of the integer part
(`fullRepr = lval.numberRepr`), which discards the sign. -/
def consumeNumberOrReal (T : TokenCodes) (U : UnicodeTables) (lex : MyLexer)
    (lval : yySymType) (realStart : Float64) : Int × MyLexer × yySymType :=
  let realValue := realStart
  let fullRepr : List Nat := []
  let fullRepr := if realStart = Float64.fin (-1) then fullRepr ++ [45] else fullRepr
  let (res, lex, lval) := lex.consumeNumber T U lval
  if res != T.code .NUMBER then (res, lex, lval)
  else
    let realValue := realValue * Float64.ofInt lval.number
    let fullRepr := lval.numberRepr
    consumeNumberOrRealFraction T U lex lval realValue fullRepr

/-- Source `consumeSingleSymbol`. -/
def consumeSingleSymbol (T : TokenCodes) (lex : MyLexer) (r : Nat) : Int × MyLexer :=
  if r == 123 then (T.code .OPEN_CURLY, lex)
  else if r == 125 then (T.code .CLOSE_CURLY, lex)
  else if r == 60 then (T.code .LESS, lex)
  else if r == 62 then (T.code .GREATER, lex)
  else if r == 44 then (T.code .COMMA, lex)
  else if r == 46 then (T.code .DOT, lex)
  else if r == 40 then (T.code .OPEN_ROUND, lex)
  else if r == 41 then (T.code .CLOSE_ROUND, lex)
  else if r == 91 then (T.code .OPEN_SQUARE, lex)
  else if r == 93 then (T.code .CLOSE_SQUARE, lex)
  else if r == 45 then (T.code .MINUS, lex)
  else if r == 58 then (T.code .COLON, lex)
  else if r == 61 then (T.code .EQUALS, lex)
  else if r == 34 then (T.code .QUOTATION_MARK, lex)
  else if r == 39 then (T.code .APOSTROPHE, lex)
  else if r == 32 then (T.code .SPACE, lex)
  else if r == 59 then (T.code .SEMICOLON, lex)
  else if r == 64 then (T.code .AT, lex)
  else if r == 124 then (T.code .PIPE, lex)
  else if r == 33 then (T.code .EXCLAMATION, lex)
  else if r == 94 then (T.code .CARET, lex)
  else (-1, lex.Error (.unexpectedCharacter r))

/-- The `for` loop of source `Lex`.  `fuel` bounds the number of iterations; `none` is
returned when it is used up.  The result is the returned code with the lexer and the
`lval` record as the call leaves them. -/
def LexLoop (T : TokenCodes) (U : UnicodeTables) :
    Nat → MyLexer → yySymType → Option (Int × MyLexer × yySymType)
  | 0, _, _ => none
  | fuel + 1, lex, lval =>
      let (r, eof, lex) := lex.readRune
      if eof then some (0, lex, lval)
      else if isWhitespace r then LexLoop T U fuel lex lval
      else if r == 45 && lex.peekRune == 45 then LexLoop T U fuel lex.skipLineComment lval
      else if r == 47 && lex.peekRune == 42 then
        match lex.skipBlockComment with
        | none => none
        | some lex => LexLoop T U fuel lex lval
      else if IsLetter U r then
        let lex := lex.unreadRune r
        let (res, lex) := lex.consumeWord U
        match res with
        | .error e => some (-1, lex.Error e, lval)
        | .ok content =>
            if IsUpper U r then
              match lookupReserved content with
              | some code => some (T.code code, lex, lval)
              | none => some (T.code .TYPEORMODULEREFERENCE, lex, { lval with name := content })
            else some (T.code .VALUEIDENTIFIER, lex, { lval with name := content })
      else if IsDigit U r then
        let lex := lex.unreadRune r
        some (lex.consumeNumberOrReal T U lval Float64.NaN)
      else if r == 45 && IsDigit U lex.peekRune then
        some (lex.consumeNumberOrReal T U lval (Float64.fin (-1)))
      else if r == 58 && lex.peekRunes 2 == [58, 61] then
        some (T.code .ASSIGNMENT, lex.discard 2, lval)
      else if r == 46 && lex.peekRunes 2 == [46, 46] then
        some (T.code .ELLIPSIS, lex.discard 2, lval)
      else if r == 46 && lex.peekRune == 46 then
        some (T.code .RANGE_SEPARATOR, lex.discard 1, lval)
      else if r == 91 && lex.peekRune == 91 then
        some (T.code .LEFT_VERSION_BRACKETS, lex.discard 1, lval)
      else if r == 93 && lex.peekRune == 93 then
        some (T.code .RIGHT_VERSION_BRACKETS, lex.discard 1, lval)
      else
        let (code, lex) := lex.consumeSingleSymbol T r
        some (code, lex, lval)

/-- Source `Lex`.  Every iteration of its loop reads at least one rune, so one more unit of
fuel than there are unread runes is enough. -/
def Lex (T : TokenCodes) (U : UnicodeTables) (lex : MyLexer) (lval : yySymType) :
    Option (Int × MyLexer × yySymType) :=
  LexLoop T U (lex.bufReader.length + 1) lex lval

end MyLexer

/-! ## Vocabulary of the statements -/

open MyLexer

/-- No two adjacent runes of the list are both hyphens. -/
def noDoubleHyphen : List Nat → Bool
  | a :: b :: t => !(a == 45 && b == 45) && noDoubleHyphen (b :: t)
  | _ => true

/-- ASCII letter, ASCII digit or hyphen. -/
def asciiIdent (c : Nat) : Bool :=
  (65 ≤ c && c ≤ 90) || (97 ≤ c && c ≤ 122) || (48 ≤ c && c ≤ 57) || c == 45

/-- An entry of the reserved-word table is in order: its key starts with an ASCII capital,
continues with ASCII identifier characters, has no doubled and no trailing hyphen, is looked up
to the value of the entry, and that value is a keyword constant. -/
def reservedEntryOK (p : List Nat × Token) : Bool :=
  match p.1 with
  | [] => false
  | l :: run =>
      (65 ≤ l && l ≤ 90) && run.all asciiIdent && noDoubleHyphen (l :: run) &&
        ((l :: run).getLast? != some 45) && (lookupReserved (l :: run) == some p.2) &&
        (p.2 != Token.TYPEORMODULEREFERENCE) && (p.2 != Token.VALUEIDENTIFIER)

/-- A well-formed word: the first rune is a letter, every further rune is a letter, a digit or
a hyphen, no two hyphens are adjacent and the last rune is not a hyphen. -/
def wellFormedWord (U : UnicodeTables) (w : List Nat) : Bool :=
  match w with
  | [] => false
  | l :: run =>
      IsLetter U l && run.all (isIdentifierChar U) && noDoubleHyphen (l :: run) &&
        ((l :: run).getLast? != some 45)

/-- The zero value of `yySymType`, as a caller passes it to `Lex`. -/
def yySymType.zero : yySymType := ⟨[], 0, [], Float64.fin 0⟩

/-- A non-empty string of ASCII decimal digits. -/
def asciiDigits (s : List Nat) : Bool := !s.isEmpty && s.all isAsciiDigit

/-- A non-empty ASCII digit string whose value fits the 64-bit `int`. -/
def digitsFit (s : List Nat) : Bool := asciiDigits s && decide ((digitsValue s : Int) ≤ maxInt)

/-- The value `consumeNumberOrReal` holds in `realValue` once a dot or an exponent marker has
been seen: the integer just read when `realValue` was still `NaN`. -/
def realOrNumber (realValue : Float64) (number : Int) : Float64 :=
  if realValue.IsNaN then Float64.ofInt number else realValue

/-- The text of an optional minus sign. -/
def signText (neg : Bool) : List Nat := if neg then [45] else []

/-- An unsigned numeric literal `digits [. digits*] [(e|E) [-] digits]` in its parts: the
integer digits, the digits after the dot when a dot is written, and the exponent marker with
its sign and digits when an exponent is written. -/
structure NumLit where
  intDigits : List Nat
  frac : Option (List Nat)
  exp : Option (Nat × Bool × List Nat)

/-- The text of the optional fraction part. -/
def fracText : Option (List Nat) → List Nat
  | none => []
  | some f => 46 :: f

/-- The text of the optional exponent part. -/
def expText : Option (Nat × Bool × List Nat) → List Nat
  | none => []
  | some (c, neg, ds) => c :: (signText neg ++ ds)

/-- The text of a literal. -/
def NumLit.text (n : NumLit) : List Nat := n.intDigits ++ (fracText n.frac ++ expText n.exp)

/-- The digits written after the dot, none when there is no dot. -/
def NumLit.fracDigits (n : NumLit) : List Nat :=
  match n.frac with
  | none => []
  | some f => f

/-- The parts of the literal are in order: every digit run written is a non-empty ASCII digit
string that fits the `int` (the run after the dot may also be empty), and the exponent marker
is `e` or `E`. -/
def NumLit.wellFormed (n : NumLit) : Bool :=
  digitsFit n.intDigits &&
    (match n.frac with
      | none => true
      | some f => f.isEmpty || digitsFit f) &&
    (match n.exp with
      | none => true
      | some (c, _, ds) => (c == 101 || c == 69) && digitsFit ds)

/-- Digits are written after the dot and their value is zero, as in `3.0`. -/
def NumLit.zeroFraction (n : NumLit) : Bool :=
  !n.fracDigits.isEmpty && digitsValue n.fracDigits == 0

/-- The mantissa as the code reads it is zero: the digits after the dot have the value zero,
or there are none and the integer part has the value zero. -/
def NumLit.zeroMantissa (n : NumLit) : Bool :=
  n.zeroFraction || (n.fracDigits.isEmpty && digitsValue n.intDigits == 0)

/-- The literals on which `consumeNumberOrReal` ends with `realValue` being `NaN` although a
dot or an exponent was read: no exponent and digits of value zero after the dot (`3.0`), or an
exponent without a minus sign above 308 after a mantissa read as zero (`0e400`, `3.0e400`). -/
def NumLit.slips (n : NumLit) : Bool :=
  match n.exp with
  | none => n.zeroFraction
  | some (_, neg, ds) => !neg && decide (308 < digitsValue ds) && n.zeroMantissa

/-- The literals of the amended round-trip statement: the parts are in order and the literal
is not one of those on which the code slips. -/
def NumLit.admissible (n : NumLit) : Bool := n.wellFormed && !n.slips

/-- The `parse lexem` part of the body of the loop of `Lex`, entered with the rune `r` just
read: every branch of it returns. -/
def lexToken (T : TokenCodes) (U : UnicodeTables) (r : Nat) (lex : MyLexer) (lval : yySymType) :
    Int × MyLexer × yySymType :=
  if IsLetter U r then
    let lex := lex.unreadRune r
    let (res, lex) := lex.consumeWord U
    match res with
    | .error e => (-1, lex.Error e, lval)
    | .ok content =>
        if IsUpper U r then
          match lookupReserved content with
          | some code => (T.code code, lex, lval)
          | none => (T.code .TYPEORMODULEREFERENCE, lex, { lval with name := content })
        else (T.code .VALUEIDENTIFIER, lex, { lval with name := content })
  else if IsDigit U r then
    let lex := lex.unreadRune r
    lex.consumeNumberOrReal T U lval Float64.NaN
  else if r == 45 && IsDigit U lex.peekRune then
    lex.consumeNumberOrReal T U lval (Float64.fin (-1))
  else if r == 58 && lex.peekRunes 2 == [58, 61] then
    (T.code .ASSIGNMENT, lex.discard 2, lval)
  else if r == 46 && lex.peekRunes 2 == [46, 46] then
    (T.code .ELLIPSIS, lex.discard 2, lval)
  else if r == 46 && lex.peekRune == 46 then
    (T.code .RANGE_SEPARATOR, lex.discard 1, lval)
  else if r == 91 && lex.peekRune == 91 then
    (T.code .LEFT_VERSION_BRACKETS, lex.discard 1, lval)
  else if r == 93 && lex.peekRune == 93 then
    (T.code .RIGHT_VERSION_BRACKETS, lex.discard 1, lval)
  else
    let (code, lex) := lex.consumeSingleSymbol T r
    (code, lex, lval)

/-- What a call of `consumeNumberOrReal` (or a part of it) can leave behind when it is entered
with the recorded error `e` and `n` unread runes: no more unread runes than before, and either
`NUMBER` with the recorded error untouched, or `REALNUMBER` with the recorded error untouched
or replaced by a message, or `-1` with a message recorded. -/
def numberOutcome (T : TokenCodes) (e : Option Message) (n : Nat)
    (res : Int × MyLexer × yySymType) : Prop :=
  res.2.1.bufReader.length ≤ n ∧
    ((res.1 = T.code .NUMBER ∧ res.2.1.err = e) ∨
      (res.1 = T.code .REALNUMBER ∧ (res.2.1.err = e ∨ ∃ m, res.2.1.err = some m)) ∨
      (res.1 = -1 ∧ ∃ m, res.2.1.err = some m))

/-- The token is the value of an entry of `RESERVED_WORDS`. -/
def isKeyword (t : Token) : Bool := RESERVED_WORDS.any (fun p => p.2 == t)

/-- What the token part of `Lex`, entered with the rune `r` just read, the recorded error `e`
and `n` unread runes, can leave behind: no more unread runes than before; the recorded error
untouched, or replaced by a message when the code is `-1` or `REALNUMBER`; and a code that is
`-1` or the code of a token `t`, where `t` is a word token only if `r` is a letter and
`lval.name` is a well-formed word, and `t` is `SPACE` only if `r` is the space rune. -/
def tokenOutcome (T : TokenCodes) (U : UnicodeTables) (r : Nat) (e : Option Message) (n : Nat)
    (res : Int × MyLexer × yySymType) : Prop :=
  res.2.1.bufReader.length ≤ n ∧
    (res.2.1.err = e ∨
      ((res.1 = -1 ∨ res.1 = T.code .REALNUMBER) ∧ ∃ m, res.2.1.err = some m)) ∧
    (res.1 = -1 ∨ ∃ t, res.1 = T.code t ∧
      (t = .TYPEORMODULEREFERENCE ∨ t = .VALUEIDENTIFIER →
        IsLetter U r = true ∧ wellFormedWord U res.2.2.name = true) ∧
      (t = .SPACE → r = 32))

/-- The twenty punctuation characters of the specification, each with its token. -/
def punctuationTokens : List (Nat × Token) :=
  [ (123, Token.OPEN_CURLY), (125, Token.CLOSE_CURLY), (60, Token.LESS), (62, Token.GREATER),
    (44, Token.COMMA), (46, Token.DOT), (40, Token.OPEN_ROUND), (41, Token.CLOSE_ROUND),
    (91, Token.OPEN_SQUARE), (93, Token.CLOSE_SQUARE), (45, Token.MINUS), (58, Token.COLON),
    (61, Token.EQUALS), (34, Token.QUOTATION_MARK), (39, Token.APOSTROPHE),
    (59, Token.SEMICOLON), (64, Token.AT), (124, Token.PIPE), (33, Token.EXCLAMATION),
    (94, Token.CARET) ]

/-- The calls of `Lex` a parser makes one after the other on the same lexer and `lval`:
`lexCalls T U n lex lval` is what call number `n + 1` returns, with the state it leaves. -/
def lexCalls (T : TokenCodes) (U : UnicodeTables) :
    Nat → MyLexer → yySymType → Option (Int × MyLexer × yySymType)
  | 0, lex, lval => MyLexer.Lex T U lex lval
  | n + 1, lex, lval =>
      match MyLexer.Lex T U lex lval with
      | none => none
      | some (_, lex, lval) => lexCalls T U n lex lval

/-- No two adjacent runes of the list are `*` and `/` in this order. -/
def noStarSlash : List Nat → Bool
  | a :: b :: t => !(a == 42 && b == 47) && noStarSlash (b :: t)
  | _ => true

/-- The text left once the `depth` block comments that are open are closed, reading from left
to right: `/*` opens one more comment and `*/` closes the innermost one; `none` when the text
ends with a comment still open. -/
def closeComments : Nat → List Nat → Option (List Nat)
  | 0, s => some s
  | _ + 1, [] => none
  | _ + 1, [_] => none
  | d + 1, a :: b :: rest =>
      if a == 47 && b == 42 then closeComments (d + 2) rest
      else if a == 42 && b == 47 then closeComments d rest
      else closeComments (d + 1) (b :: rest)

/-! ## The recorded error across calls -/

/-- The state `lex` that a call leaves when it is started with no recorded error, as the same
call leaves it when it is started with the recorded error `e`: the error that the call itself
recorded if there is one, and `e` otherwise. -/
def afterPrior (e : Option Message) (lex : MyLexer) : MyLexer :=
  { lex with err := match lex.err with
      | some m => some m
      | none => e }

/-- The result of a call with `afterPrior` applied to the lexer it leaves. -/
def withPrior (e : Option Message) (res : Int × MyLexer × yySymType) :
    Int × MyLexer × yySymType :=
  (res.1, afterPrior e res.2.1, res.2.2)

/-! ## The text recorded for a number -/

/-- The text begins with a digit. -/
def startsWithDigit (U : UnicodeTables) : List Nat → Bool
  | [] => false
  | d :: _ => IsDigit U d

/-- What a call can leave in `lval.numberRepr` when it is entered with the text `old` there:
the text `old`, or a text that begins with a digit. -/
def reprOutcome (U : UnicodeTables) (old : List Nat) (res : Int × MyLexer × yySymType) : Prop :=
  res.2.2.numberRepr = old ∨ startsWithDigit U res.2.2.numberRepr = true

/-! ## float64 arithmetic -/

namespace Float64

@[simp]
theorem NaN_mul (x : Float64) : NaN * x = NaN := by cases x <;> rfl

@[simp]
theorem IsNaN_NaN : IsNaN NaN = true := rfl

@[simp]
theorem IsNaN_fin (a : Rat) : IsNaN (fin a) = false := rfl

@[simp]
theorem IsNaN_Inf (s : Bool) : IsNaN (Inf s) = false := rfl

theorem log2Aux_spec : ∀ (fuel n : Nat), n ≤ fuel → 1 ≤ n →
    2 ^ log2Aux fuel n ≤ n ∧ n < 2 ^ (log2Aux fuel n + 1) := by
  intro fuel
  induction fuel with
  | zero => intro n h1 h2; omega
  | succ fuel ih =>
    intro n hle h1
    rw [log2Aux]
    by_cases h : n < 2
    · rw [if_pos h]
      have : n = 1 := by omega
      subst this
      simp
    · rw [if_neg h]
      obtain ⟨h3, h4⟩ := ih (n / 2) (by omega) (by omega)
      constructor
      · rw [pow_succ]; omega
      · rw [pow_succ]; omega

theorem natLog2_spec (n : Nat) (h : 1 ≤ n) :
    2 ^ natLog2 n ≤ n ∧ n < 2 ^ (natLog2 n + 1) :=
  log2Aux_spec n n (le_refl _) h

theorem two_zpow_pos (e : Int) : (0 : Rat) < 2 ^ e := zpow_pos (by norm_num) e

theorem pow2_eq (u : Int) : pow2 u = (2 : Rat) ^ u := by
  unfold pow2
  by_cases h : 0 ≤ u
  · rw [if_pos h]
    obtain ⟨n, rfl⟩ := Int.eq_ofNat_of_zero_le h
    simp
  · rw [if_neg h]
    obtain ⟨n, hn⟩ := Int.eq_ofNat_of_zero_le (show 0 ≤ -u by omega)
    have hu : u = -(n : Int) := by omega
    subst hu
    simp

theorem floorLog2_spec (q : Rat) (hq : 0 < q) :
    (2 : Rat) ^ floorLog2 q ≤ q ∧ q < 2 ^ (floorLog2 q + 1) := by
  have hnum : 0 < q.num := Rat.num_pos.mpr hq
  have hN : 1 ≤ q.num.natAbs := by omega
  have hD : 1 ≤ q.den := q.den_pos
  obtain ⟨a1, a2⟩ := natLog2_spec q.num.natAbs hN
  obtain ⟨b1, b2⟩ := natLog2_spec q.den hD
  have hqeq : q = (q.num.natAbs : Rat) / (q.den : Rat) := by
    have h1 : ((q.num.natAbs : Int) : Rat) = (q.num : Rat) := by
      rw [Int.natAbs_of_nonneg (le_of_lt hnum)]
    have h2 : (q.num.natAbs : Rat) = (q.num : Rat) :=
      (Int.cast_natCast q.num.natAbs).symm.trans h1
    rw [h2]
    exact (Rat.num_div_den q).symm
  have hDpos : (0 : Rat) < (q.den : Rat) := by exact_mod_cast hD
  have ha1 : (2 : Rat) ^ (natLog2 q.num.natAbs : Int) ≤ (q.num.natAbs : Rat) := by
    rw [zpow_natCast]; exact_mod_cast a1
  have ha2 : (q.num.natAbs : Rat) < (2 : Rat) ^ ((natLog2 q.num.natAbs : Int) + 1) := by
    have : ((natLog2 q.num.natAbs : Int) + 1) = ((natLog2 q.num.natAbs + 1 : Nat) : Int) := by
      push_cast; ring
    rw [this, zpow_natCast]; exact_mod_cast a2
  have hb1 : (2 : Rat) ^ (natLog2 q.den : Int) ≤ (q.den : Rat) := by
    rw [zpow_natCast]; exact_mod_cast b1
  have hb2 : (q.den : Rat) < (2 : Rat) ^ ((natLog2 q.den : Int) + 1) := by
    have : ((natLog2 q.den : Int) + 1) = ((natLog2 q.den + 1 : Nat) : Int) := by
      push_cast; ring
    rw [this, zpow_natCast]; exact_mod_cast b2
  set A : Int := (natLog2 q.num.natAbs : Int) with hA
  set B : Int := (natLog2 q.den : Int) with hB
  have hupper : q < (2 : Rat) ^ (A - B + 1) := by
    have h2 : (2 : Rat) ^ (A - B + 1) = 2 ^ (A + 1) / 2 ^ B := by
      rw [← zpow_sub₀ (by norm_num : (2 : Rat) ≠ 0)]
      congr 1; ring
    rw [h2, hqeq, div_lt_div_iff₀ hDpos (two_zpow_pos B)]
    calc (q.num.natAbs : Rat) * 2 ^ B ≤ (q.num.natAbs : Rat) * (q.den : Rat) := by
          apply mul_le_mul_of_nonneg_left hb1
          exact_mod_cast Nat.zero_le _
      _ < 2 ^ (A + 1) * (q.den : Rat) := by
          apply mul_lt_mul_of_pos_right ha2 hDpos
  have hlower : (2 : Rat) ^ (A - B - 1) ≤ q := by
    have h2 : (2 : Rat) ^ (A - B - 1) = 2 ^ A / 2 ^ (B + 1) := by
      rw [← zpow_sub₀ (by norm_num : (2 : Rat) ≠ 0)]
      congr 1; ring
    rw [h2, hqeq, div_le_div_iff₀ (two_zpow_pos (B + 1)) hDpos]
    calc (2 : Rat) ^ A * (q.den : Rat) ≤ (q.num.natAbs : Rat) * (q.den : Rat) := by
          apply mul_le_mul_of_nonneg_right ha1 (le_of_lt hDpos)
      _ ≤ (q.num.natAbs : Rat) * 2 ^ (B + 1) := by
          apply mul_le_mul_of_nonneg_left (le_of_lt hb2)
          exact_mod_cast Nat.zero_le _
  simp only [floorLog2, pow2_eq]
  by_cases hc : (2 : Rat) ^ (A - B) ≤ q
  · rw [if_pos hc]
    exact ⟨hc, hupper⟩
  · rw [if_neg hc]
    refine ⟨hlower, ?_⟩
    have : A - B - 1 + 1 = A - B := by ring
    rw [this]
    exact lt_of_not_le hc

theorem roundHalfEven_int (z : Int) : roundHalfEven (z : Rat) = z := by
  simp [roundHalfEven]

theorem roundHalfEven_bounds (t : Rat) (L H : Int) (hL : (L : Rat) ≤ t) (hH : t ≤ (H : Rat)) :
    L ≤ roundHalfEven t ∧ roundHalfEven t ≤ H := by
  have hfl : L ≤ ⌊t⌋ := Int.le_floor.mpr hL
  have hfloor : ((⌊t⌋ : Int) : Rat) ≤ t := Int.floor_le t
  have hmH : ⌊t⌋ ≤ H := by
    have : ((⌊t⌋ : Int) : Rat) ≤ (H : Rat) := le_trans hfloor hH
    exact_mod_cast this
  have hup : (0 : Rat) < t - ⌊t⌋ → ⌊t⌋ + 1 ≤ H := by
    intro hpos
    have : ((⌊t⌋ : Int) : Rat) < (H : Rat) := lt_of_lt_of_le (by linarith) hH
    have : ⌊t⌋ < H := by exact_mod_cast this
    omega
  simp only [roundHalfEven]
  split_ifs with h1 h2 h3
  · exact ⟨hfl, hmH⟩
  · exact ⟨by omega, hup (by linarith)⟩
  · exact ⟨hfl, hmH⟩
  · have hhalf : t - ⌊t⌋ = 1 / 2 := le_antisymm (not_lt.mp h2) (not_lt.mp h1)
    exact ⟨by omega, hup (by rw [hhalf]; norm_num)⟩


theorem two_zpow_natCast (n : Nat) : (2 : Rat) ^ (n : Int) = (((2 : Int) ^ n : Int) : Rat) := by
  rw [zpow_natCast]; push_cast; rfl

theorem roundMag_bracket (a : Rat) (j k : Int) (hj : -1022 ≤ j) (hk : k ≤ 1023)
    (h1 : (2 : Rat) ^ j ≤ a) (h2 : a ≤ 2 ^ k) :
    ∃ r, roundMag a = some r ∧ (2 : Rat) ^ j ≤ r ∧ r ≤ 2 ^ k := by
  have ha : 0 < a := lt_of_lt_of_le (two_zpow_pos j) h1
  obtain ⟨s1, s2⟩ := floorLog2_spec a ha
  set e := floorLog2 a with he
  have hje : j ≤ e := by
    have : (2 : Rat) ^ j < 2 ^ (e + 1) := lt_of_le_of_lt h1 s2
    have := (zpow_lt_zpow_iff_right₀ (by norm_num : (1 : Rat) < 2)).mp this
    omega
  have hek : e ≤ k :=
    (zpow_le_zpow_iff_right₀ (by norm_num : (1 : Rat) < 2)).mp (le_trans s1 h2)
  have hu : max e (-1022) - 52 = e - 52 := by rw [max_eq_left (by omega)]
  have hupos := two_zpow_pos (e - 52)
  have hL : (((2 : Int) ^ 52 : Int) : Rat) ≤ a / 2 ^ (e - 52) := by
    rw [le_div_iff₀ hupos, ← two_zpow_natCast 52, ← zpow_add₀ (by norm_num : (2 : Rat) ≠ 0)]
    have : ((52 : Nat) : Int) + (e - 52) = e := by push_cast; ring
    rw [this]
    exact s1
  obtain ⟨n, hn⟩ := Int.eq_ofNat_of_zero_le (show 0 ≤ k - (e - 52) by omega)
  have hH : a / 2 ^ (e - 52) ≤ (((2 : Int) ^ n : Int) : Rat) := by
    rw [div_le_iff₀ hupos, ← two_zpow_natCast n, ← zpow_add₀ (by norm_num : (2 : Rat) ≠ 0)]
    have : (n : Int) + (e - 52) = k := by omega
    rw [this]
    exact h2
  obtain ⟨b1, b2⟩ := roundHalfEven_bounds _ _ _ hL hH
  have hr1 : (2 : Rat) ^ e ≤ (roundHalfEven (a / 2 ^ (e - 52)) : Rat) * 2 ^ (e - 52) := by
    have : (2 : Rat) ^ e = (((2 : Int) ^ 52 : Int) : Rat) * 2 ^ (e - 52) := by
      rw [← two_zpow_natCast 52, ← zpow_add₀ (by norm_num : (2 : Rat) ≠ 0)]
      congr 1; push_cast; ring
    rw [this]
    apply mul_le_mul_of_nonneg_right _ (le_of_lt hupos)
    exact_mod_cast b1
  have hr2 : (roundHalfEven (a / 2 ^ (e - 52)) : Rat) * 2 ^ (e - 52) ≤ 2 ^ k := by
    have : (2 : Rat) ^ k = (((2 : Int) ^ n : Int) : Rat) * 2 ^ (e - 52) := by
      rw [← two_zpow_natCast n, ← zpow_add₀ (by norm_num : (2 : Rat) ≠ 0)]
      congr 1; omega
    rw [this]
    apply mul_le_mul_of_nonneg_right _ (le_of_lt hupos)
    exact_mod_cast b2
  have hlt : ¬ (2 : Rat) ^ (1024 : Int) ≤
      (roundHalfEven (a / 2 ^ (e - 52)) : Rat) * 2 ^ (e - 52) := by
    intro hcon
    have : (2 : Rat) ^ (1024 : Int) ≤ 2 ^ k := le_trans hcon hr2
    have := (zpow_le_zpow_iff_right₀ (by norm_num : (1 : Rat) < 2)).mp this
    omega
  refine ⟨(roundHalfEven (a / 2 ^ (e - 52)) : Rat) * 2 ^ (e - 52), ?_,
    le_trans (zpow_le_zpow_right₀ (by norm_num) hje) hr1, hr2⟩
  simp only [roundMag, pow2_eq, ← he, hu]
  rw [if_neg hlt]

theorem round_zero : round 0 = fin 0 := by simp [round]

theorem IsNaN_round (q : Rat) : IsNaN (round q) = false := by
  unfold round
  by_cases h : q = 0
  · rw [if_pos h]; rfl
  · rw [if_neg h]
    cases roundMag |q| <;> rfl

theorem round_bracket (q : Rat) (j k : Int) (hj : -1022 ≤ j) (hk : k ≤ 1023)
    (h1 : (2 : Rat) ^ j ≤ q) (h2 : q ≤ 2 ^ k) :
    ∃ r, round q = fin r ∧ (2 : Rat) ^ j ≤ r ∧ r ≤ 2 ^ k := by
  have hq : 0 < q := lt_of_lt_of_le (two_zpow_pos j) h1
  obtain ⟨r, hr, b1, b2⟩ := roundMag_bracket q j k hj hk h1 h2
  refine ⟨r, ?_, b1, b2⟩
  unfold round
  rw [if_neg (ne_of_gt hq), abs_of_pos hq, hr]
  simp [not_lt.mpr (le_of_lt hq)]

theorem roundMag_exact (a : Rat) (z : Int)
    (hz : a = (z : Rat) * 2 ^ (max (floorLog2 a) (-1022) - 52)) (hlt : a < 2 ^ (1024 : Int)) :
    roundMag a = some a := by
  have hupos := two_zpow_pos (max (floorLog2 a) (-1022) - 52)
  have ht : a / 2 ^ (max (floorLog2 a) (-1022) - 52) = (z : Rat) := by
    rw [div_eq_iff (ne_of_gt hupos)]
    exact hz
  simp only [roundMag, pow2_eq, ht, roundHalfEven_int, ← hz]
  rw [if_neg (not_le.mpr hlt)]

theorem round_nat_exact (n : Nat) (hn : n < 2 ^ 53) : round (n : Rat) = fin (n : Rat) := by
  rcases Nat.eq_zero_or_pos n with rfl | hpos
  · simp [round]
  have ha : (0 : Rat) < (n : Rat) := by exact_mod_cast hpos
  obtain ⟨s1, s2⟩ := floorLog2_spec (n : Rat) ha
  set e := floorLog2 (n : Rat) with he
  have hn' : (n : Rat) < 2 ^ (53 : Int) := by
    have h53 : (2 : Rat) ^ (53 : Int) = ((2 ^ 53 : Nat) : Rat) := by norm_num
    rw [h53]
    exact_mod_cast hn
  have he1 : e < 53 :=
    (zpow_lt_zpow_iff_right₀ (by norm_num : (1 : Rat) < 2)).mp (lt_of_le_of_lt s1 hn')
  have he0 : 0 ≤ e := by
    have h1 : (2 : Rat) ^ (0 : Int) ≤ (n : Rat) := by
      simp only [zpow_zero]
      exact_mod_cast hpos
    have := (zpow_lt_zpow_iff_right₀ (by norm_num : (1 : Rat) < 2)).mp (lt_of_le_of_lt h1 s2)
    omega
  have hu : max e (-1022) - 52 = e - 52 := by rw [max_eq_left (by omega)]
  obtain ⟨m, hm⟩ := Int.eq_ofNat_of_zero_le (show 0 ≤ 52 - e by omega)
  have hmag : roundMag (n : Rat) = some (n : Rat) := by
    apply roundMag_exact _ ((n : Int) * 2 ^ m)
    · rw [← he, hu]
      push_cast
      rw [mul_assoc, ← zpow_natCast (2 : Rat) m, ← zpow_add₀ (by norm_num : (2 : Rat) ≠ 0)]
      have : (m : Int) + (e - 52) = 0 := by omega
      rw [this]
      simp
    · exact lt_trans hn' (zpow_lt_zpow_iff_right₀ (by norm_num : (1 : Rat) < 2) |>.mpr (by norm_num))
  unfold round
  rw [if_neg (ne_of_gt ha), abs_of_pos ha, hmag]
  simp [not_lt.mpr (le_of_lt ha)]


theorem round_upper (q : Rat) (k : Int) (hk1 : -1022 ≤ k) (hk : k ≤ 1023) (h0 : 0 ≤ q)
    (h2 : q ≤ 2 ^ k) : ∃ r, round q = fin r ∧ 0 ≤ r ∧ r ≤ 2 ^ k := by
  rcases eq_or_lt_of_le h0 with rfl | hq
  · exact ⟨0, round_zero, le_refl _, le_of_lt (two_zpow_pos k)⟩
  obtain ⟨s1, s2⟩ := floorLog2_spec q hq
  set e := floorLog2 q with he
  have hek : e ≤ k :=
    (zpow_le_zpow_iff_right₀ (by norm_num : (1 : Rat) < 2)).mp (le_trans s1 h2)
  set u := max e (-1022) - 52 with hu
  have hupos := two_zpow_pos u
  have huk : u + 52 ≤ k := by
    rw [hu]
    rcases le_total e (-1022) with h | h
    · rw [max_eq_right h]; omega
    · rw [max_eq_left h]; omega
  have hL : (((0 : Int) : Int) : Rat) ≤ q / 2 ^ u := by
    simp only [Int.cast_zero]
    exact div_nonneg h0 (le_of_lt hupos)
  obtain ⟨n, hn⟩ := Int.eq_ofNat_of_zero_le (show 0 ≤ k - u by omega)
  have hH : q / 2 ^ u ≤ (((2 : Int) ^ n : Int) : Rat) := by
    rw [div_le_iff₀ hupos, ← two_zpow_natCast n, ← zpow_add₀ (by norm_num : (2 : Rat) ≠ 0)]
    have : (n : Int) + u = k := by omega
    rw [this]
    exact h2
  obtain ⟨b1, b2⟩ := roundHalfEven_bounds _ _ _ hL hH
  have hr1 : (0 : Rat) ≤ (roundHalfEven (q / 2 ^ u) : Rat) * 2 ^ u := by
    apply mul_nonneg _ (le_of_lt hupos)
    exact_mod_cast b1
  have hr2 : (roundHalfEven (q / 2 ^ u) : Rat) * 2 ^ u ≤ 2 ^ k := by
    have : (2 : Rat) ^ k = (((2 : Int) ^ n : Int) : Rat) * 2 ^ u := by
      rw [← two_zpow_natCast n, ← zpow_add₀ (by norm_num : (2 : Rat) ≠ 0)]
      congr 1; omega
    rw [this]
    apply mul_le_mul_of_nonneg_right _ (le_of_lt hupos)
    exact_mod_cast b2
  have hlt : ¬ (2 : Rat) ^ (1024 : Int) ≤ (roundHalfEven (q / 2 ^ u) : Rat) * 2 ^ u := by
    intro hcon
    have : (2 : Rat) ^ (1024 : Int) ≤ 2 ^ k := le_trans hcon hr2
    have := (zpow_le_zpow_iff_right₀ (by norm_num : (1 : Rat) < 2)).mp this
    omega
  refine ⟨(roundHalfEven (q / 2 ^ u) : Rat) * 2 ^ u, ?_, hr1, hr2⟩
  unfold round
  rw [if_neg (ne_of_gt hq), abs_of_pos hq]
  simp only [roundMag, pow2_eq, ← he, ← hu]
  rw [if_neg hlt]
  simp [not_lt.mpr (le_of_lt hq)]

set_option maxRecDepth 100000 in
theorem round_two_pow_53 : round ((2 ^ 53 : Nat) : Rat) = fin ((2 ^ 53 : Nat) : Rat) := by
  decide!

theorem round_nat_exact_le (n : Nat) (hn : n ≤ 2 ^ 53) : round (n : Rat) = fin (n : Rat) := by
  rcases Nat.lt_or_eq_of_le hn with h | h
  · exact round_nat_exact n h
  · rw [h]; exact round_two_pow_53

theorem ofInt_natCast (n : Nat) : ofInt (n : Int) = round (n : Rat) := by
  simp [ofInt]

theorem ofInt_zero : ofInt 0 = fin 0 := by simp [ofInt, round]

theorem ofInt_exact (n : Nat) (hn : n ≤ 2 ^ 53) : ofInt (n : Int) = fin (n : Rat) := by
  rw [ofInt_natCast, round_nat_exact_le n hn]

theorem IsNaN_ofInt (i : Int) : IsNaN (ofInt i) = false := IsNaN_round _

theorem ofInt_pos (n : Nat) (h1 : 1 ≤ n) (h2 : n ≤ 2 ^ 63) :
    ∃ r, ofInt (n : Int) = fin r ∧ 1 ≤ r ∧ r ≤ 2 ^ (63 : Int) := by
  rw [ofInt_natCast]
  have := round_bracket (n : Rat) 0 63 (by norm_num) (by norm_num)
    (by simp only [zpow_zero]; exact_mod_cast h1)
    (by have h63 : (2 : Rat) ^ (63 : Int) = ((2 ^ 63 : Nat) : Rat) := by norm_num
        rw [h63]; exact_mod_cast h2)
  simpa using this

set_option maxRecDepth 1000000 in
theorem Pow10_small_check :
    (List.range 23).all (fun k => decide (Pow10 (k : Int) = fin ((10 ^ k : Nat) : Rat))) = true := by
  decide!

set_option maxRecDepth 1000000 in
theorem Pow10_high_check :
    (List.range 21).all (fun i => isFin (Pow10 ((i : Int) + 288))) = true := by
  decide!

theorem Pow10_small (k : Nat) (hk : k ≤ 22) : Pow10 (k : Int) = fin ((10 : Rat) ^ k) := by
  have hmem : k ∈ List.range 23 := List.mem_range.mpr (by omega)
  have h := List.all_eq_true.mp Pow10_small_check k hmem
  simpa using h

theorem Pow10_of_gt (n : Int) (h : 308 < n) : Pow10 n = Inf false := by
  unfold Pow10
  rw [if_neg (by omega), if_neg (by omega), if_pos (by omega)]

theorem Pow10_of_lt (n : Int) (h : n < -323) : Pow10 n = fin 0 := by
  unfold Pow10
  rw [if_neg (by omega), if_neg (by omega), if_neg (by omega)]

theorem pow10tab_bracket (i : Nat) (hi : i ≤ 31) :
    ∃ r, pow10tab i = fin r ∧ 1 ≤ r ∧ r ≤ 2 ^ (103 : Int) := by
  have h1 : (1 : Rat) ≤ ((10 ^ i : Nat) : Rat) := by
    exact_mod_cast Nat.one_le_pow _ _ (by norm_num)
  have h2 : ((10 ^ i : Nat) : Rat) ≤ 2 ^ (103 : Int) := by
    have h103 : (2 : Rat) ^ (103 : Int) = ((2 ^ 103 : Nat) : Rat) := by norm_num
    rw [h103]
    have : 10 ^ i ≤ 10 ^ 31 := Nat.pow_le_pow_right (by norm_num) hi
    exact_mod_cast le_trans this (by norm_num)
  have := round_bracket _ 0 103 (by norm_num) (by norm_num) (by simpa using h1) h2
  simpa [pow10tab] using this

theorem pow10postab32_bracket (i : Nat) (hi : i ≤ 8) :
    ∃ r, pow10postab32 i = fin r ∧ 1 ≤ r ∧ r ≤ 2 ^ (851 : Int) := by
  have h1 : (1 : Rat) ≤ ((10 ^ (32 * i) : Nat) : Rat) := by
    exact_mod_cast Nat.one_le_pow _ _ (by norm_num)
  have h2 : ((10 ^ (32 * i) : Nat) : Rat) ≤ 2 ^ (851 : Int) := by
    have h851 : (2 : Rat) ^ (851 : Int) = ((2 ^ 851 : Nat) : Rat) := by norm_num
    rw [h851]
    have : 10 ^ (32 * i) ≤ 10 ^ 256 := Nat.pow_le_pow_right (by norm_num) (by omega)
    exact_mod_cast le_trans this (by norm_num)
  have := round_bracket _ 0 851 (by norm_num) (by norm_num) (by simpa using h1) h2
  simpa [pow10postab32] using this

theorem pow10negtab32_upper (i : Nat) :
    ∃ r, pow10negtab32 i = fin r ∧ 0 ≤ r ∧ r ≤ 1 := by
  have hpos : (0 : Rat) < ((10 ^ (32 * i) : Nat) : Rat) := by
    exact_mod_cast Nat.pow_pos (by norm_num : 0 < 10)
  have h1 : (1 : Rat) ≤ ((10 ^ (32 * i) : Nat) : Rat) := by
    exact_mod_cast Nat.one_le_pow _ _ (by norm_num)
  have := round_upper (1 / ((10 ^ (32 * i) : Nat) : Rat)) 0 (by norm_num) (by norm_num)
    (le_of_lt (div_pos one_pos hpos))
    (by rw [zpow_zero, div_le_one hpos]; exact h1)
  simpa [pow10negtab32] using this

theorem fin_mul_fin (a b : Rat) : fin a * fin b = round (a * b) := rfl

theorem fin_add_fin (a b : Rat) : fin a + fin b = round (a + b) := rfl

theorem fin_div_fin (a b : Rat) :
    fin a / fin b =
      if b = 0 then (if a = 0 then NaN else Inf (decide (a < 0))) else round (a / b) := rfl

theorem Pow10_finite (n : Int) (h : n ≤ 308) : ∃ q, Pow10 n = fin q := by
  by_cases hlow : n < -323
  · exact ⟨0, Pow10_of_lt n hlow⟩
  by_cases hneg : n ≤ 0
  · by_cases h0 : 0 ≤ n
    · have : n = 0 := le_antisymm hneg h0
      subst this
      exact ⟨_, Pow10_small 0 (by norm_num)⟩
    obtain ⟨r1, e1, a1, a2⟩ := pow10negtab32_upper ((-n).toNat / 32)
    obtain ⟨r2, e2, b1, b2⟩ := pow10tab_bracket ((-n).toNat % 32) (by omega)
    have hr2 : r2 ≠ 0 := by linarith
    have hq : 0 ≤ r1 / r2 := div_nonneg a1 (by linarith)
    have hq1 : r1 / r2 ≤ 2 ^ (0 : Int) := by
      rw [zpow_zero, div_le_one (by linarith)]
      linarith
    obtain ⟨r, hr, _, _⟩ := round_upper (r1 / r2) 0 (by norm_num) (by norm_num) hq hq1
    refine ⟨r, ?_⟩
    unfold Pow10
    rw [if_neg (by omega), if_pos (by omega), e1, e2, fin_div_fin, if_neg hr2, hr]
  by_cases hhigh : 288 ≤ n
  · obtain ⟨i, hi⟩ := Int.eq_ofNat_of_zero_le (show 0 ≤ n - 288 by omega)
    have hmem : i ∈ List.range 21 := List.mem_range.mpr (by omega)
    have hc := List.all_eq_true.mp Pow10_high_check i hmem
    have hn : (i : Int) + 288 = n := by omega
    rw [hn] at hc
    cases hp : Pow10 n with
    | NaN => rw [hp] at hc; cases hc
    | Inf s => rw [hp] at hc; cases hc
    | fin p => exact ⟨p, rfl⟩
  · obtain ⟨r1, e1, a1, a2⟩ := pow10postab32_bracket (n.toNat / 32) (by omega)
    obtain ⟨r2, e2, b1, b2⟩ := pow10tab_bracket (n.toNat % 32) (by omega)
    have hlo : (2 : Rat) ^ (0 : Int) ≤ r1 * r2 := by
      rw [zpow_zero]
      nlinarith
    have hhi : r1 * r2 ≤ 2 ^ (954 : Int) := by
      have : (2 : Rat) ^ (954 : Int) = 2 ^ (851 : Int) * 2 ^ (103 : Int) := by
        rw [← zpow_add₀ (by norm_num : (2 : Rat) ≠ 0)]; norm_num
      rw [this]
      exact mul_le_mul a2 b2 (by linarith) (le_of_lt (two_zpow_pos _))
    obtain ⟨r, hr, _, _⟩ := round_bracket (r1 * r2) 0 954 (by norm_num) (by norm_num) hlo hhi
    refine ⟨r, ?_⟩
    unfold Pow10
    rw [if_pos (by omega), e1, e2, fin_mul_fin, hr]

end Float64

/-! ## Character classes -/

theorem isWhitespace_iff (r : Nat) :
    isWhitespace r = true ↔ r = 9 ∨ r = 10 ∨ r = 11 ∨ r = 12 ∨ r = 13 ∨ r = 32 := by
  simp [isWhitespace, or_assoc]

theorem IsLetter_small {U : UnicodeTables} {r : Nat} (h : r < 128) :
    IsLetter U r = true ↔ (65 ≤ r ∧ r ≤ 90) ∨ (97 ≤ r ∧ r ≤ 122) := by
  simp [IsLetter, h]

theorem IsDigit_small {U : UnicodeTables} {r : Nat} (h : r < 128) :
    IsDigit U r = true ↔ 48 ≤ r ∧ r ≤ 57 := by
  simp [IsDigit, h]

theorem letter_not_special {U : UnicodeTables} {r : Nat} (h : IsLetter U r = true) :
    isWhitespace r = false ∧ r ≠ 45 ∧ r ≠ 47 := by
  by_cases hs : r < 128
  · rw [IsLetter_small hs] at h
    refine ⟨?_, by omega, by omega⟩
    rw [Bool.eq_false_iff, Ne, isWhitespace_iff]
    omega
  · refine ⟨?_, by omega, by omega⟩
    rw [Bool.eq_false_iff, Ne, isWhitespace_iff]
    omega

theorem ident_not_whitespace {U : UnicodeTables} {r : Nat} (h : isIdentifierChar U r = true) :
    isWhitespace r = false := by
  rw [Bool.eq_false_iff, Ne, isWhitespace_iff]
  intro hw
  have hs : r < 128 := by omega
  simp only [isIdentifierChar, Bool.or_eq_true, IsLetter_small hs, IsDigit_small hs, beq_iff_eq] at h
  omega

theorem consumeWordLoop_run (U : UnicodeTables) (rest : List Nat)
    (hrest : ∀ r, rest.head? = some r → isIdentifierChar U r = false) :
    ∀ (run acc : List Nat) (lastR : Nat),
      (∀ c ∈ run, isIdentifierChar U c = true) →
      noDoubleHyphen (lastR :: run) = true →
      consumeWordLoop U acc lastR (run ++ rest) = consumeWordEnd (acc ++ run) rest.head? rest.tail := by
  intro run
  induction run with
  | nil =>
    intro acc lastR _ _
    cases rest with
    | nil => simp [consumeWordLoop]
    | cons r rest' =>
      have := hrest r rfl
      simp [consumeWordLoop, this]
  | cons c run ih =>
    intro acc lastR hrun hnd
    have hc : isIdentifierChar U c = true := hrun c (List.mem_cons_self _ _)
    have hw := ident_not_whitespace hc
    simp only [noDoubleHyphen, Bool.and_eq_true, Bool.not_eq_true'] at hnd
    have := ih (acc ++ [c]) c (fun d hd => hrun d (List.mem_cons_of_mem _ hd)) hnd.2
    simp [consumeWordLoop, hc, hw, hnd.1, this]

theorem consumeWordLoop_twoHyphens (U : UnicodeTables) (rest : List Nat) :
    ∀ (run acc : List Nat) (lastR : Nat),
      (∀ c ∈ run, isIdentifierChar U c = true) →
      noDoubleHyphen (lastR :: run) = false →
      ∃ acc' rest', consumeWordLoop U acc lastR (run ++ rest) = (.error (.twoHyphens acc'), rest') := by
  intro run
  induction run with
  | nil => intro acc lastR _ h; simp [noDoubleHyphen] at h
  | cons c run ih =>
    intro acc lastR hrun hnd
    have hc : isIdentifierChar U c = true := hrun c (List.mem_cons_self _ _)
    have hw := ident_not_whitespace hc
    by_cases h2 : (lastR == 45 && c == 45) = true
    · exact ⟨acc ++ [c], run ++ rest, by simp [consumeWordLoop, hc, hw, h2]⟩
    · simp only [noDoubleHyphen, h2, Bool.not_false, Bool.true_and] at hnd
      obtain ⟨a, r, h⟩ := ih (acc ++ [c]) c (fun d hd => hrun d (List.mem_cons_of_mem _ hd)) hnd
      exact ⟨a, r, by simp [consumeWordLoop, hc, hw, h2, h]⟩


theorem consumeWordEnd_ok (w rest : List Nat) (h : w.getLast? ≠ some 45) :
    consumeWordEnd w rest.head? rest.tail = (.ok w, rest) := by
  cases rest <;> simp [consumeWordEnd, h]

theorem consumeWord_ok (U : UnicodeTables) (l : Nat) (run rest : List Nat) (e : Option Message)
    (hrun : ∀ c ∈ run, isIdentifierChar U c = true)
    (hrest : ∀ r, rest.head? = some r → isIdentifierChar U r = false)
    (hnd : noDoubleHyphen (l :: run) = true) (hlast : (l :: run).getLast? ≠ some 45) :
    consumeWord U ⟨l :: (run ++ rest), e⟩ = (.ok (l :: run), ⟨rest, e⟩) := by
  have h := consumeWordLoop_run U rest hrest run [l] l hrun hnd
  simp only [List.singleton_append] at h
  simp [consumeWord, readRune, h, consumeWordEnd_ok _ _ hlast]

theorem LexLoop_letter (T : TokenCodes) (U : UnicodeTables) (fuel : Nat) (l : Nat)
    (tail : List Nat) (e : Option Message) (lval : yySymType) (hl : IsLetter U l = true) :
    LexLoop T U (fuel + 1) ⟨l :: tail, e⟩ lval =
      match consumeWord U ⟨l :: tail, e⟩ with
      | (.error msg, lex) => some (-1, lex.Error msg, lval)
      | (.ok content, lex) =>
          if IsUpper U l then
            match lookupReserved content with
            | some code => some (T.code code, lex, lval)
            | none => some (T.code .TYPEORMODULEREFERENCE, lex, { lval with name := content })
          else some (T.code .VALUEIDENTIFIER, lex, { lval with name := content }) := by
  obtain ⟨hw, h45, h47⟩ := letter_not_special hl
  rw [LexLoop]
  simp only [readRune, hw, h45, h47, hl, unreadRune, beq_iff_eq, false_and, Bool.false_eq_true,
    if_false, if_true, Bool.and_eq_true]
  rcases consumeWord U ⟨l :: tail, e⟩ with ⟨res | c, lex⟩ <;> rfl

theorem Lex_letter (T : TokenCodes) (U : UnicodeTables) (l : Nat) (tail : List Nat)
    (e : Option Message) (lval : yySymType) (hl : IsLetter U l = true) :
    MyLexer.Lex T U ⟨l :: tail, e⟩ lval =
      match consumeWord U ⟨l :: tail, e⟩ with
      | (.error msg, lex) => some (-1, lex.Error msg, lval)
      | (.ok content, lex) =>
          if IsUpper U l then
            match lookupReserved content with
            | some code => some (T.code code, lex, lval)
            | none => some (T.code .TYPEORMODULEREFERENCE, lex, { lval with name := content })
          else some (T.code .VALUEIDENTIFIER, lex, { lval with name := content }) :=
  LexLoop_letter T U _ l tail e lval hl

theorem LexLoop_word (T : TokenCodes) (U : UnicodeTables) (fuel : Nat) (l : Nat)
    (run rest : List Nat) (e : Option Message) (lval : yySymType) (hl : IsLetter U l = true)
    (hrun : ∀ c ∈ run, isIdentifierChar U c = true)
    (hrest : ∀ r, rest.head? = some r → isIdentifierChar U r = false)
    (hnd : noDoubleHyphen (l :: run) = true) (hlast : (l :: run).getLast? ≠ some 45) :
    LexLoop T U (fuel + 1) ⟨l :: (run ++ rest), e⟩ lval =
      if IsUpper U l then
        match lookupReserved (l :: run) with
        | some code => some (T.code code, ⟨rest, e⟩, lval)
        | none => some (T.code .TYPEORMODULEREFERENCE, ⟨rest, e⟩, { lval with name := l :: run })
      else some (T.code .VALUEIDENTIFIER, ⟨rest, e⟩, { lval with name := l :: run }) := by
  rw [LexLoop_letter T U fuel l (run ++ rest) e lval hl,
    consumeWord_ok U l run rest e hrun hrest hnd hlast]

theorem Lex_word (T : TokenCodes) (U : UnicodeTables) (l : Nat) (run rest : List Nat)
    (e : Option Message) (lval : yySymType) (hl : IsLetter U l = true)
    (hrun : ∀ c ∈ run, isIdentifierChar U c = true)
    (hrest : ∀ r, rest.head? = some r → isIdentifierChar U r = false)
    (hnd : noDoubleHyphen (l :: run) = true) (hlast : (l :: run).getLast? ≠ some 45) :
    MyLexer.Lex T U ⟨l :: (run ++ rest), e⟩ lval =
      if IsUpper U l then
        match lookupReserved (l :: run) with
        | some code => some (T.code code, ⟨rest, e⟩, lval)
        | none => some (T.code .TYPEORMODULEREFERENCE, ⟨rest, e⟩, { lval with name := l :: run })
      else some (T.code .VALUEIDENTIFIER, ⟨rest, e⟩, { lval with name := l :: run }) :=
  LexLoop_word T U _ l run rest e lval hl hrun hrest hnd hlast

set_option maxRecDepth 100000 in
theorem reserved_entries_ok : RESERVED_WORDS.all reservedEntryOK = true := by decide


theorem asciiIdent_ident (U : UnicodeTables) {c : Nat} (h : asciiIdent c = true) :
    isIdentifierChar U c = true := by
  simp only [asciiIdent, Bool.or_eq_true, Bool.and_eq_true, decide_eq_true_eq, beq_iff_eq] at h
  have hs : c < 128 := by omega
  simp only [isIdentifierChar, Bool.or_eq_true, IsLetter_small hs, IsDigit_small hs, beq_iff_eq]
  omega

theorem Lex_eof (T : TokenCodes) (U : UnicodeTables) (e : Option Message) (lval : yySymType) :
    MyLexer.Lex T U ⟨[], e⟩ lval = some (0, ⟨[], e⟩, lval) := by
  simp [MyLexer.Lex, LexLoop, readRune]

theorem Lex_wellFormed (T : TokenCodes) (U : UnicodeTables) (w rest : List Nat)
    (e : Option Message) (lval : yySymType) (hw : wellFormedWord U w = true)
    (hrest : ∀ r, rest.head? = some r → isIdentifierChar U r = false) :
    MyLexer.Lex T U ⟨w ++ rest, e⟩ lval =
      if IsUpper U (w.headD 0) then
        match lookupReserved w with
        | some code => some (T.code code, ⟨rest, e⟩, lval)
        | none => some (T.code .TYPEORMODULEREFERENCE, ⟨rest, e⟩, { lval with name := w })
      else some (T.code .VALUEIDENTIFIER, ⟨rest, e⟩, { lval with name := w }) := by
  cases w with
  | nil => simp [wellFormedWord] at hw
  | cons l run =>
    simp only [wellFormedWord, Bool.and_eq_true, List.all_eq_true, bne_iff_ne] at hw
    obtain ⟨⟨⟨hl, hrun⟩, hnd⟩, hlast⟩ := hw
    exact Lex_word T U l run rest e lval hl hrun hrest hnd hlast

/-! ## Words -/

/-- C1. Every key `k` of `RESERVED_WORDS`, lexed as the whole input, yields the token code
`RESERVED_WORDS[k]`, which differs from `TYPEORMODULEREFERENCE`, from `VALUEIDENTIFIER` and
from the error code `-1`; no error is recorded, `lval` is untouched, the input is used up, and
the following `Lex` call returns `0`. -/
theorem reserved_word_yields_keyword (T : TokenCodes) (U : UnicodeTables) (lval : yySymType)
    (k : List Nat) (t : Token) (h : (k, t) ∈ RESERVED_WORDS) :
    MyLexer.Lex T U (MyLexer.start k) lval = some (T.code t, ⟨[], none⟩, lval) ∧
      T.code t ≠ T.code .TYPEORMODULEREFERENCE ∧ T.code t ≠ T.code .VALUEIDENTIFIER ∧
      T.code t ≠ -1 ∧
      MyLexer.Lex T U ⟨[], none⟩ lval = some (0, ⟨[], none⟩, lval) := by
  have hok := List.all_eq_true.mp reserved_entries_ok (k, t) h
  cases k with
  | nil => simp [reservedEntryOK] at hok
  | cons l run =>
    simp only [reservedEntryOK, Bool.and_eq_true, decide_eq_true_eq, List.all_eq_true,
      bne_iff_ne, beq_iff_eq] at hok
    obtain ⟨⟨⟨⟨⟨⟨hl, hrun⟩, hnd⟩, hlast⟩, hlook⟩, ht1⟩, ht2⟩ := hok
    have hs : l < 128 := by omega
    have hletter : IsLetter U l = true := (IsLetter_small hs).2 (Or.inl hl)
    have hupper : IsUpper U l = true := by simp [IsUpper, hs, hl]
    have h1 := Lex_word T U l run [] none lval hletter
      (fun c hc => asciiIdent_ident U (hrun c hc)) (by simp) hnd hlast
    simp only [List.append_nil, hupper, if_true, hlook] at h1
    refine ⟨h1, ?_, ?_, ?_, Lex_eof T U none lval⟩
    · exact fun hc => ht1 (T.code_inj _ _ hc)
    · exact fun hc => ht2 (T.code_inj _ _ hc)
    · have := T.code_pos t
      omega


theorem reserved_word_yields_keyword_witness :
    (str "SEQUENCE", Token.SEQUENCE) ∈ RESERVED_WORDS ∧
      MyLexer.Lex consecutiveCodes latin1Tables (MyLexer.start (str "SEQUENCE")) yySymType.zero =
        some (consecutiveCodes.code .SEQUENCE, ⟨[], none⟩, yySymType.zero) :=
  ⟨by decide,
    (reserved_word_yields_keyword consecutiveCodes latin1Tables yySymType.zero (str "SEQUENCE")
      Token.SEQUENCE (by decide)).1⟩

/-- C2. A well-formed word `w` given as the whole input: when its first rune is upper case and
`w` is not a key of `RESERVED_WORDS`, `Lex` returns `TYPEORMODULEREFERENCE` with
`lval.name = w`; when its first rune is not upper case (in particular when it is a lower-case
letter), `Lex` returns `VALUEIDENTIFIER` with `lval.name = w`, whatever the rest of `w` is.
No error is recorded and the input is used up. -/
theorem word_classified_by_first_rune (T : TokenCodes) (U : UnicodeTables) (lval : yySymType)
    (w : List Nat) (hw : wellFormedWord U w = true) :
    (IsUpper U (w.headD 0) = true → lookupReserved w = none →
        MyLexer.Lex T U (MyLexer.start w) lval =
          some (T.code .TYPEORMODULEREFERENCE, ⟨[], none⟩, { lval with name := w })) ∧
      (IsUpper U (w.headD 0) = false →
        MyLexer.Lex T U (MyLexer.start w) lval =
          some (T.code .VALUEIDENTIFIER, ⟨[], none⟩, { lval with name := w })) := by
  have h := Lex_wellFormed T U w [] none lval hw (by simp)
  rw [List.append_nil] at h
  constructor
  · intro hu hl
    rw [MyLexer.start, h, hu, if_pos rfl, hl]
  · intro hu
    rw [MyLexer.start, h, hu]
    rfl

theorem word_classified_by_first_rune_witness :
    (wellFormedWord latin1Tables (str "sEQUENCE") = true ∧
      MyLexer.Lex consecutiveCodes latin1Tables (MyLexer.start (str "sEQUENCE")) yySymType.zero =
        some (consecutiveCodes.code .VALUEIDENTIFIER, ⟨[], none⟩,
          { yySymType.zero with name := str "sEQUENCE" })) ∧
    (wellFormedWord latin1Tables (str "Foo-1") = true ∧
      MyLexer.Lex consecutiveCodes latin1Tables (MyLexer.start (str "Foo-1")) yySymType.zero =
        some (consecutiveCodes.code .TYPEORMODULEREFERENCE, ⟨[], none⟩,
          { yySymType.zero with name := str "Foo-1" })) :=
  ⟨⟨by decide,
    (word_classified_by_first_rune consecutiveCodes latin1Tables yySymType.zero (str "sEQUENCE")
      (by decide)).2 (by decide)⟩,
   ⟨by decide,
    (word_classified_by_first_rune consecutiveCodes latin1Tables yySymType.zero (str "Foo-1")
      (by decide)).1 (by decide) (by decide)⟩⟩

theorem Lex_word_error (T : TokenCodes) (U : UnicodeTables) (lval : yySymType)
    (l : Nat) (run rest : List Nat) (e : Option Message) (hl : IsLetter U l = true)
    (hrun : ∀ c ∈ run, isIdentifierChar U c = true)
    (hrest : ∀ r, rest.head? = some r → isIdentifierChar U r = false)
    (hbad : noDoubleHyphen run = false ∨ run.getLast? = some 45) :
    ∃ rest' msg, MyLexer.Lex T U ⟨l :: (run ++ rest), e⟩ lval = some (-1, ⟨rest', some msg⟩, lval) := by
  rw [Lex_letter T U l (run ++ rest) e lval hl]
  have h45 := (letter_not_special hl).2.1
  by_cases hnd : noDoubleHyphen (l :: run) = true
  · have hnd' : noDoubleHyphen run = true := by
      cases run with
      | nil => rfl
      | cons c run => simp only [noDoubleHyphen, Bool.and_eq_true] at hnd; exact hnd.2
    have hlast : run.getLast? = some 45 := by
      rcases hbad with hb | hb
      · rw [hnd'] at hb; cases hb
      · exact hb
    have hlast' : (l :: run).getLast? = some 45 := by
      cases run with
      | nil => simp at hlast
      | cons c run => simpa [List.getLast?_cons_cons] using hlast
    have h := consumeWordLoop_run U rest hrest run [l] l hrun hnd
    simp only [List.singleton_append] at h
    refine ⟨rest.tail, .endsOnHyphen (l :: run), ?_⟩
    simp [consumeWord, readRune, h, consumeWordEnd, hlast', MyLexer.Error]
  · have hnd' : noDoubleHyphen (l :: run) = false := by simpa using hnd
    obtain ⟨acc', rest', h⟩ := consumeWordLoop_twoHyphens U rest run [l] l hrun hnd'
    refine ⟨rest', .twoHyphens acc', ?_⟩
    simp [consumeWord, readRune, h, MyLexer.Error]


/-- C3. An input that starts with a letter `l` followed by a maximal run `run` of identifier
characters in which two hyphens are adjacent, or whose last character is a hyphen, makes `Lex`
return `-1` with an error message recorded; the input `foo-bar` yields `VALUEIDENTIFIER` with
name `foo-bar` and no error. -/
theorem malformed_hyphen_word_is_error (T : TokenCodes) (U : UnicodeTables) (lval : yySymType)
    (l : Nat) (run rest : List Nat) (hl : IsLetter U l = true)
    (hrun : ∀ c ∈ run, isIdentifierChar U c = true)
    (hrest : ∀ r, rest.head? = some r → isIdentifierChar U r = false)
    (hbad : noDoubleHyphen run = false ∨ run.getLast? = some 45) :
    (∃ rest' msg, MyLexer.Lex T U (MyLexer.start (l :: (run ++ rest))) lval =
        some (-1, ⟨rest', some msg⟩, lval)) ∧
      MyLexer.Lex T U (MyLexer.start (str "foo-bar")) lval =
        some (T.code .VALUEIDENTIFIER, ⟨[], none⟩, { lval with name := str "foo-bar" }) := by
  refine ⟨Lex_word_error T U lval l run rest none hl hrun hrest hbad, ?_⟩
  have h := Lex_wellFormed T U (str "foo-bar") [] none lval
    (by simp [wellFormedWord, str, IsLetter, IsDigit, isIdentifierChar, noDoubleHyphen])
    (by simp)
  have hup : IsUpper U ((str "foo-bar").headD 0) = false := by simp [str, IsUpper]
  rw [List.append_nil, hup] at h
  exact h

theorem malformed_hyphen_word_is_error_witness :
    ((∃ rest' msg, MyLexer.Lex consecutiveCodes latin1Tables (MyLexer.start (str "foo--bar baz"))
        yySymType.zero = some (-1, ⟨rest', some msg⟩, yySymType.zero)) ∧
      MyLexer.Lex consecutiveCodes latin1Tables (MyLexer.start (str "foo-bar")) yySymType.zero =
        some (consecutiveCodes.code .VALUEIDENTIFIER, ⟨[], none⟩,
          { yySymType.zero with name := str "foo-bar" })) ∧
    (∃ rest' msg, MyLexer.Lex consecutiveCodes latin1Tables (MyLexer.start (str "foo-"))
        yySymType.zero = some (-1, ⟨rest', some msg⟩, yySymType.zero)) :=
  ⟨malformed_hyphen_word_is_error consecutiveCodes latin1Tables yySymType.zero 102
      (str "oo--bar") (str " baz") (by decide) (by decide) (by decide) (by decide),
   (malformed_hyphen_word_is_error consecutiveCodes latin1Tables yySymType.zero 102
      (str "oo-") [] (by decide) (by decide) (by decide) (by decide)).1⟩



theorem isAsciiDigit_iff (c : Nat) : isAsciiDigit c = true ↔ 48 ≤ c ∧ c ≤ 57 := by
  simp [isAsciiDigit]

theorem IsDigit_of_ascii (U : UnicodeTables) {c : Nat} (h : isAsciiDigit c = true) :
    IsDigit U c = true := by
  rw [isAsciiDigit_iff] at h
  exact (IsDigit_small (by omega)).2 h

theorem asciiDigit_not_special (U : UnicodeTables) {c : Nat} (h : isAsciiDigit c = true) :
    isWhitespace c = false ∧ c ≠ 45 ∧ c ≠ 47 ∧ IsLetter U c = false := by
  rw [isAsciiDigit_iff] at h
  refine ⟨?_, by omega, by omega, ?_⟩
  · rw [Bool.eq_false_iff, Ne, isWhitespace_iff]; omega
  · rw [Bool.eq_false_iff, Ne, IsLetter_small (by omega)]; omega

theorem Atoi_digits {s : List Nat} (h : asciiDigits s = true) :
    Atoi s = if (digitsValue s : Int) ≤ maxInt then .ok (digitsValue s : Int)
      else .error .ErrRange := by
  cases s with
  | nil => simp [asciiDigits] at h
  | cons d ds =>
    simp only [asciiDigits, List.isEmpty_cons, Bool.not_false, Bool.true_and] at h
    have hd : isAsciiDigit d = true := by
      simp only [List.all_cons, Bool.and_eq_true] at h; exact h.1
    rw [isAsciiDigit_iff] at hd
    have h43 : d ≠ 43 := by omega
    have h45 : d ≠ 45 := by omega
    simp [Atoi, h43, h45, h]

theorem consumeNumberLoop_digits (T : TokenCodes) (U : UnicodeTables) (lex : MyLexer)
    (lval : yySymType) (rest : List Nat)
    (hrest : ∀ r, rest.head? = some r → IsDigit U r = false) :
    ∀ (ds acc : List Nat), (∀ c ∈ ds, IsDigit U c = true) →
      consumeNumberLoop T U acc lex lval (ds ++ rest) =
        consumeNumberEnd T (acc ++ ds) { lex with bufReader := rest } lval := by
  intro ds
  induction ds with
  | nil =>
    intro acc _
    cases rest with
    | nil => simp [consumeNumberLoop]
    | cons r rest' =>
      have := hrest r rfl
      simp [consumeNumberLoop, this, unreadRune]
  | cons c ds ih =>
    intro acc hds
    have hc := hds c (List.mem_cons_self _ _)
    have := ih (acc ++ [c]) (fun d hd => hds d (List.mem_cons_of_mem _ hd))
    simp [consumeNumberLoop, hc, this]

theorem consumeNumber_digits (T : TokenCodes) (U : UnicodeTables) (s rest : List Nat)
    (e : Option Message) (lval : yySymType) (hs : asciiDigits s = true)
    (hrest : ∀ r, rest.head? = some r → IsDigit U r = false) :
    consumeNumber T U ⟨s ++ rest, e⟩ lval =
      if (digitsValue s : Int) ≤ maxInt then
        (T.code .NUMBER, ⟨rest, e⟩, { lval with numberRepr := s, number := (digitsValue s : Int) })
      else (-1, ⟨rest, some (.failedToParseNumber s .ErrRange)⟩, lval) := by
  have hA := Atoi_digits hs
  cases s with
  | nil => simp [asciiDigits] at hs
  | cons d ds =>
    simp only [asciiDigits, List.isEmpty_cons, Bool.not_false, Bool.true_and, List.all_cons,
      Bool.and_eq_true, List.all_eq_true] at hs
    have h := consumeNumberLoop_digits T U ⟨ds ++ rest, e⟩ lval rest hrest ds [d]
      (fun c hc => IsDigit_of_ascii U (hs.2 c hc))
    have h2 : consumeNumber T U ⟨d :: ds ++ rest, e⟩ lval =
        consumeNumberEnd T (d :: ds) ⟨rest, e⟩ lval := by
      simp [consumeNumber, readRune, h]
    rw [h2, consumeNumberEnd, hA]
    by_cases hfit : (digitsValue (d :: ds) : Int) ≤ maxInt <;> simp [hfit, MyLexer.Error]

theorem TokenCodes.neg_one_ne (T : TokenCodes) (t : Token) : (-1 : Int) ≠ T.code t := by
  have := T.code_pos t
  omega

theorem LexLoop_digit (T : TokenCodes) (U : UnicodeTables) (fuel : Nat) (d : Nat)
    (tail : List Nat) (e : Option Message) (lval : yySymType) (hd : isAsciiDigit d = true) :
    LexLoop T U (fuel + 1) ⟨d :: tail, e⟩ lval =
      some (consumeNumberOrReal T U ⟨d :: tail, e⟩ lval Float64.NaN) := by
  obtain ⟨hw, h45, h47, hl⟩ := asciiDigit_not_special U hd
  have hdig := IsDigit_of_ascii U hd
  rw [LexLoop]
  simp [readRune, hw, h45, h47, hl, hdig, unreadRune]

theorem Lex_digit (T : TokenCodes) (U : UnicodeTables) (d : Nat) (tail : List Nat)
    (e : Option Message) (lval : yySymType) (hd : isAsciiDigit d = true) :
    MyLexer.Lex T U ⟨d :: tail, e⟩ lval =
      some (consumeNumberOrReal T U ⟨d :: tail, e⟩ lval Float64.NaN) :=
  LexLoop_digit T U _ d tail e lval hd

theorem consumeNumberOrReal_digits (T : TokenCodes) (U : UnicodeTables) (s rest : List Nat)
    (e : Option Message) (lval : yySymType) (realStart : Float64) (hs : asciiDigits s = true)
    (hfit : (digitsValue s : Int) ≤ maxInt)
    (hrest : ∀ r, rest.head? = some r → IsDigit U r = false) :
    consumeNumberOrReal T U ⟨s ++ rest, e⟩ lval realStart =
      consumeNumberOrRealFraction T U ⟨rest, e⟩
        { lval with numberRepr := s, number := (digitsValue s : Int) }
        (realStart * Float64.ofInt (digitsValue s : Int)) s := by
  simp [consumeNumberOrReal, consumeNumber_digits T U s rest e lval hs hrest, hfit]

theorem consumeNumberOrReal_overflow (T : TokenCodes) (U : UnicodeTables) (s rest : List Nat)
    (e : Option Message) (lval : yySymType) (realStart : Float64) (hs : asciiDigits s = true)
    (hfit : ¬ (digitsValue s : Int) ≤ maxInt)
    (hrest : ∀ r, rest.head? = some r → IsDigit U r = false) :
    consumeNumberOrReal T U ⟨s ++ rest, e⟩ lval realStart =
      (-1, ⟨rest, some (.failedToParseNumber s .ErrRange)⟩, lval) := by
  simp [consumeNumberOrReal, consumeNumber_digits T U s rest e lval hs hrest, hfit,
    T.neg_one_ne]

theorem fraction_absent (T : TokenCodes) (U : UnicodeTables) (lex : MyLexer) (lval : yySymType)
    (rv : Float64) (fr : List Nat) (h : lex.peekRune ≠ 46) :
    consumeNumberOrRealFraction T U lex lval rv fr =
      consumeNumberOrRealExponent T U lex lval rv fr := by
  simp [consumeNumberOrRealFraction, h]

theorem fraction_dot_only (T : TokenCodes) (U : UnicodeTables) (rest : List Nat)
    (e : Option Message) (lval : yySymType) (rv : Float64) (fr : List Nat)
    (h : IsDigit U (rest.headD 0) = false) :
    consumeNumberOrRealFraction T U ⟨46 :: rest, e⟩ lval rv fr =
      consumeNumberOrRealExponent T U ⟨rest, e⟩ lval (realOrNumber rv lval.number)
        (fr ++ [46]) := by
  rw [List.headD_eq_head?_getD] at h
  simp [consumeNumberOrRealFraction, peekRune, readRune, h, realOrNumber]

theorem fraction_digits (T : TokenCodes) (U : UnicodeTables) (s rest : List Nat)
    (e : Option Message) (lval : yySymType) (rv : Float64) (fr : List Nat)
    (hs : asciiDigits s = true) (hfit : (digitsValue s : Int) ≤ maxInt)
    (hrest : ∀ r, rest.head? = some r → IsDigit U r = false) :
    consumeNumberOrRealFraction T U ⟨46 :: (s ++ rest), e⟩ lval rv fr =
      consumeNumberOrRealExponent T U ⟨rest, e⟩
        { lval with numberRepr := s, number := (digitsValue s : Int) }
        (realOrNumber rv lval.number +
          Float64.ofInt (digitsValue s : Int) / Float64.Pow10 (ceilLog10 (digitsValue s : Int)))
        (fr ++ [46] ++ s) := by
  obtain ⟨d, ds, rfl⟩ : ∃ d ds, s = d :: ds := by
    cases s with
    | nil => simp [asciiDigits] at hs
    | cons d ds => exact ⟨d, ds, rfl⟩
  have hd : isAsciiDigit d = true := by
    simp only [asciiDigits, List.isEmpty_cons, Bool.not_false, Bool.true_and, List.all_cons,
      Bool.and_eq_true] at hs
    exact hs.1
  have hdig := IsDigit_of_ascii U hd
  have hnum := consumeNumber_digits T U (d :: ds) rest e lval hs hrest
  rw [if_pos hfit, List.cons_append] at hnum
  simp [consumeNumberOrRealFraction, peekRune, readRune, hdig, realOrNumber, hnum]

theorem exponent_absent (T : TokenCodes) (U : UnicodeTables) (lex : MyLexer) (lval : yySymType)
    (rv : Float64) (fr : List Nat) (h : ToLower U lex.peekRune ≠ 101) :
    consumeNumberOrRealExponent T U lex lval rv fr = consumeNumberOrRealEnd T lex lval rv fr := by
  simp [consumeNumberOrRealExponent, h]

theorem exponent_digits (T : TokenCodes) (U : UnicodeTables) (c : Nat) (neg : Bool)
    (s rest : List Nat) (e : Option Message) (lval : yySymType) (rv : Float64) (fr : List Nat)
    (hc : c = 101 ∨ c = 69) (hs : asciiDigits s = true) (hfit : (digitsValue s : Int) ≤ maxInt)
    (hrest : ∀ r, rest.head? = some r → IsDigit U r = false) :
    consumeNumberOrRealExponent T U ⟨c :: (signText neg ++ (s ++ rest)), e⟩ lval rv fr =
      consumeNumberOrRealEnd T ⟨rest, e⟩
        { lval with numberRepr := s, number := (digitsValue s : Int) }
        (realOrNumber rv lval.number *
          Float64.Pow10 (if neg then -(digitsValue s : Int) else (digitsValue s : Int)))
        (fr ++ [c] ++ signText neg ++ s) := by
  have hlow : ToLower U c = 101 := by rcases hc with rfl | rfl <;> simp [ToLower]
  obtain ⟨d, ds, rfl⟩ : ∃ d ds, s = d :: ds := by
    cases s with
    | nil => simp [asciiDigits] at hs
    | cons d ds => exact ⟨d, ds, rfl⟩
  have hd : isAsciiDigit d = true := by
    simp only [asciiDigits, List.isEmpty_cons, Bool.not_false, Bool.true_and, List.all_cons,
      Bool.and_eq_true] at hs
    exact hs.1
  have hdig := IsDigit_of_ascii U hd
  have hd45 : d ≠ 45 := (asciiDigit_not_special U hd).2.1
  have hnum := consumeNumber_digits T U (d :: ds) rest e lval hs hrest
  rw [if_pos hfit, List.cons_append] at hnum
  cases neg
  · simp [consumeNumberOrRealExponent, peekRune, readRune, hlow, signText, hd45, hdig,
      realOrNumber, hnum]
  · simp [consumeNumberOrRealExponent, peekRune, readRune, hlow, signText, hdig,
      realOrNumber, hnum]

theorem NaN_end (T : TokenCodes) (lex : MyLexer) (lval : yySymType) (fr : List Nat) :
    consumeNumberOrRealEnd T lex lval Float64.NaN fr = (T.code .NUMBER, lex, lval) := by
  simp [consumeNumberOrRealEnd]

theorem fin_end (T : TokenCodes) (lex : MyLexer) (lval : yySymType) (q : Rat) (fr : List Nat) :
    consumeNumberOrRealEnd T lex lval (Float64.fin q) fr =
      (T.code .REALNUMBER, lex, { lval with real := Float64.fin q, numberRepr := fr }) := by
  simp [consumeNumberOrRealEnd]

theorem real_end (T : TokenCodes) (lex : MyLexer) (lval : yySymType) (rv : Float64)
    (fr : List Nat) (h : rv.IsNaN = false) :
    consumeNumberOrRealEnd T lex lval rv fr =
      (T.code .REALNUMBER, lex, { lval with real := rv, numberRepr := fr }) := by
  simp [consumeNumberOrRealEnd, h]

theorem asciiDigits_cons {s : List Nat} (hs : asciiDigits s = true) :
    ∃ d ds, s = d :: ds ∧ isAsciiDigit d = true := by
  cases s with
  | nil => simp [asciiDigits] at hs
  | cons d ds =>
    simp only [asciiDigits, List.isEmpty_cons, Bool.not_false, Bool.true_and, List.all_cons,
      Bool.and_eq_true] at hs
    exact ⟨d, ds, rfl, hs.1⟩

/-! ## Numbers -/

/-- C4. A non-empty string `s` of ASCII decimal digits given as the whole input: when its
decimal value fits the signed 64-bit `int`, `Lex` returns `NUMBER` with `lval.number` that
value and `lval.numberRepr = s` and records no error; when it does not fit, `Lex` returns `-1`
and records the message `Failed to parse number` with the range error of `Atoi`.  So a plain
digit run is an error exactly when it overflows. -/
theorem digit_run_is_number_unless_overflow (T : TokenCodes) (U : UnicodeTables)
    (lval : yySymType) (s : List Nat) (hs : asciiDigits s = true) :
    MyLexer.Lex T U (MyLexer.start s) lval =
      (if (digitsValue s : Int) ≤ maxInt then
        some (T.code .NUMBER, ⟨[], none⟩,
          { lval with numberRepr := s, number := (digitsValue s : Int) })
      else some (-1, ⟨[], some (.failedToParseNumber s .ErrRange)⟩, lval)) ∧
    ((∃ lex' lval', MyLexer.Lex T U (MyLexer.start s) lval = some (-1, lex', lval')) ↔
      ¬ (digitsValue s : Int) ≤ maxInt) := by
  have key : MyLexer.Lex T U (MyLexer.start s) lval =
      (if (digitsValue s : Int) ≤ maxInt then
        some (T.code .NUMBER, ⟨[], none⟩,
          { lval with numberRepr := s, number := (digitsValue s : Int) })
      else some (-1, ⟨[], some (.failedToParseNumber s .ErrRange)⟩, lval)) := by
    obtain ⟨d, ds, rfl, hd⟩ := asciiDigits_cons hs
    rw [MyLexer.start, Lex_digit T U d ds none lval hd]
    by_cases hfit : (digitsValue (d :: ds) : Int) ≤ maxInt
    · have h := consumeNumberOrReal_digits T U (d :: ds) [] none lval Float64.NaN hs hfit
        (by simp)
      rw [List.append_nil] at h
      rw [h, if_pos hfit, fraction_absent _ _ _ _ _ _ (by simp [peekRune]),
        exponent_absent _ _ _ _ _ _ (by simp [peekRune, ToLower]), Float64.NaN_mul, NaN_end]
    · have h := consumeNumberOrReal_overflow T U (d :: ds) [] none lval Float64.NaN hs hfit
        (by simp)
      rw [List.append_nil] at h
      rw [h, if_neg hfit]
  refine ⟨key, ?_⟩
  rw [key]
  by_cases hfit : (digitsValue s : Int) ≤ maxInt
  · simp [hfit, (T.neg_one_ne Token.NUMBER).symm]
  · simp [hfit]

theorem digit_run_is_number_unless_overflow_witness :
    (asciiDigits (str "42") = true ∧
      MyLexer.Lex consecutiveCodes latin1Tables (MyLexer.start (str "42")) yySymType.zero =
        some (consecutiveCodes.code .NUMBER, ⟨[], none⟩,
          { yySymType.zero with numberRepr := str "42", number := 42 })) ∧
    (asciiDigits (str "9223372036854775808") = true ∧
      MyLexer.Lex consecutiveCodes latin1Tables (MyLexer.start (str "9223372036854775808"))
          yySymType.zero =
        some (-1, ⟨[], some (.failedToParseNumber (str "9223372036854775808") .ErrRange)⟩,
          yySymType.zero)) :=
  ⟨⟨by decide,
    (digit_run_is_number_unless_overflow consecutiveCodes latin1Tables yySymType.zero (str "42")
      (by decide)).1.trans (by decide)⟩,
   ⟨by decide,
    (digit_run_is_number_unless_overflow consecutiveCodes latin1Tables yySymType.zero
      (str "9223372036854775808") (by decide)).1.trans (by decide)⟩⟩

set_option maxRecDepth 100000 in
theorem ceilLog10_five : ceilLog10 5 = 1 := by decide!

set_option maxRecDepth 100000 in
theorem ceilLog10_zero : ceilLog10 0 = -(2 : Int) ^ 63 := by decide!

theorem clog10Aux_le (n K : Nat) (hK : n ≤ 10 ^ K) :
    ∀ fuel k, k ≤ K → clog10Aux fuel k n ≤ K := by
  intro fuel
  induction fuel with
  | zero => intro k hk; simpa [clog10Aux] using hk
  | succ fuel ih =>
    intro k hk
    rw [clog10Aux]
    split
    · exact hk
    · rename_i hlt
      apply ih
      by_contra hcon
      have hkK : k = K := by omega
      subst hkK
      exact hlt hK

theorem ceilLog10_range (n : Nat) (h0 : n ≠ 0) (hfit : (n : Int) ≤ maxInt) :
    0 ≤ ceilLog10 (n : Int) ∧ ceilLog10 (n : Int) ≤ 19 := by
  have hn : n ≤ 2 ^ 63 := by
    simp only [maxInt] at hfit
    omega
  obtain ⟨r, hr, r1, r2⟩ := Float64.ofInt_pos n (by omega) hn
  have hpos : ¬ r ≤ 0 := by linarith
  have hceil : ⌈r⌉₊ ≤ 10 ^ 19 := by
    rw [Nat.ceil_le]
    have h63 : (2 : Rat) ^ (63 : Int) ≤ ((10 ^ 19 : Nat) : Rat) := by norm_num
    exact le_trans r2 h63
  have := clog10Aux_le ⌈r⌉₊ 19 hceil ⌈r⌉₊ 0 (by omega)
  simp only [ceilLog10, hr, if_neg hpos, clog10]
  omega

/-- The value in `realValue` after the digits `f` of a fraction of non-zero value have been
added to the finite value `a ≥ 0`: finite and positive. -/
theorem fraction_value_pos (a : Rat) (ha0 : 0 ≤ a) (ha : a ≤ 2 ^ (63 : Int)) (n : Nat)
    (h0 : n ≠ 0) (hfit : (n : Int) ≤ maxInt) :
    ∃ q, Float64.fin a + Float64.ofInt (n : Int) / Float64.Pow10 (ceilLog10 (n : Int)) =
      Float64.fin q ∧ 0 < q := by
  obtain ⟨k1, k2⟩ := ceilLog10_range n h0 hfit
  obtain ⟨k, hk⟩ := Int.eq_ofNat_of_zero_le k1
  have hk19 : k ≤ 19 := by omega
  have hn : n ≤ 2 ^ 63 := by
    simp only [maxInt] at hfit
    omega
  obtain ⟨b, hb, b1, b2⟩ := Float64.ofInt_pos n (by omega) hn
  have hpow : (1 : Rat) ≤ (10 : Rat) ^ k := one_le_pow₀ (by norm_num)
  have hpow2 : (10 : Rat) ^ k ≤ 2 ^ (64 : Int) := by
    have : (10 : Rat) ^ k ≤ 10 ^ 19 := pow_le_pow_right₀ (by norm_num) hk19
    exact le_trans this (by norm_num)
  have hne : (10 : Rat) ^ k ≠ 0 := by positivity
  have hd1 : (2 : Rat) ^ (-64 : Int) ≤ b / 10 ^ k := by
    rw [le_div_iff₀ (by positivity)]
    have h64 : (2 : Rat) ^ (-64 : Int) * 2 ^ (64 : Int) = 1 := by
      rw [← zpow_add₀ (by norm_num : (2 : Rat) ≠ 0)]; norm_num
    calc (2 : Rat) ^ (-64 : Int) * 10 ^ k ≤ 2 ^ (-64 : Int) * 2 ^ (64 : Int) :=
          mul_le_mul_of_nonneg_left hpow2 (le_of_lt (Float64.two_zpow_pos _))
      _ = 1 := h64
      _ ≤ b := b1
  have hd2 : b / 10 ^ k ≤ 2 ^ (63 : Int) := by
    rw [div_le_iff₀ (by positivity)]
    calc b ≤ 2 ^ (63 : Int) := b2
      _ ≤ 2 ^ (63 : Int) * 10 ^ k := le_mul_of_one_le_right (le_of_lt (Float64.two_zpow_pos _)) hpow
  obtain ⟨d, hd, d1, d2⟩ := Float64.round_bracket (b / 10 ^ k) (-64) 63 (by norm_num)
    (by norm_num) hd1 hd2
  have hs1 : (2 : Rat) ^ (-64 : Int) ≤ a + d := by linarith
  have hs2 : a + d ≤ 2 ^ (64 : Int) := by
    have : (2 : Rat) ^ (64 : Int) = 2 ^ (63 : Int) + 2 ^ (63 : Int) := by norm_num
    rw [this]; linarith
  obtain ⟨q, hq, q1, _⟩ := Float64.round_bracket (a + d) (-64) 64 (by norm_num) (by norm_num)
    hs1 hs2
  refine ⟨q, ?_, lt_of_lt_of_le (Float64.two_zpow_pos _) q1⟩
  rw [hk, Float64.Pow10_small k (by omega), hb, Float64.fin_div_fin, if_neg hne, hd,
    Float64.fin_add_fin, hq]

/-- The value in `realValue` after the digits of a fraction whose value is zero: `NaN`. -/
theorem fraction_value_zero (x : Float64) :
    x + Float64.ofInt 0 / Float64.Pow10 (ceilLog10 0) = Float64.NaN := by
  rw [ceilLog10_zero, Float64.Pow10_of_lt _ (by norm_num), Float64.ofInt_zero,
    Float64.fin_div_fin]
  cases x <;> rfl


theorem ofInt_nonneg (n : Nat) (hfit : (n : Int) ≤ maxInt) :
    ∃ a, Float64.ofInt (n : Int) = Float64.fin a ∧ 0 ≤ a ∧ a ≤ 2 ^ (63 : Int) ∧
      (a = 0 ↔ n = 0) := by
  rcases Nat.eq_zero_or_pos n with rfl | hpos
  · exact ⟨0, by simpa using Float64.ofInt_zero, le_refl _,
      le_of_lt (Float64.two_zpow_pos _), by simp⟩
  · have hn : n ≤ 2 ^ 63 := by
      simp only [maxInt] at hfit
      omega
    obtain ⟨r, hr, r1, r2⟩ := Float64.ofInt_pos n hpos hn
    refine ⟨r, hr, by linarith, r2, ?_⟩
    constructor
    · intro h; linarith
    · intro h; omega

theorem IsNaN_mul_Pow10 (a : Rat) (e : Int) :
    (Float64.fin a * Float64.Pow10 e).IsNaN = (decide (a = 0) && decide (308 < e)) := by
  by_cases he : e ≤ 308
  · obtain ⟨p, hp⟩ := Float64.Pow10_finite e he
    rw [hp, Float64.fin_mul_fin, Float64.IsNaN_round]
    simp [not_lt.mpr he]
  · rw [Float64.Pow10_of_gt e (by omega)]
    show (Float64.mul (Float64.fin a) (Float64.Inf false)).IsNaN = _
    by_cases ha : a = 0
    · simp [Float64.mul, ha, lt_of_not_le he]
    · simp [Float64.mul, ha, Float64.IsNaN]

/-- The fraction block on a literal whose parts are in order: what `realValue` and `lval` are
when the exponent block is entered. -/
theorem fraction_stage (T : TokenCodes) (U : UnicodeTables) (n : NumLit)
    (E : List Nat) (lval : yySymType) (hwf : n.wellFormed = true)
    (hE1 : ∀ r, E.head? = some r → IsDigit U r = false)
    (hE2 : IsDigit U (E.headD 0) = false) (hE3 : E.headD 0 ≠ 46) :
    ∃ lvalF rvF,
      consumeNumberOrRealFraction T U ⟨fracText n.frac ++ E, none⟩
          { lval with numberRepr := n.intDigits, number := (digitsValue n.intDigits : Int) }
          Float64.NaN n.intDigits =
        consumeNumberOrRealExponent T U ⟨E, none⟩ lvalF rvF (n.intDigits ++ fracText n.frac) ∧
      (∃ a, realOrNumber rvF lvalF.number = Float64.fin a ∧ 0 ≤ a ∧
        (a = 0 ↔ n.zeroMantissa = true)) ∧
      ((n.frac = none ∧ rvF = Float64.NaN ∧
          lvalF = { lval with
            numberRepr := n.intDigits, number := (digitsValue n.intDigits : Int) }) ∨
        (n.zeroFraction = true ∧ rvF = Float64.NaN ∧ lvalF.numberRepr = n.fracDigits) ∨
        (n.frac ≠ none ∧ n.zeroFraction = false ∧ rvF.IsNaN = false)) := by
  obtain ⟨sm, frac, exp⟩ := n
  simp only [NumLit.wellFormed, Bool.and_eq_true] at hwf
  obtain ⟨⟨hm, hf⟩, _⟩ := hwf
  simp only [digitsFit, Bool.and_eq_true, decide_eq_true_eq] at hm
  obtain ⟨a, ha, a0, a63, aiff⟩ := ofInt_nonneg (digitsValue sm) hm.2
  rcases frac with _ | f
  · refine ⟨_, Float64.NaN, ?_, ⟨a, ?_, a0, ?_⟩, Or.inl ⟨rfl, rfl, rfl⟩⟩
    · simp only [fracText, List.nil_append, List.append_nil]
      rw [fraction_absent _ _ _ _ _ _ (by simpa [peekRune] using hE3)]
    · simpa [realOrNumber] using ha
    · simp [NumLit.zeroMantissa, NumLit.zeroFraction, NumLit.fracDigits, aiff]
  · rcases f with _ | ⟨d, ds⟩
    · refine ⟨{ lval with numberRepr := sm, number := (digitsValue sm : Int) },
        Float64.fin a, ?_, ⟨a, ?_, a0, ?_⟩, Or.inr (Or.inr ⟨by simp, ?_, ?_⟩)⟩
      · simp only [fracText, List.cons_append, List.nil_append]
        rw [fraction_dot_only _ _ _ _ _ _ _ hE2]
        simp only [realOrNumber, Float64.IsNaN_NaN, if_true, ha]
      · simp [realOrNumber]
      · simp [NumLit.zeroMantissa, NumLit.zeroFraction, NumLit.fracDigits, aiff]
      · simp [NumLit.zeroFraction, NumLit.fracDigits]
      · rfl
    · have hfit : digitsFit (d :: ds) = true := by simpa using hf
      simp only [digitsFit, Bool.and_eq_true, decide_eq_true_eq] at hfit
      have hstage := fraction_digits T U (d :: ds) E none
        { lval with numberRepr := sm, number := (digitsValue sm : Int) } Float64.NaN sm
        hfit.1 hfit.2 hE1
      simp only [realOrNumber, Float64.IsNaN_NaN, if_true, ha] at hstage
      by_cases hz : digitsValue (d :: ds) = 0
      · refine ⟨{ lval with numberRepr := d :: ds, number := (digitsValue (d :: ds) : Int) },
          Float64.NaN, ?_, ⟨0, ?_, le_refl _, ?_⟩, Or.inr (Or.inl ⟨?_, rfl, rfl⟩)⟩
        · simp only [fracText, List.cons_append, List.append_assoc, List.singleton_append,
            List.nil_append] at hstage ⊢
          rw [hstage, hz]
          simp only [Nat.cast_zero, fraction_value_zero]
        · rw [hz]
          simp only [Nat.cast_zero, realOrNumber, Float64.IsNaN_NaN, if_true,
            Float64.ofInt_zero]
        · simp [NumLit.zeroMantissa, NumLit.zeroFraction, NumLit.fracDigits, hz]
        · simp [NumLit.zeroFraction, NumLit.fracDigits, hz]
      · obtain ⟨q, hq, qpos⟩ := fraction_value_pos a a0 a63 (digitsValue (d :: ds)) hz hfit.2
        refine ⟨{ lval with numberRepr := d :: ds, number := (digitsValue (d :: ds) : Int) },
          Float64.fin q, ?_, ⟨q, ?_, le_of_lt qpos, ?_⟩, Or.inr (Or.inr ⟨by simp, ?_, rfl⟩)⟩
        · simp only [fracText, List.cons_append, List.append_assoc, List.singleton_append,
            List.nil_append] at hstage ⊢
          rw [hstage, hq]
        · simp [realOrNumber]
        · simp [NumLit.zeroMantissa, NumLit.zeroFraction, NumLit.fracDigits, hz, ne_of_gt qpos]
        · simp [NumLit.zeroFraction, NumLit.fracDigits, hz]


theorem expText_head (U : UnicodeTables) (exp : Option (Nat × Bool × List Nat))
    (h : ∀ c neg ds, exp = some (c, neg, ds) → c = 101 ∨ c = 69) :
    (∀ r, (expText exp).head? = some r → IsDigit U r = false) ∧
      IsDigit U ((expText exp).headD 0) = false ∧ (expText exp).headD 0 ≠ 46 := by
  rcases exp with _ | ⟨c, neg, ds⟩
  · simp [expText, IsDigit]
  · rcases h c neg ds rfl with rfl | rfl <;> simp [expText, IsDigit]

/-- The exponent block on a literal whose parts are in order, entered with a finite or absent
`realValue`: without an exponent the end of the function is reached as is; with one,
`realValue` at the end is `NaN` exactly on the literals of `NumLit.slips`. -/
theorem exponent_stage (T : TokenCodes) (U : UnicodeTables) (n : NumLit) (lvalF : yySymType)
    (rvF : Float64) (fr : List Nat) (hwf : n.wellFormed = true) (a : Rat)
    (hR : realOrNumber rvF lvalF.number = Float64.fin a)
    (ha : a = 0 ↔ n.zeroMantissa = true) :
    (n.exp = none ∧
        consumeNumberOrRealExponent T U ⟨expText n.exp, none⟩ lvalF rvF fr =
          consumeNumberOrRealEnd T ⟨[], none⟩ lvalF rvF fr) ∨
      (∃ c neg ds rv, n.exp = some (c, neg, ds) ∧
        consumeNumberOrRealExponent T U ⟨expText n.exp, none⟩ lvalF rvF fr =
          consumeNumberOrRealEnd T ⟨[], none⟩
            { lvalF with numberRepr := ds, number := (digitsValue ds : Int) } rv
            (fr ++ expText n.exp) ∧
        rv.IsNaN = n.slips) := by
  obtain ⟨sm, frac, exp⟩ := n
  simp only [NumLit.wellFormed, Bool.and_eq_true] at hwf
  obtain ⟨_, he⟩ := hwf
  rcases exp with _ | ⟨c, neg, ds⟩
  · left
    refine ⟨rfl, ?_⟩
    rw [expText, exponent_absent _ _ _ _ _ _ (by simp [peekRune, ToLower])]
  · right
    simp only [Bool.and_eq_true, Bool.or_eq_true, beq_iff_eq] at he
    obtain ⟨hc, hfit⟩ := he
    simp only [digitsFit, Bool.and_eq_true, decide_eq_true_eq] at hfit
    have h := exponent_digits T U c neg ds [] none lvalF rvF fr hc hfit.1 hfit.2 (by simp)
    rw [List.append_nil] at h
    refine ⟨c, neg, ds, Float64.fin a *
      Float64.Pow10 (if neg then -(digitsValue ds : Int) else (digitsValue ds : Int)),
      rfl, ?_, ?_⟩
    · rw [expText, h, hR]
      simp
    · rw [IsNaN_mul_Pow10]
      simp only [NumLit.slips]
      have hz : decide (a = 0) = NumLit.zeroMantissa ⟨sm, frac, some (c, neg, ds)⟩ := by
        by_cases h0 : a = 0
        · simp [h0, ha.mp h0]
        · have : NumLit.zeroMantissa ⟨sm, frac, some (c, neg, ds)⟩ = false := by
            cases hzm : NumLit.zeroMantissa ⟨sm, frac, some (c, neg, ds)⟩
            · rfl
            · exact absurd (ha.mpr hzm) h0
          simp [h0, this]
      rw [hz]
      cases neg
      · simp [Bool.and_comm]
      · have : ¬ (308 : Int) < -(digitsValue ds : Int) := by omega
        simp [this]

/-- What `Lex` returns on an unsigned literal whose parts are in order: `NUMBER` with the
digits as text for a plain integer; otherwise `REALNUMBER` with the literal as text, except on
the literals of `NumLit.slips`, where it returns `NUMBER` with a shorter text. -/
theorem Lex_numLit (T : TokenCodes) (U : UnicodeTables) (lval : yySymType) (n : NumLit)
    (hwf : n.wellFormed = true) :
    ∃ code lval', MyLexer.Lex T U (MyLexer.start n.text) lval = some (code, ⟨[], none⟩, lval') ∧
      ((n.frac = none ∧ n.exp = none ∧ code = T.code .NUMBER ∧ lval'.numberRepr = n.text) ∨
        (n.slips = false ∧ code = T.code .REALNUMBER ∧ lval'.numberRepr = n.text) ∨
        (n.slips = true ∧ code = T.code .NUMBER ∧
          lval'.numberRepr.length < n.text.length)) := by
  have hwf' := hwf
  simp only [NumLit.wellFormed, Bool.and_eq_true] at hwf'
  obtain ⟨⟨hm, _⟩, he⟩ := hwf'
  simp only [digitsFit, Bool.and_eq_true, decide_eq_true_eq] at hm
  have hmarker : ∀ c neg ds, n.exp = some (c, neg, ds) → c = 101 ∨ c = 69 := by
    intro c neg ds hexp
    rw [hexp] at he
    simp only [Bool.and_eq_true, Bool.or_eq_true, beq_iff_eq] at he
    exact he.1
  obtain ⟨hE1, hE2, hE3⟩ := expText_head U n.exp hmarker
  have hrest : ∀ r, (fracText n.frac ++ expText n.exp).head? = some r → IsDigit U r = false := by
    rcases hfr : n.frac with _ | f
    · simpa [fracText] using hE1
    · simp [fracText, IsDigit]
  obtain ⟨d, ds, hsm, hd⟩ := asciiDigits_cons hm.1
  obtain ⟨lvalF, rvF, hF, ⟨a, hR, _, ha⟩, hcase⟩ :=
    fraction_stage T U n (expText n.exp) lval hwf hE1 hE2 hE3
  have hstart : MyLexer.Lex T U (MyLexer.start n.text) lval =
      some (consumeNumberOrRealExponent T U ⟨expText n.exp, none⟩ lvalF rvF
        (n.intDigits ++ fracText n.frac)) := by
    have h1 := consumeNumberOrReal_digits T U n.intDigits (fracText n.frac ++ expText n.exp)
      none lval Float64.NaN hm.1 hm.2 hrest
    rw [MyLexer.start, NumLit.text]
    rw [hsm] at h1 hF ⊢
    rw [List.cons_append, Lex_digit T U d _ none lval hd, ← List.cons_append, h1,
      Float64.NaN_mul, hF]
  have htext : n.text = n.intDigits ++ fracText n.frac ++ expText n.exp := by
    simp [NumLit.text]
  rcases exponent_stage T U n lvalF rvF (n.intDigits ++ fracText n.frac) hwf a hR ha with
    ⟨hexp, hX⟩ | ⟨c, neg, es, rv, hexp, hX, hnan⟩
  · rw [hX] at hstart
    have hslip : n.slips = n.zeroFraction := by simp [NumLit.slips, hexp]
    rcases hcase with ⟨hfrac, rfl, rfl⟩ | ⟨hzf, rfl, hrepr⟩ | ⟨hfrac, hzf, hnn⟩
    · rw [NaN_end] at hstart
      exact ⟨_, _, hstart, Or.inl ⟨hfrac, hexp, rfl, by simp [htext, hfrac, hexp, fracText, expText]⟩⟩
    · rw [NaN_end] at hstart
      refine ⟨_, _, hstart, Or.inr (Or.inr ⟨by rw [hslip, hzf], rfl, ?_⟩)⟩
      rw [hrepr, htext]
      have hne : n.frac = some n.fracDigits := by
        rcases hfr : n.frac with _ | f
        · simp [NumLit.zeroFraction, NumLit.fracDigits, hfr] at hzf
        · simp [NumLit.fracDigits, hfr]
      rw [hne, hsm]
      simp [fracText]
      omega
    · rw [real_end _ _ _ _ _ hnn] at hstart
      exact ⟨_, _, hstart, Or.inr (Or.inl ⟨by rw [hslip, hzf], rfl, by simp [htext, hexp, expText]⟩)⟩
  · rw [hX] at hstart
    cases hs : n.slips
    · rw [hs] at hnan
      rw [real_end _ _ _ _ _ hnan] at hstart
      exact ⟨_, _, hstart, Or.inr (Or.inl ⟨rfl, rfl, by simp [htext]⟩)⟩
    · rw [hs] at hnan
      have hrv : rv = Float64.NaN := by
        cases rv <;> simp [Float64.IsNaN] at hnan ⊢
      rw [hrv, NaN_end] at hstart
      refine ⟨_, _, hstart, Or.inr (Or.inr ⟨rfl, rfl, ?_⟩)⟩
      rw [htext, hexp, hsm]
      simp [expText]
      omega

theorem ofInt_mul_Pow10_exact (m x : Nat) (hx : x ≤ 308 ∨ m ≠ 0) (h : m * 10 ^ x ≤ 2 ^ 53) :
    Float64.ofInt (m : Int) * Float64.Pow10 (x : Int) = Float64.fin ((m : Rat) * 10 ^ x) := by
  rcases Nat.eq_zero_or_pos m with rfl | hpos
  · have hx' : x ≤ 308 := by
      rcases hx with h | h
      · exact h
      · exact absurd rfl h
    obtain ⟨p, hp⟩ := Float64.Pow10_finite (x : Int) (by omega)
    rw [hp]
    simp [Float64.ofInt_zero, Float64.fin_mul_fin, Float64.round_zero]
  · have h10 : 10 ^ x ≤ 2 ^ 53 := le_trans (Nat.le_mul_of_pos_left _ hpos) h
    have hx22 : x ≤ 22 := by
      by_contra hcon
      have : 10 ^ 23 ≤ 10 ^ x := Nat.pow_le_pow_right (by norm_num) (by omega)
      have h23 : 2 ^ 53 < 10 ^ 23 := by norm_num
      omega
    have hm : m ≤ 2 ^ 53 :=
      le_trans (Nat.le_mul_of_pos_right _ (Nat.pow_pos (by norm_num))) h
    rw [Float64.Pow10_small x hx22, Float64.ofInt_exact m hm, Float64.fin_mul_fin]
    have := Float64.round_nat_exact_le (m * 10 ^ x) h
    simpa using this

theorem ofInt_mul_Pow10_overflow (m : Nat) (e : Int) (hm : m ≠ 0) (hfit : (m : Int) ≤ maxInt)
    (he : 308 < e) : Float64.ofInt (m : Int) * Float64.Pow10 e = Float64.Inf false := by
  obtain ⟨a, ha, a0, _, aiff⟩ := ofInt_nonneg m hfit
  have hne : a ≠ 0 := fun h => hm (aiff.mp h)
  have hpos : ¬ a < 0 := not_lt.mpr a0
  rw [ha, Float64.Pow10_of_gt e he]
  show Float64.mul (Float64.fin a) (Float64.Inf false) = _
  simp [Float64.mul, hne, hpos]

/-- C8, amended. For non-empty ASCII digit strings `sm` and `se` that fit the `int` (values `m`
and `x`), a marker `c` among `e`, `E` and an optional minus sign, except when there is no
sign, `x > 308` and `m = 0`: lexing `sm ++ c ++ sign ++ se` returns `REALNUMBER` with the
input as its text and with the value `float64(m) * math.Pow10(x)`, resp.
`float64(m) * math.Pow10(-x)`, computed in binary64.  Without a sign that value is exactly
`m * 10^x` when `m * 10^x ≤ 2^53`, and it is `+Inf` when `x > 308`. -/
theorem exponent_literal_value (T : TokenCodes) (U : UnicodeTables) (lval : yySymType)
    (sm se : List Nat) (c : Nat) (neg : Bool)
    (hm : digitsFit sm = true) (hc : c = 101 ∨ c = 69) (he : digitsFit se = true)
    (hns : neg = true ∨ digitsValue se ≤ 308 ∨ digitsValue sm ≠ 0) :
    MyLexer.Lex T U (MyLexer.start (sm ++ c :: (signText neg ++ se))) lval =
        some (T.code .REALNUMBER, ⟨[], none⟩,
          { lval with
            number := (digitsValue se : Int)
            numberRepr := sm ++ c :: (signText neg ++ se)
            real := Float64.ofInt (digitsValue sm : Int) *
              Float64.Pow10 (if neg then -(digitsValue se : Int) else (digitsValue se : Int)) }) ∧
      (neg = false → digitsValue sm * 10 ^ digitsValue se ≤ 2 ^ 53 →
        Float64.ofInt (digitsValue sm : Int) * Float64.Pow10 (digitsValue se : Int) =
          Float64.fin ((digitsValue sm : Rat) * 10 ^ digitsValue se)) ∧
      (neg = false → 308 < digitsValue se →
        Float64.ofInt (digitsValue sm : Int) * Float64.Pow10 (digitsValue se : Int) =
          Float64.Inf false) := by
  simp only [digitsFit, Bool.and_eq_true, decide_eq_true_eq] at hm he
  refine ⟨?_, ?_, ?_⟩
  · obtain ⟨d, ds, rfl, hd⟩ := asciiDigits_cons hm.1
    have hcd : IsDigit U c = false := by rcases hc with rfl | rfl <;> simp [IsDigit]
    have hc46 : c ≠ 46 := by rcases hc with rfl | rfl <;> decide
    obtain ⟨a, ha, _, _, aiff⟩ := ofInt_nonneg (digitsValue (d :: ds)) hm.2
    have hnan : (Float64.ofInt (digitsValue (d :: ds) : Int) *
        Float64.Pow10 (if neg then -(digitsValue se : Int) else (digitsValue se : Int))).IsNaN =
        false := by
      rw [ha, IsNaN_mul_Pow10]
      rcases hns with rfl | hx | hm0
      · have : ¬ (308 : Int) < -(digitsValue se : Int) := by omega
        simp [this]
      · cases neg
        · have : ¬ (308 : Int) < (digitsValue se : Int) := by omega
          simp [this]
        · have : ¬ (308 : Int) < -(digitsValue se : Int) := by omega
          simp [this]
      · have : a ≠ 0 := fun h => hm0 (aiff.mp h)
        simp [this]
    have h1 := consumeNumberOrReal_digits T U (d :: ds) (c :: (signText neg ++ se)) none lval
      Float64.NaN hm.1 hm.2 (by simpa using hcd)
    have h3 := exponent_digits T U c neg se [] none
      { lval with numberRepr := d :: ds, number := (digitsValue (d :: ds) : Int) }
      Float64.NaN (d :: ds) hc he.1 he.2 (by simp)
    rw [List.append_nil] at h3
    simp only [realOrNumber, Float64.IsNaN_NaN, if_true] at h3
    rw [MyLexer.start, List.cons_append, Lex_digit T U d _ none lval hd, ← List.cons_append, h1,
      fraction_absent _ _ _ _ _ _ (by simpa [peekRune] using hc46), Float64.NaN_mul, h3,
      real_end _ _ _ _ _ hnan]
    simp
  · intro hneg hle
    subst hneg
    have hx : digitsValue se ≤ 308 ∨ digitsValue sm ≠ 0 := by
      rcases hns with h | h | h
      · cases h
      · exact Or.inl h
      · exact Or.inr h
    exact ofInt_mul_Pow10_exact _ _ hx hle
  · intro hneg hgt
    subst hneg
    have hm0 : digitsValue sm ≠ 0 := by
      rcases hns with h | h | h
      · cases h
      · omega
      · exact h
    exact ofInt_mul_Pow10_overflow _ _ hm0 hm.2 (by omega)

theorem exponent_literal_value_witness :
    MyLexer.Lex consecutiveCodes latin1Tables (MyLexer.start (str "2E10")) yySymType.zero =
        some (consecutiveCodes.code .REALNUMBER, ⟨[], none⟩,
          { yySymType.zero with
            number := 10
            numberRepr := str "2E10"
            real := Float64.ofInt 2 * Float64.Pow10 10 }) ∧
      Float64.ofInt 2 * Float64.Pow10 10 = Float64.fin (2 * 10 ^ 10) :=
  ⟨(exponent_literal_value consecutiveCodes latin1Tables yySymType.zero (str "2") (str "10") 69
      false (by decide) (by decide) (by decide) (by decide)).1,
    (exponent_literal_value consecutiveCodes latin1Tables yySymType.zero (str "2") (str "10") 69
      false (by decide) (by decide) (by decide) (by decide)).2.1 rfl (by decide)⟩

set_option maxRecDepth 100000 in
/-- The inputs `0e400`, `2e400`, `2e308` and `1e23` are of the form of claim C8.  `10^400` is
`+Inf` for `math.Pow10`, so the first gives `0 * +Inf = NaN` and `Lex` returns `NUMBER` (with
number 400 and text `400`), and the second gives `REALNUMBER` with the value `+Inf`; the
product `2 * 10^308` overflows to `+Inf`; and the value returned for `1e23` is the binary64
value nearest to `10^23`, which is `99999999999999991611392`. -/
theorem exponent_literal_counterexample :
    (MyLexer.Lex consecutiveCodes latin1Tables (MyLexer.start (str "0e400")) yySymType.zero =
        some (consecutiveCodes.code .NUMBER, ⟨[], none⟩,
          { yySymType.zero with number := 400, numberRepr := str "400" }) ∧
      consecutiveCodes.code .NUMBER ≠ consecutiveCodes.code .REALNUMBER) ∧
    MyLexer.Lex consecutiveCodes latin1Tables (MyLexer.start (str "2e400")) yySymType.zero =
      some (consecutiveCodes.code .REALNUMBER, ⟨[], none⟩,
        { yySymType.zero with
          number := 400
          numberRepr := str "2e400"
          real := Float64.Inf false }) ∧
    MyLexer.Lex consecutiveCodes latin1Tables (MyLexer.start (str "2e308")) yySymType.zero =
      some (consecutiveCodes.code .REALNUMBER, ⟨[], none⟩,
        { yySymType.zero with
          number := 308
          numberRepr := str "2e308"
          real := Float64.Inf false }) ∧
    (MyLexer.Lex consecutiveCodes latin1Tables (MyLexer.start (str "1e23")) yySymType.zero =
      some (consecutiveCodes.code .REALNUMBER, ⟨[], none⟩,
        { yySymType.zero with
          number := 23
          numberRepr := str "1e23"
          real := Float64.fin 99999999999999991611392 }) ∧
      (99999999999999991611392 : Rat) ≠ 1 * 10 ^ 23) := by
  decide!

/-- C6, amended. For an unsigned literal text `digits [. digits*] [(e|E) [-] digits]` whose
digit runs each fit the `int`, and which is not one of the literals on which the code slips
(`NumLit.slips`: digits of value zero after the dot with no exponent, or an exponent without a
minus sign above 308 after a mantissa read as zero), `Lex` returns `NUMBER` or `REALNUMBER`
without error and records as `lval.numberRepr` exactly the input text, so that lexing the
recorded text again gives the same result. -/
theorem unsigned_literal_text_recorded (T : TokenCodes) (U : UnicodeTables) (lval : yySymType)
    (n : NumLit) (h : n.admissible = true) :
    ∃ code lval', MyLexer.Lex T U (MyLexer.start n.text) lval = some (code, ⟨[], none⟩, lval') ∧
      (code = T.code .NUMBER ∨ code = T.code .REALNUMBER) ∧ lval'.numberRepr = n.text ∧
      MyLexer.Lex T U (MyLexer.start lval'.numberRepr) lval = some (code, ⟨[], none⟩, lval') := by
  simp only [NumLit.admissible, Bool.and_eq_true, Bool.not_eq_true'] at h
  obtain ⟨hwf, hns⟩ := h
  obtain ⟨code, lval', hlex, hres⟩ := Lex_numLit T U lval n hwf
  have key : (code = T.code .NUMBER ∨ code = T.code .REALNUMBER) ∧ lval'.numberRepr = n.text := by
    rcases hres with ⟨_, _, hc, hr⟩ | ⟨_, hc, hr⟩ | ⟨hs, _, _⟩
    · exact ⟨Or.inl hc, hr⟩
    · exact ⟨Or.inr hc, hr⟩
    · rw [hns] at hs; cases hs
  refine ⟨code, lval', hlex, key.1, key.2, ?_⟩
  rw [key.2, hlex]

theorem unsigned_literal_text_recorded_witness :
    ∃ code lval', MyLexer.Lex consecutiveCodes latin1Tables
        (MyLexer.start (str "3.0e2")) yySymType.zero = some (code, ⟨[], none⟩, lval') ∧
      (code = consecutiveCodes.code .NUMBER ∨ code = consecutiveCodes.code .REALNUMBER) ∧
      lval'.numberRepr = str "3.0e2" ∧
      MyLexer.Lex consecutiveCodes latin1Tables (MyLexer.start lval'.numberRepr) yySymType.zero =
        some (code, ⟨[], none⟩, lval') :=
  unsigned_literal_text_recorded consecutiveCodes latin1Tables yySymType.zero
    ⟨str "3", some (str "0"), some (101, false, str "2")⟩ (by decide)

/-- The text of twenty nines matches the literal pattern, yet `Lex` returns `-1`, which is
neither `NUMBER` nor `REALNUMBER`. -/
theorem literal_text_counterexample :
    MyLexer.Lex consecutiveCodes latin1Tables (MyLexer.start (str "99999999999999999999"))
        yySymType.zero =
      some (-1, ⟨[], some (.failedToParseNumber (str "99999999999999999999") .ErrRange)⟩,
        yySymType.zero) ∧
    (-1 : Int) ≠ consecutiveCodes.code .NUMBER ∧ (-1 : Int) ≠ consecutiveCodes.code .REALNUMBER := by
  decide

/-- On every unsigned literal left out of the amended round-trip statement although its digit
runs fit the `int`, the text is lost: `Lex` returns `NUMBER` and the recorded text is not the
literal. -/
theorem unsigned_literal_text_lost (T : TokenCodes) (U : UnicodeTables) (lval : yySymType)
    (n : NumLit) (hwf : n.wellFormed = true) (hs : n.slips = true) :
    ∃ lval', MyLexer.Lex T U (MyLexer.start n.text) lval =
        some (T.code .NUMBER, ⟨[], none⟩, lval') ∧
      lval'.numberRepr ≠ n.text := by
  obtain ⟨code, lval', hlex, hres⟩ := Lex_numLit T U lval n hwf
  rcases hres with ⟨hf, he, _, _⟩ | ⟨hns, _, _⟩ | ⟨_, hc, hlen⟩
  · simp [NumLit.slips, NumLit.zeroFraction, NumLit.fracDigits, hf, he] at hs
  · rw [hs] at hns; cases hns
  · subst hc
    refine ⟨lval', hlex, fun heq => ?_⟩
    rw [heq] at hlen
    exact absurd hlen (lt_irrefl _)

theorem unsigned_literal_text_lost_witness :
    ∃ lval', MyLexer.Lex consecutiveCodes latin1Tables (MyLexer.start (str "3.0"))
        yySymType.zero = some (consecutiveCodes.code .NUMBER, ⟨[], none⟩, lval') ∧
      lval'.numberRepr ≠ str "3.0" :=
  unsigned_literal_text_lost consecutiveCodes latin1Tables yySymType.zero
    ⟨str "3", some (str "0"), none⟩ (by decide) (by decide)

set_option maxRecDepth 100000 in
theorem value_3_05 :
    Float64.ofInt 3 + Float64.ofInt 5 / Float64.Pow10 1 = Float64.fin (7 / 2) := by
  decide!

set_option maxRecDepth 100000 in
theorem value_minus_17 :
    Float64.fin (-1) * Float64.ofInt 17 = Float64.fin (-17) := by
  decide!

set_option maxRecDepth 100000 in
theorem value_2 : Float64.ofInt 2 = Float64.fin 2 := by decide!

/-- C7. The code at `3.05`: `Lex` returns `REALNUMBER` with value `7/2`, not `3 + 5/10^2`; the
fraction `05` is read as the integer `5` and divided by `10^⌈log₁₀ 5⌉ = 10`. -/
theorem fraction_scaled_by_magnitude (T : TokenCodes) (U : UnicodeTables) (lval : yySymType) :
    MyLexer.Lex T U (MyLexer.start (str "3.05")) lval =
        some (T.code .REALNUMBER, ⟨[], none⟩,
          { lval with number := 5, numberRepr := str "3.05", real := Float64.fin (7 / 2) }) ∧
      (7 / 2 : Rat) ≠ 3 + 5 / 10 ^ 2 := by
  refine ⟨?_, by norm_num⟩
  have hin : str "3.05" = 51 :: ([] ++ (46 :: ([48, 53] ++ []))) := by decide
  have h1 := consumeNumberOrReal_digits T U [51] (46 :: ([48, 53] ++ [])) none lval Float64.NaN
    (by decide) (by decide) (by simp [IsDigit])
  have h2 := fraction_digits T U [48, 53] [] none
    { lval with numberRepr := [51], number := (digitsValue [51] : Int) } Float64.NaN [51]
    (by decide) (by decide) (by simp)
  have hv3 : digitsValue [51] = 3 := by decide
  have hv5 : digitsValue [48, 53] = 5 := by decide
  rw [MyLexer.start, hin, Lex_digit T U 51 _ none lval (by decide), ← List.cons_append, h1,
    Float64.NaN_mul, h2, exponent_absent _ _ _ _ _ _ (by simp [peekRune, ToLower]), hv3, hv5]
  simp only [Nat.cast_ofNat, ceilLog10_five, realOrNumber, Float64.IsNaN_NaN, if_true,
    value_3_05, fin_end]
  simp [str]

/-- C5. The code at `-17`: `Lex` returns `REALNUMBER`, not `NUMBER`; the value `-17` is in
`lval.real`, `lval.number` is `17`, and the recorded text is `17`, without the sign. -/
theorem minus_seventeen_lexes_as_real (T : TokenCodes) (U : UnicodeTables) (lval : yySymType) :
    MyLexer.Lex T U (MyLexer.start (str "-17")) lval =
        some (T.code .REALNUMBER, ⟨[], none⟩,
          { lval with number := 17, numberRepr := str "17", real := Float64.fin (-17) }) ∧
      T.code .REALNUMBER ≠ T.code .NUMBER ∧ str "17" ≠ str "-17" := by
  refine ⟨?_, ?_, ?_⟩
  rotate_left
  · intro h; cases T.code_inj _ _ h
  · decide
  simp [MyLexer.Lex, LexLoop, MyLexer.start, str, readRune, isWhitespace, peekRune, IsLetter,
    IsDigit, consumeNumberOrReal, consumeNumber, consumeNumberLoop, consumeNumberEnd, Atoi,
    isAsciiDigit, digitsValue, consumeNumberOrRealFraction, consumeNumberOrRealExponent,
    consumeNumberOrRealEnd, ToLower, maxInt, unreadRune, value_minus_17]

/-- C9. The code at `2e`: the message `Expected exponent after '2e' got ...` is recorded and the
digit and the marker are consumed, but `Lex` returns `REALNUMBER` (value 2, text `2e`), not the
error code `-1`. -/
theorem missing_exponent_returns_real (T : TokenCodes) (U : UnicodeTables) (lval : yySymType) :
    MyLexer.Lex T U (MyLexer.start (str "2e")) lval =
        some (T.code .REALNUMBER,
          ⟨[], some (.expectedExponent (str "2e") 0)⟩,
          { lval with number := 2, numberRepr := str "2e", real := Float64.fin 2 }) ∧
      T.code .REALNUMBER ≠ -1 := by
  refine ⟨?_, ?_⟩
  rotate_left
  · have := T.code_pos .REALNUMBER; omega
  simp [MyLexer.Lex, LexLoop, MyLexer.start, str, readRune, isWhitespace, peekRune, IsLetter,
    IsDigit, consumeNumberOrReal, consumeNumber, consumeNumberLoop, consumeNumberEnd, Atoi,
    isAsciiDigit, digitsValue, consumeNumberOrRealFraction, consumeNumberOrRealExponent,
    consumeNumberOrRealEnd, ToLower, maxInt, unreadRune, MyLexer.Error, value_2]

/-! ## Line comments -/

theorem skipLineCommentLoop_body (rest : List Nat) :
    ∀ (b : List Nat) (last : Bool), (∀ c ∈ b, isNewline c = false) →
      noDoubleHyphen b = true → (last = true → b.head? ≠ some 45) →
      skipLineCommentLoop last (b ++ 10 :: rest) = rest := by
  intro b
  induction b with
  | nil => intro last _ _ _; simp [skipLineCommentLoop, isNewline]
  | cons c b ih =>
    intro last hnl hnd hfirst
    have hc : isNewline c = false := hnl c (List.mem_cons_self _ _)
    have hnl' : ∀ d ∈ b, isNewline d = false := fun d hd => hnl d (List.mem_cons_of_mem _ hd)
    have hnd' : noDoubleHyphen b = true := by
      cases b with
      | nil => rfl
      | cons d b => simp only [noDoubleHyphen, Bool.and_eq_true] at hnd; exact hnd.2
    by_cases h45 : c = 45
    · subst h45
      have hlast : last = false := by
        cases last
        · rfl
        · exact absurd rfl (hfirst rfl)
      have hb : b.head? ≠ some 45 := by
        cases b with
        | nil => simp
        | cons d b =>
          simp only [noDoubleHyphen, Bool.and_eq_true, Bool.not_eq_true', beq_self_eq_true,
            Bool.true_and, beq_eq_false_iff_ne] at hnd
          simpa using hnd.1
      simp [skipLineCommentLoop, hc, hlast, ih true hnl' hnd' (fun _ => hb)]
    · simp [skipLineCommentLoop, hc, h45, ih false hnl' hnd' (by simp)]

/-- A line comment whose body has no newline, no two adjacent hyphens and does not begin with
a hyphen is skipped up to its newline: the first `Lex` call returns the keyword that follows. -/
theorem line_comment_skipped (T : TokenCodes) (U : UnicodeTables) (lval : yySymType)
    (b : List Nat) (hnl : ∀ c ∈ b, isNewline c = false) (hnd : noDoubleHyphen b = true)
    (hfirst : b.head? ≠ some 45) :
    MyLexer.Lex T U (MyLexer.start (45 :: 45 :: (b ++ 10 :: str "SEQUENCE"))) lval =
      some (T.code .SEQUENCE, ⟨[], none⟩, lval) := by
  have hskip : skipLineCommentLoop false (45 :: (b ++ 10 :: str "SEQUENCE")) = str "SEQUENCE" := by
    rw [skipLineCommentLoop]
    simp [isNewline, skipLineCommentLoop_body (str "SEQUENCE") b true hnl hnd (fun _ => hfirst)]
  have hword := LexLoop_word T U ((b ++ 10 :: str "SEQUENCE").length + 1) 83
    [69, 81, 85, 69, 78, 67, 69] [] none lval (by simp [IsLetter])
    (by simp [isIdentifierChar, IsLetter]) (by simp) (by decide) (by decide)
  have hup : IsUpper U 83 = true := by simp [IsUpper]
  have hlook : lookupReserved (83 :: [69, 81, 85, 69, 78, 67, 69]) = some Token.SEQUENCE := by
    decide
  rw [List.append_nil, hup, if_pos rfl, hlook] at hword
  have hstr : str "SEQUENCE" = [83, 69, 81, 85, 69, 78, 67, 69] := by decide
  rw [MyLexer.Lex, MyLexer.start]
  simp only [List.length_cons]
  rw [LexLoop]
  simp only [readRune, isWhitespace, peekRune, skipLineComment, hskip]
  simpa [hstr] using hword

/-- C10. The code at `---x` followed by a newline and `SEQUENCE`: the comment body `-x` has no
newline and no two adjacent hyphens, yet the comment ends at its first hyphen and `Lex` returns
`VALUEIDENTIFIER` with name `x`, leaving the newline and `SEQUENCE` unread. -/
theorem hyphen_after_opener_ends_comment (T : TokenCodes) (U : UnicodeTables)
    (lval : yySymType) :
    MyLexer.Lex T U (MyLexer.start (str "---x\nSEQUENCE")) lval =
        some (T.code .VALUEIDENTIFIER, ⟨str "\nSEQUENCE", none⟩, { lval with name := str "x" }) ∧
      T.code .VALUEIDENTIFIER ≠ T.code .SEQUENCE := by
  refine ⟨?_, ?_⟩
  rotate_left
  · intro h; cases T.code_inj _ _ h
  simp [MyLexer.Lex, LexLoop, MyLexer.start, str, readRune, isWhitespace, peekRune, IsLetter,
    IsDigit, IsUpper, skipLineComment, skipLineCommentLoop, isNewline, consumeWord,
    consumeWordLoop, consumeWordEnd, isIdentifierChar, unreadRune]

/-! ## The loop of `Lex`, one iteration at a time -/

theorem LexLoop_nil (T : TokenCodes) (U : UnicodeTables) (fuel : Nat) (e : Option Message)
    (lval : yySymType) : LexLoop T U (fuel + 1) ⟨[], e⟩ lval = some (0, ⟨[], e⟩, lval) := by
  rw [LexLoop]; rfl

theorem LexLoop_cons (T : TokenCodes) (U : UnicodeTables) (fuel : Nat) (r : Nat)
    (rest : List Nat) (e : Option Message) (lval : yySymType) :
    LexLoop T U (fuel + 1) ⟨r :: rest, e⟩ lval =
      if isWhitespace r then LexLoop T U fuel ⟨rest, e⟩ lval
      else if r == 45 && rest.headD 0 == 45 then
        LexLoop T U fuel ⟨skipLineCommentLoop false rest, e⟩ lval
      else if r == 47 && rest.headD 0 == 42 then
        match skipBlockComment ⟨rest, e⟩ with
        | none => none
        | some lex => LexLoop T U fuel lex lval
      else some (lexToken T U r ⟨rest, e⟩ lval) := by
  rw [LexLoop]
  simp only [readRune, Bool.false_eq_true, if_false, peekRune, skipLineComment]
  by_cases h1 : isWhitespace r = true
  · rw [if_pos h1, if_pos h1]
  · rw [if_neg h1, if_neg h1]
    by_cases h2 : (r == 45 && rest.headD 0 == 45) = true
    · rw [if_pos h2, if_pos h2]
    · rw [if_neg h2, if_neg h2]
      by_cases h3 : (r == 47 && rest.headD 0 == 42) = true
      · rw [if_pos h3, if_pos h3]
      · rw [if_neg h3, if_neg h3]
        unfold lexToken
        simp only [peekRune]
        by_cases hl : IsLetter U r = true
        · rw [if_pos hl, if_pos hl]
          generalize consumeWord U _ = cw
          rcases cw with ⟨_ | c, lex'⟩
          · rfl
          · simp only
            by_cases hu : IsUpper U r = true
            · rw [if_pos hu, if_pos hu]
              cases lookupReserved c <;> rfl
            · rw [if_neg hu, if_neg hu]
        · rw [if_neg hl, if_neg hl]
          split_ifs <;> rfl

/-! ## The scanners on arbitrary input -/

theorem skipLineCommentLoop_length :
    ∀ (input : List Nat) (last : Bool), (skipLineCommentLoop last input).length ≤ input.length := by
  intro input
  induction input with
  | nil => intro last; simp [skipLineCommentLoop]
  | cons r rest ih =>
    intro last
    rw [skipLineCommentLoop]
    have h1 := ih true
    have h2 := ih false
    split_ifs <;> simp <;> omega

theorem skipBlockCommentLoop_total (e : Option Message) :
    ∀ (fuel : Nat) (os cs : Bool) (rest : List Nat), rest.length < fuel →
      ∃ rest', skipBlockCommentLoop fuel os cs ⟨rest, e⟩ = some ⟨rest', e⟩ ∧
        rest'.length ≤ rest.length := by
  intro fuel
  induction fuel with
  | zero => intro os cs rest h; omega
  | succ fuel ih =>
    intro os cs rest h
    cases rest with
    | nil => exact ⟨[], by simp [skipBlockCommentLoop, readRune], le_refl _⟩
    | cons r rest =>
      have hlen : rest.length < fuel := by simpa using h
      rw [skipBlockCommentLoop]
      simp only [readRune, Bool.false_eq_true, if_false]
      by_cases h47 : (r == 47) = true
      · rw [if_pos h47]
        by_cases hcs : cs = true
        · rw [if_pos hcs]; exact ⟨rest, rfl, by simp⟩
        · rw [if_neg hcs]
          obtain ⟨rest', h1, h2⟩ := ih true cs rest hlen
          exact ⟨rest', h1, by simp; omega⟩
      · rw [if_neg h47]
        by_cases h42 : (r == 42) = true
        · rw [if_pos h42]
          by_cases hos : os = true
          · rw [if_pos hos]
            obtain ⟨rest1, h1, h2⟩ := ih false false rest hlen
            obtain ⟨rest2, h3, h4⟩ := ih false false rest1 (by omega)
            rw [h1]
            exact ⟨rest2, h3, by simp; omega⟩
          · rw [if_neg hos]
            obtain ⟨rest', h1, h2⟩ := ih os true rest hlen
            exact ⟨rest', h1, by simp; omega⟩
        · rw [if_neg h42]
          obtain ⟨rest', h1, h2⟩ := ih false false rest hlen
          exact ⟨rest', h1, by simp; omega⟩

theorem skipBlockComment_total (rest : List Nat) (e : Option Message) :
    ∃ rest', skipBlockComment ⟨rest, e⟩ = some ⟨rest', e⟩ ∧ rest'.length ≤ rest.length :=
  skipBlockCommentLoop_total e _ false false rest (Nat.lt_succ_self _)

theorem not_ident_of_whitespace {U : UnicodeTables} {r : Nat}
    (h : (isWhitespace r || !isIdentifierChar U r) = true) : isIdentifierChar U r = false := by
  cases hi : isIdentifierChar U r
  · rfl
  · rw [ident_not_whitespace hi, hi] at h
    cases h

theorem consumeWordEnd_length (acc : List Nat) (r : Nat) (rest : List Nat) :
    (consumeWordEnd acc (some r) rest).2.length ≤ (r :: rest).length := by
  simp only [consumeWordEnd]
  split_ifs <;> simp

theorem consumeWordLoop_length (U : UnicodeTables) :
    ∀ (input acc : List Nat) (lastR : Nat),
      (consumeWordLoop U acc lastR input).2.length ≤ input.length := by
  intro input
  induction input with
  | nil =>
    intro acc lastR
    rw [consumeWordLoop]
    simp only [consumeWordEnd]
    split_ifs <;> simp
  | cons r rest ih =>
    intro acc lastR
    rw [consumeWordLoop]
    split_ifs
    · exact consumeWordEnd_length acc r rest
    · simp
    · simp
    · have := ih (acc ++ [r]) r
      simp only [List.length_cons]
      omega

theorem consumeWordLoop_shape (U : UnicodeTables) :
    ∀ (input acc : List Nat) (lastR : Nat) (content rest : List Nat),
      consumeWordLoop U acc lastR input = (.ok content, rest) →
      ∃ run, content = acc ++ run ∧ input = run ++ rest ∧
        (∀ c ∈ run, isIdentifierChar U c = true) ∧ noDoubleHyphen (lastR :: run) = true ∧
        content.getLast? ≠ some 45 ∧
        (∀ r, rest.head? = some r → isIdentifierChar U r = false) := by
  intro input
  induction input with
  | nil =>
    intro acc lastR content rest h
    rw [consumeWordLoop] at h
    simp only [consumeWordEnd] at h
    split_ifs at h with hh
    · simp at h
    · simp only [Prod.mk.injEq, Except.ok.injEq] at h
      obtain ⟨rfl, rfl⟩ := h
      exact ⟨[], by simp, by simp, by simp, by simp [noDoubleHyphen], by simpa using hh, by simp⟩
  | cons r t ih =>
    intro acc lastR content rest h
    rw [consumeWordLoop] at h
    split_ifs at h with h1 h2 h3
    · simp only [consumeWordEnd] at h
      split_ifs at h with hh
      · simp at h
      · simp only [Prod.mk.injEq, Except.ok.injEq] at h
        obtain ⟨rfl, rfl⟩ := h
        refine ⟨[], by simp, by simp, by simp, by simp [noDoubleHyphen], by simpa using hh, ?_⟩
        intro r' hr'
        simp only [List.head?_cons, Option.some.injEq] at hr'
        subst hr'
        exact not_ident_of_whitespace h1
    · simp at h
    · simp at h
    · simp only [Bool.or_eq_true, Bool.not_eq_true', not_or, Bool.not_eq_false] at h1
      obtain ⟨run, hc, hin, hrun, hnd, hlast, hrest⟩ := ih (acc ++ [r]) r content rest h
      refine ⟨r :: run, by simpa using hc, by simp [hin], ?_, ?_, hlast, hrest⟩
      · intro c hc'
        rcases List.mem_cons.1 hc' with rfl | hc'
        · exact h1.2
        · exact hrun c hc'
      · simp only [noDoubleHyphen, Bool.and_eq_true, Bool.not_eq_true']
        exact ⟨by simpa using h3, hnd⟩

theorem consumeWord_cons (U : UnicodeTables) (l : Nat) (tail : List Nat) (e : Option Message) :
    consumeWord U ⟨l :: tail, e⟩ =
      ((consumeWordLoop U [l] l tail).1, ⟨(consumeWordLoop U [l] l tail).2, e⟩) := by
  simp [consumeWord, readRune]

theorem numberOutcome_mono {T : TokenCodes} {e : Option Message} {n k : Nat}
    {res : Int × MyLexer × yySymType} (h : numberOutcome T e n res) (hk : n ≤ k) :
    numberOutcome T e k res :=
  ⟨le_trans h.1 hk, h.2⟩

theorem consumeNumberEnd_general (T : TokenCodes) (acc : List Nat) (lex : MyLexer)
    (lval : yySymType) :
    (consumeNumberEnd T acc lex lval).2.1.bufReader = lex.bufReader ∧
      (((consumeNumberEnd T acc lex lval).1 = T.code .NUMBER ∧
          (consumeNumberEnd T acc lex lval).2.1.err = lex.err) ∨
        ((consumeNumberEnd T acc lex lval).1 = -1 ∧
          ∃ m, (consumeNumberEnd T acc lex lval).2.1.err = some m)) := by
  simp only [consumeNumberEnd]
  cases Atoi acc <;> simp [MyLexer.Error]

theorem consumeNumberLoop_general (T : TokenCodes) (U : UnicodeTables) (lex : MyLexer)
    (lval : yySymType) :
    ∀ (input acc : List Nat),
      (consumeNumberLoop T U acc lex lval input).2.1.bufReader.length ≤ input.length ∧
        (((consumeNumberLoop T U acc lex lval input).1 = T.code .NUMBER ∧
            (consumeNumberLoop T U acc lex lval input).2.1.err = lex.err) ∨
          ((consumeNumberLoop T U acc lex lval input).1 = -1 ∧
            ∃ m, (consumeNumberLoop T U acc lex lval input).2.1.err = some m)) := by
  intro input
  induction input with
  | nil =>
    intro acc
    rw [consumeNumberLoop]
    have := consumeNumberEnd_general T acc { lex with bufReader := [] } lval
    exact ⟨by rw [this.1], this.2⟩
  | cons r rest ih =>
    intro acc
    rw [consumeNumberLoop]
    split_ifs
    · have := consumeNumberEnd_general T acc
        (({ lex with bufReader := rest } : MyLexer).unreadRune r) lval
      exact ⟨by rw [this.1]; simp [unreadRune], this.2⟩
    · have := ih (acc ++ [r])
      exact ⟨by simp only [List.length_cons]; omega, this.2⟩

theorem consumeNumber_general (T : TokenCodes) (U : UnicodeTables) (lex : MyLexer)
    (lval : yySymType) :
    (consumeNumber T U lex lval).2.1.bufReader.length ≤ lex.bufReader.length - 1 ∧
      (((consumeNumber T U lex lval).1 = T.code .NUMBER ∧
          (consumeNumber T U lex lval).2.1.err = lex.err) ∨
        ((consumeNumber T U lex lval).1 = -1 ∧ ∃ m, (consumeNumber T U lex lval).2.1.err = some m)) := by
  obtain ⟨input, e⟩ := lex
  cases input with
  | nil => simp [consumeNumber, readRune, MyLexer.Error]
  | cons r rest =>
    have := consumeNumberLoop_general T U ⟨rest, e⟩ lval rest [r]
    simp only [consumeNumber, readRune, Bool.false_eq_true, if_false]
    exact ⟨by simpa using this.1, this.2⟩

theorem consumeNumberOrRealEnd_general (T : TokenCodes) (lex : MyLexer) (lval : yySymType)
    (rv : Float64) (fr : List Nat) :
    (consumeNumberOrRealEnd T lex lval rv fr).2.1 = lex ∧
      ((consumeNumberOrRealEnd T lex lval rv fr).1 = T.code .NUMBER ∨
       (consumeNumberOrRealEnd T lex lval rv fr).1 = T.code .REALNUMBER) ∧
      (rv.IsNaN = false → (consumeNumberOrRealEnd T lex lval rv fr).1 = T.code .REALNUMBER) := by
  unfold consumeNumberOrRealEnd
  cases h : rv.IsNaN <;> simp

theorem realOrNumber_not_NaN (rv : Float64) (n : Int) :
    (if rv.IsNaN = true then Float64.ofInt n else rv).IsNaN = false := by
  cases rv <;> simp [Float64.IsNaN_ofInt]

theorem numberOutcome_end (T : TokenCodes) (lex : MyLexer) (lval : yySymType)
    (rv : Float64) (fr : List Nat) :
    numberOutcome T lex.err lex.bufReader.length (consumeNumberOrRealEnd T lex lval rv fr) := by
  obtain ⟨h1, h2, _⟩ := consumeNumberOrRealEnd_general T lex lval rv fr
  refine ⟨by rw [h1], ?_⟩
  rcases h2 with h | h
  · exact Or.inl ⟨h, by rw [h1]⟩
  · exact Or.inr (Or.inl ⟨h, Or.inl (by rw [h1])⟩)


theorem numberOutcome_exponent_digits (T : TokenCodes) (U : UnicodeTables) (lex : MyLexer)
    (lval : yySymType) (rv : Float64) (x : Int) (fr : List Nat) (hrv : rv.IsNaN = false) :
    numberOutcome T lex.err lex.bufReader.length
      (if IsDigit U lex.peekRune = true then
        if ((consumeNumber T U lex lval).1 != T.code .NUMBER) = true then
          consumeNumber T U lex lval
        else
          consumeNumberOrRealEnd T (consumeNumber T U lex lval).2.1
            (consumeNumber T U lex lval).2.2
            (rv * Float64.Pow10 (x * (consumeNumber T U lex lval).2.2.number))
            (fr ++ (consumeNumber T U lex lval).2.2.numberRepr)
      else
        consumeNumberOrRealEnd T (lex.Error (.expectedExponent fr lex.peekRune)) lval rv fr) := by
  by_cases hd : IsDigit U lex.peekRune = true
  · rw [if_pos hd]
    obtain ⟨hlen, hres⟩ := consumeNumber_general T U lex lval
    rcases hres with ⟨hc, he⟩ | ⟨hc, m, hm⟩
    · have hne : ((consumeNumber T U lex lval).1 != T.code .NUMBER) = false := by simp [hc]
      rw [hne, if_neg (by simp)]
      have := numberOutcome_end T (consumeNumber T U lex lval).2.1
        (consumeNumber T U lex lval).2.2
        (rv * Float64.Pow10 (x * (consumeNumber T U lex lval).2.2.number))
        (fr ++ (consumeNumber T U lex lval).2.2.numberRepr)
      rw [he] at this
      exact numberOutcome_mono this (le_trans hlen (Nat.sub_le _ _))
    · have hne : ((consumeNumber T U lex lval).1 != T.code .NUMBER) = true := by
        simp [hc, T.neg_one_ne]
      rw [if_pos hne]
      exact ⟨le_trans hlen (Nat.sub_le _ _), Or.inr (Or.inr ⟨hc, m, hm⟩)⟩
  · rw [if_neg hd]
    obtain ⟨h1, _, h3⟩ := consumeNumberOrRealEnd_general T
      (lex.Error (.expectedExponent fr lex.peekRune)) lval rv fr
    refine ⟨by rw [h1]; simp [MyLexer.Error],
      Or.inr (Or.inl ⟨h3 hrv, Or.inr ⟨.expectedExponent fr lex.peekRune, ?_⟩⟩)⟩
    rw [h1]
    rfl

theorem numberOutcome_exponent (T : TokenCodes) (U : UnicodeTables) (lex : MyLexer)
    (lval : yySymType) (rv : Float64) (fr : List Nat) :
    numberOutcome T lex.err lex.bufReader.length
      (consumeNumberOrRealExponent T U lex lval rv fr) := by
  obtain ⟨input, e⟩ := lex
  unfold consumeNumberOrRealExponent
  by_cases hlow : (ToLower U (peekRune ⟨input, e⟩) == 101) = true
  · rw [if_pos hlow]
    cases input with
    | nil => simp [peekRune, ToLower] at hlow
    | cons r rest =>
      simp only [readRune, peekRune]
      by_cases hsign : (rest.headD 0 == 45) = true
      · simp only [hsign, if_true]
        cases rest with
        | nil => simp at hsign
        | cons s rest2 =>
          exact numberOutcome_mono
            (numberOutcome_exponent_digits T U ⟨rest2, e⟩ lval _ (-1) _
              (realOrNumber_not_NaN rv lval.number))
            (by simp only [List.length_cons]; omega)
      · simp only [hsign, if_false, Bool.false_eq_true]
        exact numberOutcome_mono
          (numberOutcome_exponent_digits T U ⟨rest, e⟩ lval _ 1 _
            (realOrNumber_not_NaN rv lval.number))
          (by simp only [List.length_cons]; omega)
  · rw [if_neg hlow]
    exact numberOutcome_end T _ lval rv fr


theorem numberOutcome_fraction (T : TokenCodes) (U : UnicodeTables) (lex : MyLexer)
    (lval : yySymType) (rv : Float64) (fr : List Nat) :
    numberOutcome T lex.err lex.bufReader.length
      (consumeNumberOrRealFraction T U lex lval rv fr) := by
  obtain ⟨input, e⟩ := lex
  unfold consumeNumberOrRealFraction
  by_cases hdot : (peekRune ⟨input, e⟩ == 46) = true
  · rw [if_pos hdot]
    cases input with
    | nil => simp [peekRune] at hdot
    | cons r rest =>
      simp only [readRune]
      by_cases hd : IsDigit U (peekRune ⟨rest, e⟩) = true
      · rw [if_pos hd]
        obtain ⟨hlen, hres⟩ := consumeNumber_general T U ⟨rest, e⟩ lval
        rcases hres with ⟨hc, he⟩ | ⟨hc, m, hm⟩
        · have hne : ((consumeNumber T U ⟨rest, e⟩ lval).1 != T.code .NUMBER) = false := by
            simp [hc]
          simp only [hne, Bool.false_eq_true, if_false]
          have := numberOutcome_exponent T U (consumeNumber T U ⟨rest, e⟩ lval).2.1
            (consumeNumber T U ⟨rest, e⟩ lval).2.2
            ((if rv.IsNaN = true then Float64.ofInt lval.number else rv) +
              Float64.ofInt (consumeNumber T U ⟨rest, e⟩ lval).2.2.number /
                Float64.Pow10 (ceilLog10 (consumeNumber T U ⟨rest, e⟩ lval).2.2.number))
            (fr ++ [46] ++ (consumeNumber T U ⟨rest, e⟩ lval).2.2.numberRepr)
          rw [he] at this
          exact numberOutcome_mono this (Nat.le_succ_of_le (le_trans hlen (Nat.sub_le _ _)))
        · have hne : ((consumeNumber T U ⟨rest, e⟩ lval).1 != T.code .NUMBER) = true := by
            simp [hc, T.neg_one_ne]
          simp only [hne, if_true]
          exact ⟨Nat.le_succ_of_le (le_trans hlen (Nat.sub_le _ _)), Or.inr (Or.inr ⟨hc, m, hm⟩)⟩
      · rw [if_neg hd]
        exact numberOutcome_mono (numberOutcome_exponent T U ⟨rest, e⟩ lval _ _)
          (by simp only [List.length_cons]; omega)
  · rw [if_neg hdot]
    exact numberOutcome_exponent T U _ lval rv fr

theorem numberOutcome_consumeNumberOrReal (T : TokenCodes) (U : UnicodeTables) (lex : MyLexer)
    (lval : yySymType) (realStart : Float64) :
    numberOutcome T lex.err (lex.bufReader.length - 1)
      (consumeNumberOrReal T U lex lval realStart) := by
  unfold consumeNumberOrReal
  obtain ⟨hlen, hres⟩ := consumeNumber_general T U lex lval
  rcases hres with ⟨hc, he⟩ | ⟨hc, m, hm⟩
  · have hne : ((consumeNumber T U lex lval).1 != T.code .NUMBER) = false := by simp [hc]
    simp only [hne, Bool.false_eq_true, if_false]
    have := numberOutcome_fraction T U (consumeNumber T U lex lval).2.1
      (consumeNumber T U lex lval).2.2
      (realStart * Float64.ofInt (consumeNumber T U lex lval).2.2.number)
      (consumeNumber T U lex lval).2.2.numberRepr
    rw [he] at this
    exact numberOutcome_mono this hlen
  · have hne : ((consumeNumber T U lex lval).1 != T.code .NUMBER) = true := by
      simp [hc, T.neg_one_ne]
    simp only [hne, if_true]
    exact ⟨hlen, Or.inr (Or.inr ⟨hc, m, hm⟩)⟩

theorem lookup_any (c : List Nat) (t : Token) :
    ∀ l : List (List Nat × Token), l.lookup c = some t → l.any (fun p => p.2 == t) = true := by
  intro l
  induction l with
  | nil => intro h; simp at h
  | cons p l ih =>
    intro h
    obtain ⟨k, v⟩ := p
    by_cases hk : (c == k) = true
    · simp only [List.lookup, hk, Option.some.injEq] at h
      simp [h]
    · simp only [Bool.not_eq_true] at hk
      simp only [List.lookup, hk] at h
      simp [ih h]

theorem lookupReserved_isKeyword {c : List Nat} {t : Token} (h : lookupReserved c = some t) :
    isKeyword t = true :=
  lookup_any c t RESERVED_WORDS h

theorem keyword_not_word_or_space {t : Token} (h : isKeyword t = true) :
    t ≠ .TYPEORMODULEREFERENCE ∧ t ≠ .VALUEIDENTIFIER ∧ t ≠ .SPACE := by
  refine ⟨?_, ?_, ?_⟩ <;> rintro rfl <;> revert h <;> decide

theorem tokenOutcome_plain (T : TokenCodes) (U : UnicodeTables) (r : Nat) (e : Option Message)
    (n : Nat) (t : Token) (rest : List Nat) (lval : yySymType) (hlen : rest.length ≤ n)
    (h1 : t ≠ .TYPEORMODULEREFERENCE) (h2 : t ≠ .VALUEIDENTIFIER) (h3 : t = .SPACE → r = 32) :
    tokenOutcome T U r e n (T.code t, ⟨rest, e⟩, lval) :=
  ⟨hlen, Or.inl rfl, Or.inr ⟨t, rfl, fun h => by rcases h with h | h <;> contradiction, h3⟩⟩

theorem tokenOutcome_number (T : TokenCodes) (U : UnicodeTables) (r : Nat)
    {e : Option Message} {n : Nat} {res : Int × MyLexer × yySymType}
    (h : numberOutcome T e n res) : tokenOutcome T U r e n res := by
  obtain ⟨hlen, hres⟩ := h
  refine ⟨hlen, ?_, ?_⟩
  · rcases hres with ⟨_, he⟩ | ⟨hc, he | hm⟩ | ⟨hc, hm⟩
    · exact Or.inl he
    · exact Or.inl he
    · exact Or.inr ⟨Or.inr hc, hm⟩
    · exact Or.inr ⟨Or.inl hc, hm⟩
  · rcases hres with ⟨hc, _⟩ | ⟨hc, _⟩ | ⟨hc, _⟩
    · exact Or.inr ⟨.NUMBER, hc, by simp, by simp⟩
    · exact Or.inr ⟨.REALNUMBER, hc, by simp, by simp⟩
    · exact Or.inl hc


theorem ite_bool_cases {α : Type} (P : α → Prop) (c : Bool) (a b : α)
    (ha : c = true → P a) (hb : P b) : P (if c = true then a else b) := by
  cases c
  · simpa using hb
  · simpa using ha rfl

theorem consumeSingleSymbol_shape (T : TokenCodes) (lex : MyLexer) (r : Nat) :
    consumeSingleSymbol T lex r = (-1, lex.Error (.unexpectedCharacter r)) ∨
      ∃ t, consumeSingleSymbol T lex r = (T.code t, lex) ∧ t ≠ .TYPEORMODULEREFERENCE ∧
        t ≠ .VALUEIDENTIFIER ∧ (t = .SPACE → r = 32) := by
  unfold consumeSingleSymbol
  iterate 21
    refine ite_bool_cases (fun res => res = (-1, lex.Error (.unexpectedCharacter r)) ∨
      ∃ t, res = (T.code t, lex) ∧ t ≠ .TYPEORMODULEREFERENCE ∧
        t ≠ .VALUEIDENTIFIER ∧ (t = .SPACE → r = 32)) _ _ _
      (fun h => Or.inr ⟨_, rfl, by decide, by decide, ?_⟩) ?_
    · first
        | exact fun h2 => Token.noConfusion h2
        | exact fun _ => eq_of_beq h
  exact Or.inl rfl

theorem tokenOutcome_singleSymbol (T : TokenCodes) (U : UnicodeTables) (r : Nat)
    (rest : List Nat) (e : Option Message) (lval : yySymType) :
    tokenOutcome T U r e rest.length
      ((consumeSingleSymbol T ⟨rest, e⟩ r).1, (consumeSingleSymbol T ⟨rest, e⟩ r).2, lval) := by
  rcases consumeSingleSymbol_shape T ⟨rest, e⟩ r with h | ⟨t, h, h1, h2, h3⟩
  · rw [h]
    exact ⟨le_refl _, Or.inr ⟨Or.inl rfl, _, rfl⟩, Or.inl rfl⟩
  · rw [h]
    exact tokenOutcome_plain T U r e _ t rest lval (le_refl _) h1 h2 h3

theorem wellFormed_of_shape (U : UnicodeTables) (l : Nat) (run : List Nat)
    (hl : IsLetter U l = true) (hrun : ∀ c ∈ run, isIdentifierChar U c = true)
    (hnd : noDoubleHyphen (l :: run) = true) (hlast : (l :: run).getLast? ≠ some 45) :
    wellFormedWord U (l :: run) = true := by
  simp only [wellFormedWord, Bool.and_eq_true, List.all_eq_true, bne_iff_ne]
  exact ⟨⟨⟨hl, hrun⟩, hnd⟩, hlast⟩

/-! ## Every call of `Lex` returns -/

theorem lexToken_outcome (T : TokenCodes) (U : UnicodeTables) (r : Nat) (rest : List Nat)
    (e : Option Message) (lval : yySymType) :
    tokenOutcome T U r e rest.length (lexToken T U r ⟨rest, e⟩ lval) := by
  unfold lexToken
  by_cases hl : IsLetter U r = true
  · rw [if_pos hl]
    simp only [unreadRune, consumeWord_cons]
    have hlen := consumeWordLoop_length U rest [r] r
    rcases hw : consumeWordLoop U [r] r rest with ⟨m | content, rest'⟩
    · rw [hw] at hlen
      exact ⟨hlen, Or.inr ⟨Or.inl rfl, m, rfl⟩, Or.inl rfl⟩
    · rw [hw] at hlen
      obtain ⟨run, hc, _, hrun, hnd, hlast, _⟩ :=
        consumeWordLoop_shape U rest [r] r content rest' hw
      have hwf : wellFormedWord U content = true := by
        rw [hc] at hlast ⊢
        exact wellFormed_of_shape U r run hl hrun hnd hlast
      simp only
      by_cases hu : IsUpper U r = true
      · rw [if_pos hu]
        cases hlook : lookupReserved content with
        | none =>
          exact ⟨hlen, Or.inl rfl,
            Or.inr ⟨.TYPEORMODULEREFERENCE, rfl, fun _ => ⟨hl, hwf⟩, by simp⟩⟩
        | some t =>
          obtain ⟨h1, h2, h3⟩ := keyword_not_word_or_space (lookupReserved_isKeyword hlook)
          exact tokenOutcome_plain T U r e _ t rest' lval hlen h1 h2 (fun h => absurd h h3)
      · rw [if_neg hu]
        exact ⟨hlen, Or.inl rfl, Or.inr ⟨.VALUEIDENTIFIER, rfl, fun _ => ⟨hl, hwf⟩, by simp⟩⟩
  rw [if_neg hl]
  by_cases hd : IsDigit U r = true
  · rw [if_pos hd]
    have h := numberOutcome_consumeNumberOrReal T U (unreadRune ⟨rest, e⟩ r) lval Float64.NaN
    exact tokenOutcome_number T U r (numberOutcome_mono h (by simp [unreadRune]))
  rw [if_neg hd]
  by_cases hm : (r == 45 && IsDigit U (peekRune ⟨rest, e⟩)) = true
  · rw [if_pos hm]
    have h := numberOutcome_consumeNumberOrReal T U ⟨rest, e⟩ lval (Float64.fin (-1))
    exact tokenOutcome_number T U r (numberOutcome_mono h (Nat.sub_le _ _))
  rw [if_neg hm]
  have hdrop : ∀ n, (discard ⟨rest, e⟩ n).bufReader.length ≤ rest.length := by
    intro n
    simp [MyLexer.discard]
  by_cases h1 : (r == 58 && peekRunes ⟨rest, e⟩ 2 == [58, 61]) = true
  · rw [if_pos h1]
    exact tokenOutcome_plain T U r e _ _ _ lval (hdrop 2) (by decide) (by decide)
      (fun h => Token.noConfusion h)
  rw [if_neg h1]
  by_cases h2 : (r == 46 && peekRunes ⟨rest, e⟩ 2 == [46, 46]) = true
  · rw [if_pos h2]
    exact tokenOutcome_plain T U r e _ _ _ lval (hdrop 2) (by decide) (by decide)
      (fun h => Token.noConfusion h)
  rw [if_neg h2]
  by_cases h3 : (r == 46 && peekRune ⟨rest, e⟩ == 46) = true
  · rw [if_pos h3]
    exact tokenOutcome_plain T U r e _ _ _ lval (hdrop 1) (by decide) (by decide)
      (fun h => Token.noConfusion h)
  rw [if_neg h3]
  by_cases h4 : (r == 91 && peekRune ⟨rest, e⟩ == 91) = true
  · rw [if_pos h4]
    exact tokenOutcome_plain T U r e _ _ _ lval (hdrop 1) (by decide) (by decide)
      (fun h => Token.noConfusion h)
  rw [if_neg h4]
  by_cases h5 : (r == 93 && peekRune ⟨rest, e⟩ == 93) = true
  · rw [if_pos h5]
    exact tokenOutcome_plain T U r e _ _ _ lval (hdrop 1) (by decide) (by decide)
      (fun h => Token.noConfusion h)
  rw [if_neg h5]
  exact tokenOutcome_singleSymbol T U r rest e lval


theorem LexLoop_total (T : TokenCodes) (U : UnicodeTables) (lval : yySymType) :
    ∀ (fuel : Nat) (input : List Nat) (e : Option Message), input.length < fuel →
      LexLoop T U fuel ⟨input, e⟩ lval = some (0, ⟨[], e⟩, lval) ∨
        ∃ r rest, isWhitespace r = false ∧ rest.length < input.length ∧
          LexLoop T U fuel ⟨input, e⟩ lval = some (lexToken T U r ⟨rest, e⟩ lval) := by
  intro fuel
  induction fuel with
  | zero => intro input e h; exact absurd h (Nat.not_lt_zero _)
  | succ fuel ih =>
    intro input e hlen
    cases input with
    | nil => exact Or.inl (LexLoop_nil T U fuel e lval)
    | cons r rest =>
      have hrest : rest.length < fuel := Nat.lt_of_succ_lt_succ hlen
      have step : ∀ input', input'.length ≤ rest.length →
          LexLoop T U fuel ⟨input', e⟩ lval = some (0, ⟨[], e⟩, lval) ∨
            ∃ r' rest', isWhitespace r' = false ∧ rest'.length < (r :: rest).length ∧
              LexLoop T U fuel ⟨input', e⟩ lval = some (lexToken T U r' ⟨rest', e⟩ lval) := by
        intro input' hle
        rcases ih input' e (lt_of_le_of_lt hle hrest) with h | ⟨r', rest', hw, hl, h⟩
        · exact Or.inl h
        · exact Or.inr ⟨r', rest', hw,
            lt_trans hl (lt_of_le_of_lt hle (Nat.lt_succ_self _)), h⟩
      rw [LexLoop_cons]
      by_cases hw : isWhitespace r = true
      · rw [if_pos hw]
        exact step rest (le_refl _)
      rw [if_neg hw]
      by_cases hc : (r == 45 && rest.headD 0 == 45) = true
      · rw [if_pos hc]
        exact step _ (skipLineCommentLoop_length rest false)
      rw [if_neg hc]
      by_cases hb : (r == 47 && rest.headD 0 == 42) = true
      · rw [if_pos hb]
        obtain ⟨rest', hskip, hle⟩ := skipBlockComment_total rest e
        rw [hskip]
        exact step rest' hle
      rw [if_neg hb]
      exact Or.inr ⟨r, rest, by simpa using hw, Nat.lt_succ_self _, rfl⟩

theorem Lex_total (T : TokenCodes) (U : UnicodeTables) (lex : MyLexer) (lval : yySymType) :
    MyLexer.Lex T U lex lval = some (0, ⟨[], lex.err⟩, lval) ∨
      ∃ r rest, isWhitespace r = false ∧ rest.length < lex.bufReader.length ∧
        MyLexer.Lex T U lex lval = some (lexToken T U r ⟨rest, lex.err⟩ lval) :=
  LexLoop_total T U lval _ lex.bufReader lex.err (Nat.lt_succ_self _)

theorem Lex_outcome (T : TokenCodes) (U : UnicodeTables) (lex : MyLexer) (lval : yySymType) :
    ∃ res, MyLexer.Lex T U lex lval = some res ∧
      (res = (0, ⟨[], lex.err⟩, lval) ∨
        ∃ r, isWhitespace r = false ∧ 0 < lex.bufReader.length ∧
          tokenOutcome T U r lex.err (lex.bufReader.length - 1) res) := by
  rcases Lex_total T U lex lval with h | ⟨r, rest, hw, hl, h⟩
  · exact ⟨_, h, Or.inl rfl⟩
  · refine ⟨_, h, Or.inr ⟨r, hw, Nat.lt_of_le_of_lt (Nat.zero_le _) hl, ?_⟩⟩
    obtain ⟨h1, h2⟩ := lexToken_outcome T U r rest lex.err lval
    exact ⟨le_trans h1 (Nat.le_sub_one_of_lt hl), h2⟩

theorem Lex_symbol (T : TokenCodes) (U : UnicodeTables) (r : Nat) (rest : List Nat)
    (e : Option Message) (lval : yySymType) (hw : isWhitespace r = false)
    (hc : (r == 45 && rest.headD 0 == 45) = false) (hb : (r == 47 && rest.headD 0 == 42) = false) :
    MyLexer.Lex T U ⟨r :: rest, e⟩ lval = some (lexToken T U r ⟨rest, e⟩ lval) := by
  rw [MyLexer.Lex, LexLoop_cons, hw, hc, hb]
  rfl

/-! ## Digraphs, single symbols, words and the space rune -/

/-- C12. Each of the inputs `::=`, `...`, `..`, `[[` and `]]` is one token: the first `Lex` call
returns `ASSIGNMENT`, `ELLIPSIS`, `RANGE_SEPARATOR`, `LEFT_VERSION_BRACKETS` and
`RIGHT_VERSION_BRACKETS` respectively, records no error and uses up the input, and the `Lex`
call that follows returns `0`; in particular `...` is not `RANGE_SEPARATOR` followed by
`DOT`. -/
theorem digraph_is_one_token (T : TokenCodes) (U : UnicodeTables) (lval : yySymType) :
    MyLexer.Lex T U (MyLexer.start (str "::=")) lval =
        some (T.code .ASSIGNMENT, ⟨[], none⟩, lval) ∧
      MyLexer.Lex T U (MyLexer.start (str "...")) lval =
        some (T.code .ELLIPSIS, ⟨[], none⟩, lval) ∧
      MyLexer.Lex T U (MyLexer.start (str "..")) lval =
        some (T.code .RANGE_SEPARATOR, ⟨[], none⟩, lval) ∧
      MyLexer.Lex T U (MyLexer.start (str "[[")) lval =
        some (T.code .LEFT_VERSION_BRACKETS, ⟨[], none⟩, lval) ∧
      MyLexer.Lex T U (MyLexer.start (str "]]")) lval =
        some (T.code .RIGHT_VERSION_BRACKETS, ⟨[], none⟩, lval) ∧
      MyLexer.Lex T U ⟨[], none⟩ lval = some (0, ⟨[], none⟩, lval) ∧
      T.code .ELLIPSIS ≠ T.code .RANGE_SEPARATOR := by
  refine ⟨?_, ?_, ?_, ?_, ?_, Lex_eof T U none lval, fun h => ?_⟩
  · have h : str "::=" = [58, 58, 61] := by decide
    rw [MyLexer.start, h, Lex_symbol T U _ _ _ _ (by decide) (by decide) (by decide)]
    simp [lexToken, IsLetter, IsDigit, peekRune, peekRunes, MyLexer.discard]
  · have h : str "..." = [46, 46, 46] := by decide
    rw [MyLexer.start, h, Lex_symbol T U _ _ _ _ (by decide) (by decide) (by decide)]
    simp [lexToken, IsLetter, IsDigit, peekRune, peekRunes, MyLexer.discard]
  · have h : str ".." = [46, 46] := by decide
    rw [MyLexer.start, h, Lex_symbol T U _ _ _ _ (by decide) (by decide) (by decide)]
    simp [lexToken, IsLetter, IsDigit, peekRune, peekRunes, MyLexer.discard]
  · have h : str "[[" = [91, 91] := by decide
    rw [MyLexer.start, h, Lex_symbol T U _ _ _ _ (by decide) (by decide) (by decide)]
    simp [lexToken, IsLetter, IsDigit, peekRune, peekRunes, MyLexer.discard]
  · have h : str "]]" = [93, 93] := by decide
    rw [MyLexer.start, h, Lex_symbol T U _ _ _ _ (by decide) (by decide) (by decide)]
    simp [lexToken, IsLetter, IsDigit, peekRune, peekRunes, MyLexer.discard]
  · exact Token.noConfusion (T.code_inj _ _ h)

theorem Lex_single (T : TokenCodes) (U : UnicodeTables) (lval : yySymType) (c : Nat)
    (hl : IsLetter U c = false) (hd : IsDigit U c = false) (hw : isWhitespace c = false) :
    MyLexer.Lex T U (MyLexer.start [c]) lval =
      some ((consumeSingleSymbol T ⟨[], none⟩ c).1, (consumeSingleSymbol T ⟨[], none⟩ c).2,
        lval) := by
  rw [MyLexer.start, Lex_symbol T U c [] none lval hw (by simp) (by simp)]
  have h0 : IsDigit U 0 = false := by simp [IsDigit]
  simp [lexToken, hl, hd, h0, peekRune, peekRunes]

theorem consumeSingleSymbol_lookup (T : TokenCodes) (lex : MyLexer) (c : Nat) (hc : c ≠ 32) :
    (∀ t, punctuationTokens.lookup c = some t → consumeSingleSymbol T lex c = (T.code t, lex)) ∧
      (punctuationTokens.lookup c = none →
        consumeSingleSymbol T lex c = (-1, lex.Error (.unexpectedCharacter c))) := by
  have hcases : c = 123 ∨ c = 125 ∨ c = 60 ∨ c = 62 ∨ c = 44 ∨ c = 46 ∨ c = 40 ∨ c = 41 ∨
      c = 91 ∨ c = 93 ∨ c = 45 ∨ c = 58 ∨ c = 61 ∨ c = 34 ∨ c = 39 ∨ c = 59 ∨ c = 64 ∨
      c = 124 ∨ c = 33 ∨ c = 94 ∨
      (c ≠ 123 ∧ c ≠ 125 ∧ c ≠ 60 ∧ c ≠ 62 ∧ c ≠ 44 ∧ c ≠ 46 ∧ c ≠ 40 ∧ c ≠ 41 ∧
        c ≠ 91 ∧ c ≠ 93 ∧ c ≠ 45 ∧ c ≠ 58 ∧ c ≠ 61 ∧ c ≠ 34 ∧ c ≠ 39 ∧ c ≠ 59 ∧ c ≠ 64 ∧
        c ≠ 124 ∧ c ≠ 33 ∧ c ≠ 94) := by omega
  rcases hcases with rfl | rfl | rfl | rfl | rfl | rfl | rfl | rfl | rfl | rfl | rfl | rfl |
    rfl | rfl | rfl | rfl | rfl | rfl | rfl | rfl | h
  all_goals first
    | exact ⟨fun t ht => by
        have ht2 : some _ = some t := ht
        cases ht2
        rfl, fun hn => Option.noConfusion (hn : some _ = none)⟩
    | skip
  obtain ⟨h1, h2, h3, h4, h5, h6, h7, h8, h9, h10, h11, h12, h13, h14, h15, h16, h17, h18,
    h19, h20⟩ := h
  have e : ∀ k, c ≠ k → (c == k) = false := fun k hk => by simpa using hk
  constructor
  · intro t ht
    simp only [punctuationTokens, List.lookup, e _ h1, e _ h2, e _ h3, e _ h4, e _ h5, e _ h6,
      e _ h7, e _ h8, e _ h9, e _ h10, e _ h11, e _ h12, e _ h13, e _ h14, e _ h15, e _ h16,
      e _ h17, e _ h18, e _ h19, e _ h20] at ht
    cases ht
  · intro _
    simp [consumeSingleSymbol, hc, h1, h2, h3, h4, h5, h6, h7, h8, h9, h10, h11, h12,
      h13, h14, h15, h16, h17, h18, h19, h20]

theorem wellFormedWord_shape {U : UnicodeTables} {w : List Nat} (h : wellFormedWord U w = true) :
    w ≠ [] ∧ IsLetter U (w.headD 0) = true ∧
      (∀ c ∈ w, IsLetter U c = true ∨ IsDigit U c = true ∨ c = 45) ∧
      w.getLast? ≠ some 45 ∧ noDoubleHyphen w = true := by
  cases w with
  | nil => simp [wellFormedWord] at h
  | cons l run =>
    simp only [wellFormedWord, Bool.and_eq_true, List.all_eq_true, bne_iff_ne] at h
    obtain ⟨⟨⟨hl, hrun⟩, hnd⟩, hlast⟩ := h
    refine ⟨by simp, hl, ?_, hlast, hnd⟩
    intro c hc
    rcases List.mem_cons.mp hc with rfl | hc
    · exact Or.inl hl
    · have := hrun c hc
      simpa [isIdentifierChar, or_assoc] using this

/-- C19. No call of `Lex` returns the code of `SPACE`: every call returns, and the code it
returns differs from `SPACE`.  The space rune is whitespace for `isWhitespace`, so the loop of
`Lex` skips it, although `consumeSingleSymbol` would map it to `SPACE`. -/
theorem space_token_never_returned (T : TokenCodes) (U : UnicodeTables) (lex : MyLexer)
    (lval : yySymType) :
    (∃ res, MyLexer.Lex T U lex lval = some res ∧ res.1 ≠ T.code .SPACE) ∧
      isWhitespace 32 = true ∧ consumeSingleSymbol T lex 32 = (T.code .SPACE, lex) := by
  refine ⟨?_, by decide, rfl⟩
  obtain ⟨res, h, hres⟩ := Lex_outcome T U lex lval
  refine ⟨res, h, ?_⟩
  rcases hres with rfl | ⟨r, hw, _, _, _, hcode⟩
  · have := T.code_pos .SPACE
    simp only
    omega
  · rcases hcode with hneg | ⟨t, ht, _, hsp⟩
    · have := T.code_pos .SPACE
      omega
    · intro hc
      have h32 := hsp (T.code_inj _ _ (ht.symm.trans hc))
      rw [h32] at hw
      exact absurd hw (by decide)

/-- C16. Whenever a call of `Lex` returns `TYPEORMODULEREFERENCE` or `VALUEIDENTIFIER`, the
payload `lval.name` is non-empty, starts with a letter, consists of letters, digits and
hyphens, does not end with a hyphen and has no two adjacent hyphens; and whenever
`consumeWord`, entered as `Lex` enters it with a letter as the first unread rune, returns
without error, the string it returns has that shape. -/
theorem word_payload_shape (T : TokenCodes) (U : UnicodeTables) :
    (∀ (lex : MyLexer) (lval : yySymType) (res : Int × MyLexer × yySymType),
        MyLexer.Lex T U lex lval = some res →
        res.1 = T.code .TYPEORMODULEREFERENCE ∨ res.1 = T.code .VALUEIDENTIFIER →
        res.2.2.name ≠ [] ∧ IsLetter U (res.2.2.name.headD 0) = true ∧
          (∀ c ∈ res.2.2.name, IsLetter U c = true ∨ IsDigit U c = true ∨ c = 45) ∧
          res.2.2.name.getLast? ≠ some 45 ∧ noDoubleHyphen res.2.2.name = true) ∧
      (∀ (l : Nat) (tail : List Nat) (e : Option Message) (content : List Nat) (lex : MyLexer),
        IsLetter U l = true → consumeWord U ⟨l :: tail, e⟩ = (.ok content, lex) →
        content ≠ [] ∧ IsLetter U (content.headD 0) = true ∧
          (∀ c ∈ content, IsLetter U c = true ∨ IsDigit U c = true ∨ c = 45) ∧
          content.getLast? ≠ some 45 ∧ noDoubleHyphen content = true) := by
  constructor
  · intro lex lval res h hcode
    obtain ⟨res', h', hres⟩ := Lex_outcome T U lex lval
    rw [h] at h'
    cases h'
    rcases hres with rfl | ⟨r, _, _, _, _, hc⟩
    · have h1 := T.code_pos .TYPEORMODULEREFERENCE
      have h2 := T.code_pos .VALUEIDENTIFIER
      simp only at hcode
      omega
    · rcases hc with hneg | ⟨t, ht, hword, _⟩
      · have h1 := T.code_pos .TYPEORMODULEREFERENCE
        have h2 := T.code_pos .VALUEIDENTIFIER
        omega
      · have ht' : t = .TYPEORMODULEREFERENCE ∨ t = .VALUEIDENTIFIER := by
          rcases hcode with hc | hc
          · exact Or.inl (T.code_inj _ _ (ht.symm.trans hc))
          · exact Or.inr (T.code_inj _ _ (ht.symm.trans hc))
        exact wellFormedWord_shape (hword ht').2
  · intro l tail e content lex hl h
    rw [consumeWord_cons] at h
    have hw : consumeWordLoop U [l] l tail = (.ok content, (consumeWordLoop U [l] l tail).2) := by
      rw [← (Prod.mk.inj h).1]
    obtain ⟨run, hc, _, hrun, hnd, hlast, _⟩ := consumeWordLoop_shape U tail [l] l content _ hw
    rw [hc] at hlast ⊢
    exact wellFormedWord_shape (wellFormed_of_shape U l run hl hrun hnd hlast)

theorem word_payload_shape_witness :
    (str "ab-c").getLast? ≠ some 45 ∧ noDoubleHyphen (str "ab-c") = true :=
  ((word_payload_shape consecutiveCodes latin1Tables).1 (MyLexer.start (str "ab-c d"))
    yySymType.zero
    (consecutiveCodes.code .VALUEIDENTIFIER, ⟨str " d", none⟩,
      { yySymType.zero with name := str "ab-c" })
    (by decide) (Or.inr rfl)).2.2.2

/-- C13. An input of one rune `c` that is not a letter, not a digit and not whitespace: when
`c` is one of the twenty punctuation characters, `Lex` returns its punctuation token and records
no error; when it is not, `Lex` returns `-1` and records `Unexpected character: c`.  So `Lex`
returns `-1` exactly when `c` is not one of the twenty. -/
theorem lone_rune_error_iff_not_punctuation (T : TokenCodes) (U : UnicodeTables)
    (lval : yySymType) (c : Nat) (hl : IsLetter U c = false) (hd : IsDigit U c = false)
    (hw : isWhitespace c = false) :
    (∀ t, punctuationTokens.lookup c = some t →
        MyLexer.Lex T U (MyLexer.start [c]) lval = some (T.code t, ⟨[], none⟩, lval)) ∧
      (punctuationTokens.lookup c = none →
        MyLexer.Lex T U (MyLexer.start [c]) lval =
          some (-1, ⟨[], some (.unexpectedCharacter c)⟩, lval)) ∧
      ((∃ lex lval', MyLexer.Lex T U (MyLexer.start [c]) lval = some (-1, lex, lval')) ↔
        punctuationTokens.lookup c = none) ∧
      punctuationTokens.length = 20 := by
  have h32 : c ≠ 32 := by
    rintro rfl
    exact absurd hw (by decide)
  obtain ⟨h1, h2⟩ := consumeSingleSymbol_lookup T ⟨[], none⟩ c h32
  have hlex := Lex_single T U lval c hl hd hw
  have hsome : ∀ t, punctuationTokens.lookup c = some t →
      MyLexer.Lex T U (MyLexer.start [c]) lval = some (T.code t, ⟨[], none⟩, lval) := by
    intro t ht
    rw [hlex, h1 t ht]
  have hnone : punctuationTokens.lookup c = none →
      MyLexer.Lex T U (MyLexer.start [c]) lval =
        some (-1, ⟨[], some (.unexpectedCharacter c)⟩, lval) := by
    intro hn
    rw [hlex, h2 hn]
    rfl
  refine ⟨hsome, hnone, ⟨?_, fun hn => ⟨_, _, hnone hn⟩⟩, rfl⟩
  rintro ⟨lex, lval', h⟩
  cases hlook : punctuationTokens.lookup c with
  | none => rfl
  | some t =>
    rw [hsome t hlook] at h
    have hc : T.code t = -1 := (Prod.mk.inj (Option.some.inj h)).1
    have := T.code_pos t
    omega

theorem lone_rune_error_iff_not_punctuation_witness :
    MyLexer.Lex consecutiveCodes latin1Tables (MyLexer.start [35]) yySymType.zero =
        some (-1, ⟨[], some (.unexpectedCharacter 35)⟩, yySymType.zero) ∧
      MyLexer.Lex consecutiveCodes latin1Tables (MyLexer.start [59]) yySymType.zero =
        some (consecutiveCodes.code .SEMICOLON, ⟨[], none⟩, yySymType.zero) :=
  ⟨(lone_rune_error_iff_not_punctuation consecutiveCodes latin1Tables yySymType.zero 35
      (by decide) (by decide) (by decide)).2.1 (by decide),
    (lone_rune_error_iff_not_punctuation consecutiveCodes latin1Tables yySymType.zero 59
      (by decide) (by decide) (by decide)).1 _ (by decide)⟩

/-- C17. A well-formed word `w` followed by a text `rest` that is empty or starts with a rune
that is not a letter, digit or hyphen: `Lex` on `w ++ rest` returns the token code and the
payload it returns on `w` alone, and leaves exactly `rest` unread.  The input `SEQUENCE{` gives
`SEQUENCE` with `{` left unread, and the call that follows returns `OPEN_CURLY`. -/
theorem word_leaves_terminator_unread (T : TokenCodes) (U : UnicodeTables) (lval : yySymType)
    (w rest : List Nat) (hw : wellFormedWord U w = true)
    (hrest : ∀ r, rest.head? = some r → isIdentifierChar U r = false) :
    (∃ code lval', MyLexer.Lex T U (MyLexer.start w) lval = some (code, ⟨[], none⟩, lval') ∧
        MyLexer.Lex T U (MyLexer.start (w ++ rest)) lval = some (code, ⟨rest, none⟩, lval')) ∧
      MyLexer.Lex T U (MyLexer.start (str "SEQUENCE\x7b")) lval =
        some (T.code .SEQUENCE, ⟨str "\x7b", none⟩, lval) ∧
      MyLexer.Lex T U ⟨str "\x7b", none⟩ lval = some (T.code .OPEN_CURLY, ⟨[], none⟩, lval) := by
  refine ⟨?_, ?_, ?_⟩
  · have h0 := Lex_wellFormed T U w [] none lval hw (by simp)
    have h1 := Lex_wellFormed T U w rest none lval hw hrest
    rw [List.append_nil] at h0
    rw [MyLexer.start, MyLexer.start, h0, h1]
    by_cases hu : IsUpper U (w.headD 0) = true
    · rw [if_pos hu, if_pos hu]
      cases lookupReserved w with
      | none => exact ⟨_, _, rfl, rfl⟩
      | some t => exact ⟨_, _, rfl, rfl⟩
    · rw [if_neg hu, if_neg hu]
      exact ⟨_, _, rfl, rfl⟩
  · have h := Lex_wellFormed T U (str "SEQUENCE") (str "\x7b") none lval
      (by simp [wellFormedWord, str, IsLetter, IsDigit, isIdentifierChar, noDoubleHyphen])
      (by simp [str, IsLetter, IsDigit, isIdentifierChar])
    have hup : IsUpper U ((str "SEQUENCE").headD 0) = true := by simp [str, IsUpper]
    have hlook : lookupReserved (str "SEQUENCE") = some .SEQUENCE := by decide
    rw [hup, if_pos rfl, hlook] at h
    exact h
  · have h := Lex_single T U lval 123 (by simp [IsLetter]) (by simp [IsDigit]) (by decide)
    exact h

theorem word_leaves_terminator_unread_witness :
    ∃ code lval',
      MyLexer.Lex consecutiveCodes latin1Tables (MyLexer.start (str "Foo-1")) yySymType.zero =
        some (code, ⟨[], none⟩, lval') ∧
      MyLexer.Lex consecutiveCodes latin1Tables (MyLexer.start (str "Foo-1" ++ str ", b"))
        yySymType.zero = some (code, ⟨str ", b", none⟩, lval') :=
  (word_leaves_terminator_unread consecutiveCodes latin1Tables yySymType.zero (str "Foo-1")
    (str ", b") (by decide) (by decide)).1

/-! ## Progress and termination -/

theorem Lex_progress (T : TokenCodes) (U : UnicodeTables) (lex : MyLexer) (lval : yySymType) :
    ∃ res, MyLexer.Lex T U lex lval = some res ∧
      (res.1 ≠ 0 → res.2.1.bufReader.length < lex.bufReader.length) := by
  obtain ⟨res, h, hres⟩ := Lex_outcome T U lex lval
  refine ⟨res, h, fun hne => ?_⟩
  rcases hres with rfl | ⟨r, _, hpos, hlen, _⟩
  · exact absurd rfl hne
  · omega

theorem lexCalls_reaches_zero (T : TokenCodes) (U : UnicodeTables) :
    ∀ (n : Nat) (lex : MyLexer) (lval : yySymType), lex.bufReader.length ≤ n →
      ∃ k, k ≤ lex.bufReader.length ∧ ∃ lex' lval', lexCalls T U k lex lval = some (0, lex', lval') := by
  intro n
  induction n with
  | zero =>
    intro lex lval hn
    obtain ⟨res, h, hp⟩ := Lex_progress T U lex lval
    have h0 : res.1 = 0 := by
      by_contra hne
      have := hp hne
      omega
    obtain ⟨c, lex', lval'⟩ := res
    simp only at h0
    subst h0
    exact ⟨0, Nat.zero_le _, lex', lval', h⟩
  | succ n ih =>
    intro lex lval hn
    obtain ⟨res, h, hp⟩ := Lex_progress T U lex lval
    obtain ⟨c, lex', lval'⟩ := res
    by_cases h0 : c = 0
    · subst h0
      exact ⟨0, Nat.zero_le _, lex', lval', h⟩
    · have hlt : lex'.bufReader.length < lex.bufReader.length := hp h0
      obtain ⟨k, hk, lex'', lval'', hcalls⟩ := ih lex' lval' (by omega)
      refine ⟨k + 1, by omega, lex'', lval'', ?_⟩
      rw [lexCalls, h]
      exact hcalls

/-- C20. Every call of `Lex` returns, and so does every call of `skipBlockComment`, whatever
the nesting of the comments and whether or not they are closed; a call of `Lex` that returns a
value other than `0` leaves strictly fewer runes unread than it found; and among the first
`n + 1` calls on an input of `n` runes one returns `0`. -/
theorem lex_terminates_with_progress (T : TokenCodes) (U : UnicodeTables) (lex : MyLexer)
    (lval : yySymType) :
    (∃ res, MyLexer.Lex T U lex lval = some res ∧
        (res.1 ≠ 0 → res.2.1.bufReader.length < lex.bufReader.length)) ∧
      (∃ lex', skipBlockComment lex = some lex') ∧
      (∃ k, k ≤ lex.bufReader.length ∧
        ∃ lex' lval', lexCalls T U k lex lval = some (0, lex', lval')) := by
  refine ⟨Lex_progress T U lex lval, ?_, lexCalls_reaches_zero T U _ lex lval (le_refl _)⟩
  obtain ⟨rest', h, _⟩ := skipBlockComment_total lex.bufReader lex.err
  exact ⟨_, h⟩

/-! ## A range written after a number -/

theorem Lex_digits_alone (T : TokenCodes) (U : UnicodeTables) (lval : yySymType) (b : List Nat)
    (e : Option Message) (hb : digitsFit b = true) :
    MyLexer.Lex T U ⟨b, e⟩ lval =
      some (T.code .NUMBER, ⟨[], e⟩,
        { lval with numberRepr := b, number := (digitsValue b : Int) }) := by
  simp only [digitsFit, Bool.and_eq_true, decide_eq_true_eq] at hb
  obtain ⟨hs, hfit⟩ := hb
  obtain ⟨d, ds, rfl, hd⟩ := asciiDigits_cons hs
  rw [Lex_digit T U d ds e lval hd]
  have h := consumeNumberOrReal_digits T U (d :: ds) [] e lval Float64.NaN hs hfit (by simp)
  rw [List.append_nil] at h
  rw [h, fraction_absent _ _ _ _ _ _ (by simp [peekRune]),
    exponent_absent _ _ _ _ _ _ (by simp [peekRune, ToLower]), Float64.NaN_mul, NaN_end]

theorem Lex_digits_dot (T : TokenCodes) (U : UnicodeTables) (lval : yySymType)
    (a rest : List Nat) (e : Option Message) (ha : digitsFit a = true)
    (hrest : IsDigit U (rest.headD 0) = false) (hexp : ToLower U (rest.headD 0) ≠ 101) :
    MyLexer.Lex T U ⟨a ++ (46 :: rest), e⟩ lval =
      some (T.code .REALNUMBER, ⟨rest, e⟩,
        { lval with
          number := (digitsValue a : Int)
          numberRepr := a ++ [46]
          real := Float64.ofInt (digitsValue a : Int) }) := by
  simp only [digitsFit, Bool.and_eq_true, decide_eq_true_eq] at ha
  obtain ⟨hs, hfit⟩ := ha
  obtain ⟨d, ds, rfl, hd⟩ := asciiDigits_cons hs
  rw [List.cons_append, Lex_digit T U d _ e lval hd, ← List.cons_append,
    consumeNumberOrReal_digits T U (d :: ds) (46 :: rest) e lval Float64.NaN hs hfit
      (by simp [IsDigit]),
    Float64.NaN_mul, fraction_dot_only T U rest e _ _ _ hrest,
    exponent_absent _ _ _ _ _ _ (by simpa [peekRune] using hexp)]
  simp only [realOrNumber, Float64.IsNaN, if_true]
  rw [real_end _ _ _ _ _ (Float64.IsNaN_ofInt _)]


theorem Lex_dot_before_digit (T : TokenCodes) (U : UnicodeTables) (lval : yySymType)
    (d : Nat) (ds : List Nat) (e : Option Message) (hd : isAsciiDigit d = true) :
    MyLexer.Lex T U ⟨46 :: d :: ds, e⟩ lval = some (T.code .DOT, ⟨d :: ds, e⟩, lval) := by
  rw [isAsciiDigit_iff] at hd
  have hne : d ≠ 46 := by omega
  rw [Lex_symbol T U 46 (d :: ds) e lval (by decide) (by simp) (by simp)]
  have hl : IsLetter U 46 = false := by simp [IsLetter]
  have hdg : IsDigit U 46 = false := by simp [IsDigit]
  simp [lexToken, hl, hdg, peekRune, peekRunes, hne, consumeSingleSymbol]

/-- C18, amended. For non-empty ASCII digit strings `a` and `b` that fit the `int`, the input
`a ++ ".." ++ b` is lexed by four calls as `REALNUMBER` with text `a ++ "."`, value
`float64(a)` and the first dot consumed; then `DOT`; then `NUMBER` with value `b`; then `0`.
No error is recorded, none of the codes is `RANGE_SEPARATOR`, and the first is not `NUMBER`.
The value `float64(a)` is the binary64 value nearest to `a`; it is `a` itself when
`a ≤ 2^53`. -/
theorem range_after_number_is_real_dot_number (T : TokenCodes) (U : UnicodeTables)
    (lval : yySymType) (a b : List Nat) (ha : digitsFit a = true) (hb : digitsFit b = true) :
    MyLexer.Lex T U (MyLexer.start (a ++ (str ".." ++ b))) lval =
        some (T.code .REALNUMBER, ⟨str "." ++ b, none⟩,
          { lval with
            number := (digitsValue a : Int)
            numberRepr := a ++ str "."
            real := Float64.ofInt (digitsValue a : Int) }) ∧
      MyLexer.Lex T U ⟨str "." ++ b, none⟩
          { lval with
            number := (digitsValue a : Int)
            numberRepr := a ++ str "."
            real := Float64.ofInt (digitsValue a : Int) } =
        some (T.code .DOT, ⟨b, none⟩,
          { lval with
            number := (digitsValue a : Int)
            numberRepr := a ++ str "."
            real := Float64.ofInt (digitsValue a : Int) }) ∧
      MyLexer.Lex T U ⟨b, none⟩
          { lval with
            number := (digitsValue a : Int)
            numberRepr := a ++ str "."
            real := Float64.ofInt (digitsValue a : Int) } =
        some (T.code .NUMBER, ⟨[], none⟩,
          { lval with
            number := (digitsValue b : Int)
            numberRepr := b
            real := Float64.ofInt (digitsValue a : Int) }) ∧
      MyLexer.Lex T U ⟨[], none⟩
          { lval with
            number := (digitsValue b : Int)
            numberRepr := b
            real := Float64.ofInt (digitsValue a : Int) } =
        some (0, ⟨[], none⟩,
          { lval with
            number := (digitsValue b : Int)
            numberRepr := b
            real := Float64.ofInt (digitsValue a : Int) }) ∧
      T.code .REALNUMBER ≠ T.code .NUMBER ∧ T.code .REALNUMBER ≠ T.code .RANGE_SEPARATOR ∧
      T.code .DOT ≠ T.code .RANGE_SEPARATOR ∧ T.code .NUMBER ≠ T.code .RANGE_SEPARATOR ∧
      (digitsValue a ≤ 2 ^ 53 →
        Float64.ofInt (digitsValue a : Int) = Float64.fin (digitsValue a : Rat)) := by
  have hdots : str ".." = [46, 46] := by decide
  have hdot : str "." = [46] := by decide
  have hb' := hb
  simp only [digitsFit, Bool.and_eq_true, decide_eq_true_eq] at hb'
  obtain ⟨d, ds, rfl, hd⟩ := asciiDigits_cons hb'.1
  rw [hdots, hdot]
  refine ⟨?_, ?_, ?_, Lex_eof T U none _, ?_, ?_, ?_, ?_, Float64.ofInt_exact _⟩
  · exact Lex_digits_dot T U lval a (46 :: d :: ds) none ha (by simp [IsDigit])
      (by simp [ToLower])
  · exact Lex_dot_before_digit T U _ d ds none hd
  · exact Lex_digits_alone T U _ (d :: ds) none hb
  · exact fun h => Token.noConfusion (T.code_inj _ _ h)
  · exact fun h => Token.noConfusion (T.code_inj _ _ h)
  · exact fun h => Token.noConfusion (T.code_inj _ _ h)
  · exact fun h => Token.noConfusion (T.code_inj _ _ h)

theorem range_after_number_is_real_dot_number_witness :
    MyLexer.Lex consecutiveCodes latin1Tables (MyLexer.start (str "1" ++ (str ".." ++ str "5")))
        yySymType.zero =
      some (consecutiveCodes.code .REALNUMBER, ⟨str "." ++ str "5", none⟩,
        { yySymType.zero with
          number := (digitsValue (str "1") : Int)
          numberRepr := str "1" ++ str "."
          real := Float64.ofInt (digitsValue (str "1") : Int) }) :=
  (range_after_number_is_real_dot_number consecutiveCodes latin1Tables yySymType.zero (str "1")
    (str "5") (by decide) (by decide)).1

/-- The digits `9007199254740993` (`2^53 + 1`) fit the `int`, and the `REALNUMBER` returned for
`9007199254740993..5` has the value `9007199254740992`, the nearest binary64 value, not the
value of the digits. -/
theorem range_value_counterexample :
    MyLexer.Lex consecutiveCodes latin1Tables (MyLexer.start (str "9007199254740993..5"))
        yySymType.zero =
      some (consecutiveCodes.code .REALNUMBER, ⟨str ".5", none⟩,
        { yySymType.zero with
          number := 9007199254740993
          numberRepr := str "9007199254740993."
          real := Float64.fin 9007199254740992 }) ∧
    digitsFit (str "9007199254740993") = true ∧
    (9007199254740992 : Rat) ≠ 9007199254740993 := by
  decide!

/-! ## Block comments -/

theorem LexLoop_fuel (T : TokenCodes) (U : UnicodeTables) (lval : yySymType) :
    ∀ (fuel fuel' : Nat) (input : List Nat) (e : Option Message), input.length < fuel →
      input.length < fuel' →
      LexLoop T U fuel ⟨input, e⟩ lval = LexLoop T U fuel' ⟨input, e⟩ lval := by
  intro fuel
  induction fuel with
  | zero => intro fuel' input e h; exact absurd h (Nat.not_lt_zero _)
  | succ fuel ih =>
    intro fuel' input e h h'
    cases fuel' with
    | zero => exact absurd h' (Nat.not_lt_zero _)
    | succ fuel' =>
      cases input with
      | nil => rw [LexLoop_nil, LexLoop_nil]
      | cons r rest =>
        have hr : rest.length < fuel := Nat.lt_of_succ_lt_succ h
        have hr' : rest.length < fuel' := Nat.lt_of_succ_lt_succ h'
        rw [LexLoop_cons, LexLoop_cons, ih fuel' rest e hr hr',
          ih fuel' (skipLineCommentLoop false rest) e
            (lt_of_le_of_lt (skipLineCommentLoop_length rest false) hr)
            (lt_of_le_of_lt (skipLineCommentLoop_length rest false) hr')]
        obtain ⟨rest', hskip, hle⟩ := skipBlockComment_total rest e
        rw [hskip]
        simp only
        rw [ih fuel' rest' e (lt_of_le_of_lt hle hr) (lt_of_le_of_lt hle hr')]

theorem Lex_whitespace (T : TokenCodes) (U : UnicodeTables) (lval : yySymType) (r : Nat)
    (rest : List Nat) (e : Option Message) (hw : isWhitespace r = true) :
    MyLexer.Lex T U ⟨r :: rest, e⟩ lval = MyLexer.Lex T U ⟨rest, e⟩ lval := by
  rw [MyLexer.Lex, LexLoop_cons, if_pos hw]
  exact LexLoop_fuel T U lval _ _ rest e (Nat.lt_succ_self _) (Nat.lt_succ_self _)

theorem Lex_blockComment (T : TokenCodes) (U : UnicodeTables) (lval : yySymType)
    (rest rest' : List Nat) (e : Option Message)
    (hskip : skipBlockComment ⟨42 :: rest, e⟩ = some ⟨rest', e⟩) :
    MyLexer.Lex T U ⟨47 :: 42 :: rest, e⟩ lval = MyLexer.Lex T U ⟨rest', e⟩ lval := by
  obtain ⟨rest'', hskip', hle⟩ := skipBlockComment_total (42 :: rest) e
  rw [hskip] at hskip'
  cases hskip'
  rw [MyLexer.Lex, LexLoop_cons, if_neg (by decide), if_neg (by simp), if_pos (by simp), hskip]
  exact LexLoop_fuel T U lval _ _ rest' e (Nat.lt_succ_of_le hle) (Nat.lt_succ_self _)

theorem Lex_END (T : TokenCodes) (U : UnicodeTables) (lval : yySymType) (e : Option Message) :
    MyLexer.Lex T U ⟨str " END", e⟩ lval = some (T.code .END, ⟨[], e⟩, lval) := by
  have hs : str " END" = 32 :: str "END" := by decide
  rw [hs, Lex_whitespace T U lval 32 _ e (by decide)]
  have h := Lex_wellFormed T U (str "END") [] e lval
    (by simp [wellFormedWord, str, IsLetter, IsDigit, isIdentifierChar, noDoubleHyphen])
    (by simp)
  have hup : IsUpper U ((str "END").headD 0) = true := by simp [str, IsUpper]
  have hlook : lookupReserved (str "END") = some .END := by decide
  rw [List.append_nil, hup, if_pos rfl, hlook] at h
  exact h

/-- C11. The code at `/*/ a */ END`: the comment body `/ a ` holds no comment opener and no
terminator, yet the comment ends at the first rune of the body and `Lex` returns
`VALUEIDENTIFIER` with name `a`, leaving ` */ END` unread, where the keyword `END` is due.  On
`/* a /* b */ c */ END` the nested comment is skipped and `Lex` returns `END`. -/
theorem slash_after_opener_ends_block_comment (T : TokenCodes) (U : UnicodeTables)
    (lval : yySymType) :
    MyLexer.Lex T U (MyLexer.start (str "/*/ a */ END")) lval =
        some (T.code .VALUEIDENTIFIER, ⟨str " */ END", none⟩, { lval with name := str "a" }) ∧
      T.code .VALUEIDENTIFIER ≠ T.code .END ∧
      MyLexer.Lex T U (MyLexer.start (str "/* a /* b */ c */ END")) lval =
        some (T.code .END, ⟨[], none⟩, lval) := by
  refine ⟨?_, fun h => Token.noConfusion (T.code_inj _ _ h), ?_⟩
  · have hs : str "/*/ a */ END" = 47 :: 42 :: str "/ a */ END" := by decide
    have hskip : skipBlockComment ⟨42 :: str "/ a */ END", none⟩ =
        some ⟨32 :: (str "a" ++ str " */ END"), none⟩ := by decide
    rw [MyLexer.start, hs, Lex_blockComment T U lval _ _ none hskip,
      Lex_whitespace T U lval 32 _ none (by decide)]
    have h := Lex_wellFormed T U (str "a") (str " */ END") none lval
      (by simp [wellFormedWord, str, IsLetter, IsDigit, isIdentifierChar, noDoubleHyphen])
      (by simp [str, IsLetter, IsDigit, isIdentifierChar])
    have hup : IsUpper U ((str "a").headD 0) = false := by simp [str, IsUpper]
    rw [hup] at h
    exact h
  · have hs : str "/* a /* b */ c */ END" = 47 :: 42 :: str " a /* b */ c */ END" := by decide
    have hskip : skipBlockComment ⟨42 :: str " a /* b */ c */ END", none⟩ =
        some ⟨str " END", none⟩ := by decide
    rw [MyLexer.start, hs, Lex_blockComment T U lval _ _ none hskip]
    exact Lex_END T U lval none

/-- C15. The code at `/*/x`: the body `/x` holds no terminator, yet the comment ends at the
first rune of the body and `Lex` returns `VALUEIDENTIFIER` with name `x` instead of `0`. -/
theorem slash_after_opener_ends_unterminated_comment (T : TokenCodes) (U : UnicodeTables)
    (lval : yySymType) :
    MyLexer.Lex T U (MyLexer.start (str "/*/x")) lval =
        some (T.code .VALUEIDENTIFIER, ⟨[], none⟩, { lval with name := str "x" }) ∧
      T.code .VALUEIDENTIFIER ≠ 0 := by
  refine ⟨?_, fun h => ?_⟩
  · have hs : str "/*/x" = 47 :: 42 :: str "/x" := by decide
    have hskip : skipBlockComment ⟨42 :: str "/x", none⟩ = some ⟨str "x", none⟩ := by decide
    rw [MyLexer.start, hs, Lex_blockComment T U lval _ _ none hskip]
    have h := Lex_wellFormed T U (str "x") [] none lval
      (by simp [wellFormedWord, str, IsLetter, IsDigit, isIdentifierChar, noDoubleHyphen])
      (by simp)
    have hup : IsUpper U ((str "x").headD 0) = false := by simp [str, IsUpper]
    rw [List.append_nil, hup] at h
    exact h
  · have := T.code_pos .VALUEIDENTIFIER
    omega

/-! ## Block comments whose body does not begin with a slash -/

theorem noStarSlash_tail {a : Nat} {s : List Nat} (h : noStarSlash (a :: s) = true) :
    noStarSlash s = true := by
  cases s with
  | nil => rfl
  | cons b t =>
    rw [noStarSlash, Bool.and_eq_true] at h
    exact h.2

theorem noStarSlash_head {s : List Nat} (h : noStarSlash (42 :: s) = true) :
    s.head? ≠ some 47 := by
  cases s with
  | nil => simp
  | cons b t =>
    rw [noStarSlash, Bool.and_eq_true] at h
    intro hb
    have : b = 47 := by simpa using hb
    subst this
    simp at h

theorem skipBlockCommentLoop_unterminated (e : Option Message) :
    ∀ (fuel : Nat) (os cs : Bool) (s : List Nat), s.length < fuel → noStarSlash s = true →
      (cs = true → s.head? ≠ some 47) →
      skipBlockCommentLoop fuel os cs ⟨s, e⟩ = some ⟨[], e⟩ := by
  intro fuel
  induction fuel with
  | zero => intro os cs s h; omega
  | succ fuel ih =>
    intro os cs s h hns hcs
    cases s with
    | nil => simp [skipBlockCommentLoop, readRune]
    | cons r rest =>
      have hlen : rest.length < fuel := by simpa using h
      have hns' := noStarSlash_tail hns
      rw [skipBlockCommentLoop]
      simp only [readRune, Bool.false_eq_true, if_false]
      by_cases h47 : (r == 47) = true
      · rw [if_pos h47]
        have hr : r = 47 := by simpa using h47
        have hcsf : ¬ cs = true := fun hc => hcs hc (by simp [hr])
        rw [if_neg hcsf]
        exact ih true cs rest hlen hns' (fun hc => absurd hc hcsf)
      · rw [if_neg h47]
        by_cases h42 : (r == 42) = true
        · rw [if_pos h42]
          have hr : r = 42 := by simpa using h42
          subst hr
          by_cases hos : os = true
          · rw [if_pos hos, ih false false rest hlen hns' (by simp)]
            exact ih false false [] (by simp; omega) rfl (by simp)
          · rw [if_neg hos]
            exact ih os true rest hlen hns' (fun _ => noStarSlash_head hns)
        · rw [if_neg h42]
          exact ih false false rest hlen hns' (by simp)

/-- A block comment that is not closed and whose body does not begin with `/` is skipped to
the end of the input: the first `Lex` call returns `0` and records nothing. -/
theorem unterminated_block_comment_skipped (T : TokenCodes) (U : UnicodeTables)
    (lval : yySymType) (b : List Nat) (hns : noStarSlash b = true)
    (hfirst : b.head? ≠ some 47) :
    MyLexer.Lex T U (MyLexer.start (str "/*" ++ b)) lval = some (0, ⟨[], none⟩, lval) := by
  have hs : str "/*" ++ b = 47 :: 42 :: b := by
    have : str "/*" = [47, 42] := by decide
    rw [this]; rfl
  have hskip : skipBlockComment ⟨42 :: b, none⟩ = some ⟨[], none⟩ := by
    rw [skipBlockComment, skipBlockCommentLoop]
    simp only [readRune, Bool.false_eq_true, if_false]
    exact skipBlockCommentLoop_unterminated none _ false true b (by simp) hns (fun _ => hfirst)
  rw [MyLexer.start, hs, Lex_blockComment T U lval b [] none hskip]
  exact Lex_eof T U none lval


theorem unterminated_block_comment_skipped_witness :
    MyLexer.Lex consecutiveCodes latin1Tables (MyLexer.start (str "/*" ++ str " a /* b * / c"))
        yySymType.zero =
      some (0, ⟨[], none⟩, yySymType.zero) :=
  unterminated_block_comment_skipped consecutiveCodes latin1Tables yySymType.zero
    (str " a /* b * / c") (by decide) (by decide)

theorem closeComments_zero (s : List Nat) : closeComments 0 s = some s := by
  cases s with
  | nil => rfl
  | cons a t => cases t <;> rfl

theorem closeComments_nil (d : Nat) : closeComments (d + 1) [] = none := rfl

theorem closeComments_single (d a : Nat) : closeComments (d + 1) [a] = none := rfl

theorem closeComments_open (d : Nat) (rest : List Nat) :
    closeComments (d + 1) (47 :: 42 :: rest) = closeComments (d + 2) rest := by
  rw [closeComments]; rfl

theorem closeComments_close (d : Nat) (rest : List Nat) :
    closeComments (d + 1) (42 :: 47 :: rest) = closeComments d rest := by
  rw [closeComments]; rfl

theorem closeComments_skip (d a b : Nat) (rest : List Nat)
    (h1 : ¬ (a = 47 ∧ b = 42)) (h2 : ¬ (a = 42 ∧ b = 47)) :
    closeComments (d + 1) (a :: b :: rest) = closeComments (d + 1) (b :: rest) := by
  rw [closeComments, if_neg (by simpa using h1), if_neg (by simpa using h2)]

theorem closeComments_plain (d a : Nat) (s : List Nat) (h47 : a ≠ 47) (h42 : a ≠ 42) :
    closeComments (d + 1) (a :: s) = closeComments (d + 1) s := by
  cases s with
  | nil => rfl
  | cons b rest => exact closeComments_skip d a b rest (fun h => h47 h.1) (fun h => h42 h.1)


theorem skipBlockCommentLoop_closes (e : Option Message) :
    ∀ (fuel : Nat) (os cs : Bool) (s : List Nat) (d : Nat) (rest : List Nat), s.length < fuel →
      (os && cs) = false →
      closeComments (d + 1) ((if os then [47] else if cs then [42] else []) ++ s) = some rest →
      ∃ mid, skipBlockCommentLoop fuel os cs ⟨s, e⟩ = some ⟨mid, e⟩ ∧ mid.length ≤ s.length ∧
        closeComments d mid = some rest := by
  intro fuel
  induction fuel with
  | zero => intro os cs s d rest h; omega
  | succ fuel ih =>
    intro os cs s d rest h hflags hcc
    cases s with
    | nil =>
      cases os <;> cases cs <;> simp [closeComments_nil, closeComments_single] at hcc hflags
    | cons r s' =>
      have hlen : s'.length < fuel := by simpa using h
      rw [skipBlockCommentLoop]
      simp only [readRune, Bool.false_eq_true, if_false]
      by_cases h47 : (r == 47) = true
      · rw [if_pos h47]
        have hr : r = 47 := by simpa using h47
        subst hr
        cases cs with
        | true =>
          have hos : os = false := by simpa using hflags
          subst hos
          simp only [Bool.false_eq_true, if_false, if_true, List.singleton_append,
            closeComments_close] at hcc
          exact ⟨s', by simp, by simp, hcc⟩
        | false =>
          rw [if_neg (by simp)]
          have hcc' : closeComments (d + 1) ([47] ++ s') = some rest := by
            cases os with
            | true =>
              simp only [if_true, List.singleton_append] at hcc
              rw [closeComments_skip d 47 47 s' (by simp) (by simp)] at hcc
              exact hcc
            | false =>
              simpa using hcc
          obtain ⟨mid, h1, h2, h3⟩ := ih true false s' d rest hlen rfl (by simpa using hcc')
          exact ⟨mid, h1, Nat.le_succ_of_le h2, h3⟩
      · rw [if_neg h47]
        have hr47 : r ≠ 47 := by simpa using h47
        by_cases h42 : (r == 42) = true
        · rw [if_pos h42]
          have hr : r = 42 := by simpa using h42
          subst hr
          cases os with
          | true =>
            have hcs : cs = false := by simpa using hflags
            subst hcs
            simp only [if_true, List.singleton_append, closeComments_open] at hcc
            obtain ⟨mid1, h1, h2, h3⟩ := ih false false s' (d + 1) rest hlen rfl
              (by simpa using hcc)
            obtain ⟨mid, h4, h5, h6⟩ := ih false false mid1 d rest (lt_of_le_of_lt h2 hlen) rfl
              (by simpa using h3)
            rw [if_pos rfl, h1]
            exact ⟨mid, h4, Nat.le_succ_of_le (le_trans h5 h2), h6⟩
          | false =>
            rw [if_neg (by simp)]
            have hcc' : closeComments (d + 1) ([42] ++ s') = some rest := by
              cases cs with
              | true =>
                simp only [Bool.false_eq_true, if_false, if_true, List.singleton_append] at hcc
                rw [closeComments_skip d 42 42 s' (by simp) (by simp)] at hcc
                exact hcc
              | false =>
                simpa using hcc
            obtain ⟨mid, h1, h2, h3⟩ := ih false true s' d rest hlen rfl (by simpa using hcc')
            exact ⟨mid, h1, Nat.le_succ_of_le h2, h3⟩
        · rw [if_neg h42]
          have hr42 : r ≠ 42 := by simpa using h42
          have hcc' : closeComments (d + 1) s' = some rest := by
            rw [← closeComments_plain d r s' hr47 hr42]
            cases os with
            | true =>
              simp only [if_true, List.singleton_append] at hcc
              rw [closeComments_skip d 47 r s' (fun h => hr42 h.2) (by simp)] at hcc
              exact hcc
            | false =>
              cases cs with
              | true =>
                simp only [Bool.false_eq_true, if_false, if_true, List.singleton_append] at hcc
                rw [closeComments_skip d 42 r s' (by simp) (fun h => hr47 h.2)] at hcc
                exact hcc
              | false =>
                simpa using hcc
          obtain ⟨mid, h1, h2, h3⟩ := ih false false s' d rest hlen rfl (by simpa using hcc')
          exact ⟨mid, h1, Nat.le_succ_of_le h2, h3⟩


theorem closeComments_append (v : List Nat) :
    ∀ (n : Nat) (u : List Nat) (d : Nat) (r : List Nat), u.length ≤ n →
      closeComments d u = some r → closeComments d (u ++ v) = some (r ++ v) := by
  intro n
  induction n with
  | zero =>
    intro u d r hn h
    have hu : u = [] := List.length_eq_zero.mp (Nat.le_zero.mp hn)
    subst hu
    cases d with
    | zero =>
      rw [closeComments_zero] at h
      cases h
      exact closeComments_zero _
    | succ d => rw [closeComments_nil] at h; cases h
  | succ n ih =>
    intro u d r hn h
    cases d with
    | zero =>
      rw [closeComments_zero] at h
      cases h
      exact closeComments_zero _
    | succ d =>
      cases u with
      | nil => rw [closeComments_nil] at h; cases h
      | cons a t =>
        cases t with
        | nil => rw [closeComments_single] at h; cases h
        | cons b rest =>
          have hrest : rest.length ≤ n := by
            simp only [List.length_cons] at hn
            omega
          have htail : (b :: rest).length ≤ n := by
            simp only [List.length_cons] at hn ⊢
            omega
          rw [closeComments] at h
          rw [List.cons_append, List.cons_append, closeComments]
          by_cases h1 : (a == 47 && b == 42) = true
          · rw [if_pos h1] at h ⊢
            exact ih rest (d + 2) r hrest h
          · rw [if_neg h1] at h ⊢
            by_cases h2 : (a == 42 && b == 47) = true
            · rw [if_pos h2] at h ⊢
              exact ih rest d r hrest h
            · rw [if_neg h2] at h ⊢
              exact ih (b :: rest) (d + 1) r htail h

theorem skipBlockComment_closes (e : Option Message) (u rest : List Nat)
    (hu : closeComments 1 u = some rest) (hfirst : u.head? ≠ some 47) :
    skipBlockComment ⟨42 :: u, e⟩ = some ⟨rest, e⟩ := by
  have hcc : closeComments 1 ([42] ++ u) = some rest := by
    cases u with
    | nil => rw [closeComments_nil] at hu; cases hu
    | cons b t =>
      have hb : b ≠ 47 := fun hb => hfirst (by simp [hb])
      rw [List.singleton_append, closeComments_skip 0 42 b t (by simp) (fun h => hb h.2)]
      exact hu
  obtain ⟨mid, h1, _, h3⟩ := skipBlockCommentLoop_closes e (u.length + 1) false true u 0 rest
    (Nat.lt_succ_self _) rfl (by simpa using hcc)
  rw [closeComments_zero] at h3
  cases h3
  rw [skipBlockComment, skipBlockCommentLoop]
  simp only [readRune, Bool.false_eq_true, if_false]
  exact h1

/-- A block comment `/*` ++ `u` in which `u`, the body with its terminator, closes exactly
the one comment that `/*` opens, nested comments included, and does not begin with `/`, is
skipped: on the comment followed by ` END` the first `Lex` call returns `END`. -/
theorem nested_block_comment_skipped (T : TokenCodes) (U : UnicodeTables) (lval : yySymType)
    (u : List Nat) (hu : closeComments 1 u = some []) (hfirst : u.head? ≠ some 47) :
    MyLexer.Lex T U (MyLexer.start (str "/*" ++ (u ++ str " END"))) lval =
      some (T.code .END, ⟨[], none⟩, lval) := by
  have hs : str "/*" ++ (u ++ str " END") = 47 :: 42 :: (u ++ str " END") := by
    have : str "/*" = [47, 42] := by decide
    rw [this]; rfl
  have happ := closeComments_append (str " END") _ u 1 [] (le_refl _) hu
  rw [List.nil_append] at happ
  have hfirst' : (u ++ str " END").head? ≠ some 47 := by
    cases u with
    | nil => rw [closeComments_nil] at hu; cases hu
    | cons b t => simpa using hfirst
  rw [MyLexer.start, hs,
    Lex_blockComment T U lval _ _ none (skipBlockComment_closes none _ _ happ hfirst')]
  exact Lex_END T U lval none

theorem nested_block_comment_skipped_witness :
    MyLexer.Lex consecutiveCodes latin1Tables
        (MyLexer.start (str "/*" ++ (str " a /* b */ c */" ++ str " END"))) yySymType.zero =
      some (consecutiveCodes.code .END, ⟨[], none⟩, yySymType.zero) :=
  nested_block_comment_skipped consecutiveCodes latin1Tables yySymType.zero
    (str " a /* b */ c */") (by decide) (by decide)

/-! ## The recorded error -/

@[simp]
theorem afterPrior_bufReader (e : Option Message) (lex : MyLexer) :
    (afterPrior e lex).bufReader = lex.bufReader := rfl

@[simp]
theorem afterPrior_mk_none (e : Option Message) (s : List Nat) :
    afterPrior e ⟨s, none⟩ = ⟨s, e⟩ := rfl

@[simp]
theorem afterPrior_mk_some (e : Option Message) (s : List Nat) (m : Message) :
    afterPrior e ⟨s, some m⟩ = ⟨s, some m⟩ := rfl

@[simp]
theorem afterPrior_setReader (e : Option Message) (lex : MyLexer) (s : List Nat) :
    ({ afterPrior e lex with bufReader := s } : MyLexer) =
      afterPrior e { lex with bufReader := s } := rfl

@[simp]
theorem afterPrior_Error (e : Option Message) (lex : MyLexer) (m : Message) :
    (afterPrior e lex).Error m = afterPrior e (lex.Error m) := rfl

@[simp]
theorem afterPrior_unreadRune (e : Option Message) (lex : MyLexer) (r : Nat) :
    (afterPrior e lex).unreadRune r = afterPrior e (lex.unreadRune r) := rfl

@[simp]
theorem afterPrior_peekRune (e : Option Message) (lex : MyLexer) :
    (afterPrior e lex).peekRune = lex.peekRune := rfl

@[simp]
theorem afterPrior_peekRunes (e : Option Message) (lex : MyLexer) (n : Nat) :
    (afterPrior e lex).peekRunes n = lex.peekRunes n := rfl

@[simp]
theorem afterPrior_discard (e : Option Message) (lex : MyLexer) (n : Nat) :
    MyLexer.discard (afterPrior e lex) n = afterPrior e (MyLexer.discard lex n) := rfl

theorem afterPrior_readRune (e : Option Message) (lex : MyLexer) :
    (afterPrior e lex).readRune =
      (lex.readRune.1, lex.readRune.2.1, afterPrior e lex.readRune.2.2) := by
  obtain ⟨s, e0⟩ := lex
  cases s <;> rfl

theorem frame_consumeNumberEnd (T : TokenCodes) (e : Option Message) (acc : List Nat)
    (lex : MyLexer) (lval : yySymType) :
    consumeNumberEnd T acc (afterPrior e lex) lval =
      withPrior e (consumeNumberEnd T acc lex lval) := by
  simp only [consumeNumberEnd]
  cases Atoi acc <;> rfl

theorem frame_consumeNumberLoop (T : TokenCodes) (U : UnicodeTables) (e : Option Message)
    (lex : MyLexer) (lval : yySymType) :
    ∀ (input acc : List Nat),
      consumeNumberLoop T U acc (afterPrior e lex) lval input =
        withPrior e (consumeNumberLoop T U acc lex lval input) := by
  intro input
  induction input with
  | nil =>
    intro acc
    rw [consumeNumberLoop, consumeNumberLoop, afterPrior_setReader, frame_consumeNumberEnd]
  | cons r rest ih =>
    intro acc
    rw [consumeNumberLoop, consumeNumberLoop]
    split_ifs
    · rw [afterPrior_setReader, afterPrior_unreadRune, frame_consumeNumberEnd]
    · exact ih _

theorem frame_consumeNumber (T : TokenCodes) (U : UnicodeTables) (e : Option Message)
    (lex : MyLexer) (lval : yySymType) :
    consumeNumber T U (afterPrior e lex) lval = withPrior e (consumeNumber T U lex lval) := by
  obtain ⟨s, e0⟩ := lex
  cases s with
  | nil => rfl
  | cons r rest =>
    simp only [consumeNumber, afterPrior_readRune, readRune, Bool.false_eq_true, if_false]
    exact frame_consumeNumberLoop T U e ⟨rest, e0⟩ lval rest [r]

theorem frame_consumeNumberOrRealEnd (T : TokenCodes) (e : Option Message) (lex : MyLexer)
    (lval : yySymType) (rv : Float64) (fr : List Nat) :
    consumeNumberOrRealEnd T (afterPrior e lex) lval rv fr =
      withPrior e (consumeNumberOrRealEnd T lex lval rv fr) := by
  simp only [consumeNumberOrRealEnd]
  split_ifs <;> rfl


theorem frame_consumeNumberOrRealExponent (T : TokenCodes) (U : UnicodeTables)
    (e : Option Message) (lex : MyLexer) (lval : yySymType) (rv : Float64) (fr : List Nat) :
    consumeNumberOrRealExponent T U (afterPrior e lex) lval rv fr =
      withPrior e (consumeNumberOrRealExponent T U lex lval rv fr) := by
  simp only [consumeNumberOrRealExponent, afterPrior_peekRune, afterPrior_readRune]
  by_cases h1 : (ToLower U lex.peekRune == 101) = true
  · rw [if_pos h1, if_pos h1]
    by_cases h2 : (lex.readRune.2.2.peekRune == 45) = true
    · simp only [afterPrior_peekRune, if_pos h2, afterPrior_readRune]
      by_cases h3 : IsDigit U lex.readRune.2.2.readRune.2.2.peekRune = true
      · simp only [if_pos h3, frame_consumeNumber, withPrior]
        split_ifs <;> first | rfl | exact frame_consumeNumberOrRealEnd _ _ _ _ _ _
      · simp only [if_neg h3, afterPrior_Error]
        exact frame_consumeNumberOrRealEnd _ _ _ _ _ _
    · simp only [afterPrior_peekRune, if_neg h2]
      by_cases h3 : IsDigit U lex.readRune.2.2.peekRune = true
      · simp only [if_pos h3, frame_consumeNumber, withPrior]
        split_ifs <;> first | rfl | exact frame_consumeNumberOrRealEnd _ _ _ _ _ _
      · simp only [if_neg h3, afterPrior_Error]
        exact frame_consumeNumberOrRealEnd _ _ _ _ _ _
  · rw [if_neg h1, if_neg h1]
    exact frame_consumeNumberOrRealEnd _ _ _ _ _ _

theorem frame_consumeNumberOrRealFraction (T : TokenCodes) (U : UnicodeTables)
    (e : Option Message) (lex : MyLexer) (lval : yySymType) (rv : Float64) (fr : List Nat) :
    consumeNumberOrRealFraction T U (afterPrior e lex) lval rv fr =
      withPrior e (consumeNumberOrRealFraction T U lex lval rv fr) := by
  simp only [consumeNumberOrRealFraction, afterPrior_peekRune, afterPrior_readRune]
  by_cases h1 : (lex.peekRune == 46) = true
  · rw [if_pos h1, if_pos h1]
    by_cases h3 : IsDigit U lex.readRune.2.2.peekRune = true
    · simp only [if_pos h3, frame_consumeNumber, withPrior]
      split_ifs <;> first | rfl | exact frame_consumeNumberOrRealExponent _ _ _ _ _ _ _
    · simp only [if_neg h3]
      exact frame_consumeNumberOrRealExponent _ _ _ _ _ _ _
  · rw [if_neg h1, if_neg h1]
    exact frame_consumeNumberOrRealExponent _ _ _ _ _ _ _

theorem frame_consumeNumberOrReal (T : TokenCodes) (U : UnicodeTables)
    (e : Option Message) (lex : MyLexer) (lval : yySymType) (rs : Float64) :
    consumeNumberOrReal T U (afterPrior e lex) lval rs =
      withPrior e (consumeNumberOrReal T U lex lval rs) := by
  simp only [consumeNumberOrReal, frame_consumeNumber, withPrior]
  split_ifs <;> first | rfl | exact frame_consumeNumberOrRealFraction _ _ _ _ _ _ _

theorem frame_consumeWord (U : UnicodeTables) (e : Option Message) (lex : MyLexer) :
    consumeWord U (afterPrior e lex) =
      ((consumeWord U lex).1, afterPrior e (consumeWord U lex).2) := by
  simp only [consumeWord, afterPrior_readRune]
  rfl

theorem frame_consumeSingleSymbol (T : TokenCodes) (e : Option Message) (lex : MyLexer)
    (c : Nat) :
    consumeSingleSymbol T (afterPrior e lex) c =
      ((consumeSingleSymbol T lex c).1, afterPrior e (consumeSingleSymbol T lex c).2) := by
  have hcases : c = 123 ∨ c = 125 ∨ c = 60 ∨ c = 62 ∨ c = 44 ∨ c = 46 ∨ c = 40 ∨ c = 41 ∨
      c = 91 ∨ c = 93 ∨ c = 45 ∨ c = 58 ∨ c = 61 ∨ c = 34 ∨ c = 39 ∨ c = 32 ∨ c = 59 ∨
      c = 64 ∨ c = 124 ∨ c = 33 ∨ c = 94 ∨
      (c ≠ 123 ∧ c ≠ 125 ∧ c ≠ 60 ∧ c ≠ 62 ∧ c ≠ 44 ∧ c ≠ 46 ∧ c ≠ 40 ∧ c ≠ 41 ∧
        c ≠ 91 ∧ c ≠ 93 ∧ c ≠ 45 ∧ c ≠ 58 ∧ c ≠ 61 ∧ c ≠ 34 ∧ c ≠ 39 ∧ c ≠ 32 ∧ c ≠ 59 ∧
        c ≠ 64 ∧ c ≠ 124 ∧ c ≠ 33 ∧ c ≠ 94) := by omega
  rcases hcases with rfl | rfl | rfl | rfl | rfl | rfl | rfl | rfl | rfl | rfl | rfl | rfl |
    rfl | rfl | rfl | rfl | rfl | rfl | rfl | rfl | rfl | h
  all_goals first
    | rfl
    | skip
  obtain ⟨h1, h2, h3, h4, h5, h6, h7, h8, h9, h10, h11, h12, h13, h14, h15, h16, h17, h18,
    h19, h20, h21⟩ := h
  simp [consumeSingleSymbol, h1, h2, h3, h4, h5, h6, h7, h8, h9, h10, h11, h12,
    h13, h14, h15, h16, h17, h18, h19, h20, h21]

theorem frame_lexToken (T : TokenCodes) (U : UnicodeTables) (e : Option Message) (r : Nat)
    (lex : MyLexer) (lval : yySymType) :
    lexToken T U r (afterPrior e lex) lval = withPrior e (lexToken T U r lex lval) := by
  unfold lexToken
  by_cases hl : IsLetter U r = true
  · rw [if_pos hl, if_pos hl]
    simp only [afterPrior_unreadRune, frame_consumeWord]
    rcases hw : consumeWord U (lex.unreadRune r) with ⟨m | content, lex'⟩
    · rfl
    · simp only
      split_ifs
      · cases lookupReserved content <;> rfl
      · rfl
  rw [if_neg hl, if_neg hl]
  by_cases hd : IsDigit U r = true
  · rw [if_pos hd, if_pos hd]
    simp only [afterPrior_unreadRune, frame_consumeNumberOrReal]
  rw [if_neg hd, if_neg hd]
  simp only [afterPrior_peekRune, afterPrior_peekRunes]
  by_cases hm : (r == 45 && IsDigit U lex.peekRune) = true
  · rw [if_pos hm, if_pos hm]
    exact frame_consumeNumberOrReal _ _ _ _ _ _
  rw [if_neg hm, if_neg hm]
  by_cases h1 : (r == 58 && lex.peekRunes 2 == [58, 61]) = true
  · rw [if_pos h1, if_pos h1]; rfl
  rw [if_neg h1, if_neg h1]
  by_cases h2 : (r == 46 && lex.peekRunes 2 == [46, 46]) = true
  · rw [if_pos h2, if_pos h2]; rfl
  rw [if_neg h2, if_neg h2]
  by_cases h3 : (r == 46 && lex.peekRune == 46) = true
  · rw [if_pos h3, if_pos h3]; rfl
  rw [if_neg h3, if_neg h3]
  by_cases h4 : (r == 91 && lex.peekRune == 91) = true
  · rw [if_pos h4, if_pos h4]; rfl
  rw [if_neg h4, if_neg h4]
  by_cases h5 : (r == 93 && lex.peekRune == 93) = true
  · rw [if_pos h5, if_pos h5]; rfl
  rw [if_neg h5, if_neg h5]
  simp only [frame_consumeSingleSymbol]
  rfl

theorem frame_skipBlockCommentLoop (e : Option Message) :
    ∀ (fuel : Nat) (os cs : Bool) (lex : MyLexer),
      skipBlockCommentLoop fuel os cs (afterPrior e lex) =
        (skipBlockCommentLoop fuel os cs lex).map (afterPrior e) := by
  intro fuel
  induction fuel with
  | zero => intro os cs lex; rfl
  | succ fuel ih =>
    intro os cs lex
    obtain ⟨s, e0⟩ := lex
    cases s with
    | nil => rfl
    | cons r rest =>
      show skipBlockCommentLoop (fuel + 1) os cs
        ⟨r :: rest, (afterPrior e ⟨r :: rest, e0⟩).err⟩ = _
      rw [skipBlockCommentLoop, skipBlockCommentLoop]
      simp only [readRune, Bool.false_eq_true, if_false]
      by_cases h47 : (r == 47) = true
      · rw [if_pos h47, if_pos h47]
        by_cases hcs : cs = true
        · rw [if_pos hcs, if_pos hcs]; rfl
        · rw [if_neg hcs, if_neg hcs]; exact ih true cs ⟨rest, e0⟩
      · rw [if_neg h47, if_neg h47]
        by_cases h42 : (r == 42) = true
        · rw [if_pos h42, if_pos h42]
          by_cases hos : os = true
          · rw [if_pos hos, if_pos hos]
            have h := ih false false ⟨rest, e0⟩
            have h' : skipBlockCommentLoop fuel false false
                ⟨rest, (afterPrior e ⟨r :: rest, e0⟩).err⟩ =
                (skipBlockCommentLoop fuel false false ⟨rest, e0⟩).map (afterPrior e) := h
            rw [h']
            cases skipBlockCommentLoop fuel false false ⟨rest, e0⟩ with
            | none => rfl
            | some lex1 => exact ih false false lex1
          · rw [if_neg hos, if_neg hos]; exact ih os true ⟨rest, e0⟩
        · rw [if_neg h42, if_neg h42]; exact ih false false ⟨rest, e0⟩

theorem frame_skipBlockComment (e : Option Message) (lex : MyLexer) :
    skipBlockComment (afterPrior e lex) = (skipBlockComment lex).map (afterPrior e) :=
  frame_skipBlockCommentLoop e _ false false lex

theorem frame_LexLoop (T : TokenCodes) (U : UnicodeTables) (e : Option Message)
    (lval : yySymType) :
    ∀ (fuel : Nat) (lex : MyLexer),
      LexLoop T U fuel (afterPrior e lex) lval =
        (LexLoop T U fuel lex lval).map (withPrior e) := by
  intro fuel
  induction fuel with
  | zero => intro lex; rfl
  | succ fuel ih =>
    intro lex
    obtain ⟨s, e0⟩ := lex
    cases s with
    | nil =>
      show LexLoop T U (fuel + 1) ⟨[], _⟩ lval = _
      rw [LexLoop_nil, LexLoop_nil]
      rfl
    | cons r rest =>
      show LexLoop T U (fuel + 1) ⟨r :: rest, (afterPrior e ⟨r :: rest, e0⟩).err⟩ lval = _
      rw [LexLoop_cons, LexLoop_cons]
      by_cases hw : isWhitespace r = true
      · rw [if_pos hw, if_pos hw]
        exact ih ⟨rest, e0⟩
      rw [if_neg hw, if_neg hw]
      by_cases hc : (r == 45 && rest.headD 0 == 45) = true
      · rw [if_pos hc, if_pos hc]
        exact ih ⟨skipLineCommentLoop false rest, e0⟩
      rw [if_neg hc, if_neg hc]
      by_cases hb : (r == 47 && rest.headD 0 == 42) = true
      · rw [if_pos hb, if_pos hb]
        have h := frame_skipBlockComment e ⟨rest, e0⟩
        have h' : skipBlockComment ⟨rest, (afterPrior e ⟨r :: rest, e0⟩).err⟩ =
            (skipBlockComment ⟨rest, e0⟩).map (afterPrior e) := h
        rw [h']
        cases skipBlockComment ⟨rest, e0⟩ with
        | none => rfl
        | some lex1 => exact ih lex1
      rw [if_neg hb, if_neg hb]
      have h := frame_lexToken T U e r ⟨rest, e0⟩ lval
      have h' : lexToken T U r ⟨rest, (afterPrior e ⟨r :: rest, e0⟩).err⟩ lval =
          withPrior e (lexToken T U r ⟨rest, e0⟩ lval) := h
      rw [h']
      rfl

theorem frame_Lex (T : TokenCodes) (U : UnicodeTables) (e : Option Message) (lval : yySymType)
    (lex : MyLexer) :
    MyLexer.Lex T U (afterPrior e lex) lval = (MyLexer.Lex T U lex lval).map (withPrior e) :=
  frame_LexLoop T U e lval _ lex

theorem lexToken_failure (T : TokenCodes) (U : UnicodeTables) (r : Nat) (lex : MyLexer)
    (lval : yySymType) (h : (lexToken T U r lex lval).1 = -1) :
    ∃ m, (lexToken T U r lex lval).2.1.err = some m := by
  have hpos : ∀ t, T.code t ≠ -1 := fun t ht => by
    have := T.code_pos t
    omega
  unfold lexToken at h ⊢
  by_cases hl : IsLetter U r = true
  · rw [if_pos hl] at h ⊢
    dsimp only at h ⊢
    revert h
    rcases consumeWord U (lex.unreadRune r) with ⟨m | content, lex'⟩
    · intro _; exact ⟨m, rfl⟩
    · dsimp only
      by_cases hu : IsUpper U r = true
      · rw [if_pos hu]
        cases lookupReserved content with
        | none => intro h; exact absurd h (hpos _)
        | some t => intro h; exact absurd h (hpos _)
      · rw [if_neg hu]
        intro h; exact absurd h (hpos _)
  rw [if_neg hl] at h ⊢
  by_cases hd : IsDigit U r = true
  · rw [if_pos hd] at h ⊢
    obtain ⟨_, hres⟩ := numberOutcome_consumeNumberOrReal T U (lex.unreadRune r) lval Float64.NaN
    rcases hres with ⟨hc, _⟩ | ⟨hc, _⟩ | ⟨_, hm⟩
    · exact absurd (hc.symm.trans h) (hpos _)
    · exact absurd (hc.symm.trans h) (hpos _)
    · exact hm
  rw [if_neg hd] at h ⊢
  by_cases hm : (r == 45 && IsDigit U lex.peekRune) = true
  · rw [if_pos hm] at h ⊢
    obtain ⟨_, hres⟩ := numberOutcome_consumeNumberOrReal T U lex lval (Float64.fin (-1))
    rcases hres with ⟨hc, _⟩ | ⟨hc, _⟩ | ⟨_, hm⟩
    · exact absurd (hc.symm.trans h) (hpos _)
    · exact absurd (hc.symm.trans h) (hpos _)
    · exact hm
  rw [if_neg hm] at h ⊢
  by_cases h1 : (r == 58 && lex.peekRunes 2 == [58, 61]) = true
  · rw [if_pos h1] at h; exact absurd h (hpos _)
  rw [if_neg h1] at h ⊢
  by_cases h2 : (r == 46 && lex.peekRunes 2 == [46, 46]) = true
  · rw [if_pos h2] at h; exact absurd h (hpos _)
  rw [if_neg h2] at h ⊢
  by_cases h3 : (r == 46 && lex.peekRune == 46) = true
  · rw [if_pos h3] at h; exact absurd h (hpos _)
  rw [if_neg h3] at h ⊢
  by_cases h4 : (r == 91 && lex.peekRune == 91) = true
  · rw [if_pos h4] at h; exact absurd h (hpos _)
  rw [if_neg h4] at h ⊢
  by_cases h5 : (r == 93 && lex.peekRune == 93) = true
  · rw [if_pos h5] at h; exact absurd h (hpos _)
  rw [if_neg h5] at h ⊢
  rcases consumeSingleSymbol_shape T lex r with hs | ⟨t, hs, _⟩
  · rw [hs]; exact ⟨_, rfl⟩
  · rw [hs] at h; exact absurd h (hpos _)

theorem Lex_failure (T : TokenCodes) (U : UnicodeTables) (lex : MyLexer) (lval : yySymType)
    (res : Int × MyLexer × yySymType) (hl : MyLexer.Lex T U lex lval = some res)
    (h : res.1 = -1) : ∃ m, res.2.1.err = some m := by
  rcases Lex_total T U lex lval with h0 | ⟨r, rest, _, _, h1⟩
  · rw [h0] at hl
    cases hl
    have h' : (0 : Int) = -1 := h
    omega
  · rw [h1] at hl
    cases hl
    exact lexToken_failure T U r _ lval h

/-- Input `# $`: the first call records the message about `#`, the second call returns `-1`
again and the recorded message is then the one about `$`. -/
theorem first_error_latch_counterexample :
    lexCalls consecutiveCodes latin1Tables 0 (MyLexer.start (str "# $")) yySymType.zero =
        some (-1, ⟨str " $", some (.unexpectedCharacter 35)⟩, yySymType.zero) ∧
      lexCalls consecutiveCodes latin1Tables 1 (MyLexer.start (str "# $")) yySymType.zero =
        some (-1, ⟨[], some (.unexpectedCharacter 36)⟩, yySymType.zero) ∧
      Message.unexpectedCharacter 36 ≠ Message.unexpectedCharacter 35 := by
  decide

/-- C14, amended. When an error is recorded, a further call of `Lex` returns the code, the
payload and the unread input that it returns when no error is recorded, and afterwards an error
is recorded still: the message that this call records when entered with no error recorded, if
it records one, and the earlier message otherwise. A call that returns `-1` records a message
of its own, so a later failure replaces the earlier message; a call that returns a code other
than `-1` and `REALNUMBER` records none, so the earlier message is kept. -/
theorem recorded_error_is_the_latest (T : TokenCodes) (U : UnicodeTables) (lex : MyLexer)
    (lval : yySymType) (m : Message) (h : lex.err = some m) :
    ∃ res0 res, MyLexer.Lex T U ⟨lex.bufReader, none⟩ lval = some res0 ∧
      MyLexer.Lex T U lex lval = some res ∧
      res.1 = res0.1 ∧ res.2.1.bufReader = res0.2.1.bufReader ∧ res.2.2 = res0.2.2 ∧
      (∀ m', res0.2.1.err = some m' → res.2.1.err = some m') ∧
      (res0.2.1.err = none → res.2.1.err = some m) ∧
      (res.1 = -1 → ∃ m', res0.2.1.err = some m') ∧
      (res.1 ≠ -1 → res.1 ≠ T.code .REALNUMBER → res0.2.1.err = none) ∧
      (∃ m', res.2.1.err = some m') := by
  obtain ⟨s, e⟩ := lex
  cases h
  obtain ⟨res0, hl0, hres⟩ := Lex_outcome T U ⟨s, none⟩ lval
  have hl : MyLexer.Lex T U ⟨s, some m⟩ lval = some (withPrior (some m) res0) := by
    have := frame_Lex T U (some m) lval ⟨s, none⟩
    rw [hl0] at this
    exact this
  have hkeep : res0.1 ≠ -1 → res0.1 ≠ T.code .REALNUMBER → res0.2.1.err = none := by
    intro h1 h2
    rcases hres with rfl | ⟨r, _, _, _, herr, _⟩
    · rfl
    · rcases herr with he | ⟨hc, _⟩
      · exact he
      · rcases hc with hc | hc
        · exact absurd hc h1
        · exact absurd hc h2
  refine ⟨res0, _, hl0, hl, rfl, rfl, rfl, ?_, ?_, Lex_failure T U _ lval res0 hl0, hkeep, ?_⟩
  · intro m' hm'
    show (match res0.2.1.err with
      | some m => some m
      | none => some m) = some m'
    rw [hm']
  · intro hn
    show (match res0.2.1.err with
      | some m => some m
      | none => some m) = some m
    rw [hn]
  · show ∃ m', (match res0.2.1.err with
      | some m => some m
      | none => some m) = some m'
    cases res0.2.1.err with
    | none => exact ⟨m, rfl⟩
    | some m' => exact ⟨m', rfl⟩

theorem recorded_error_is_the_latest_witness :
    (⟨str " $", some (.unexpectedCharacter 35)⟩ : MyLexer).err = some (.unexpectedCharacter 35) ∧
    ∃ res0 res,
      MyLexer.Lex consecutiveCodes latin1Tables
        ⟨(⟨str " $", some (.unexpectedCharacter 35)⟩ : MyLexer).bufReader, none⟩
        yySymType.zero = some res0 ∧
      MyLexer.Lex consecutiveCodes latin1Tables ⟨str " $", some (.unexpectedCharacter 35)⟩
        yySymType.zero = some res ∧
      res.1 = res0.1 ∧ res.2.1.bufReader = res0.2.1.bufReader ∧ res.2.2 = res0.2.2 ∧
      (∀ m', res0.2.1.err = some m' → res.2.1.err = some m') ∧
      (res0.2.1.err = none → res.2.1.err = some (.unexpectedCharacter 35)) ∧
      (res.1 = -1 → ∃ m', res0.2.1.err = some m') ∧
      (res.1 ≠ -1 → res.1 ≠ consecutiveCodes.code .REALNUMBER → res0.2.1.err = none) ∧
      (∃ m', res.2.1.err = some m') :=
  ⟨rfl, recorded_error_is_the_latest consecutiveCodes latin1Tables
    ⟨str " $", some (.unexpectedCharacter 35)⟩ yySymType.zero (.unexpectedCharacter 35) rfl⟩

/-! ## The sign of a literal -/

theorem startsWithDigit_append (U : UnicodeTables) (l t : List Nat)
    (h : startsWithDigit U l = true) : startsWithDigit U (l ++ t) = true := by
  cases l with
  | nil => cases h
  | cons d l => exact h

theorem startsWithDigit_not_minus (U : UnicodeTables) (s : List Nat) :
    startsWithDigit U (45 :: s) = false := by
  simp [startsWithDigit, IsDigit]

theorem repr_consumeNumberEnd (T : TokenCodes) (acc : List Nat) (lex : MyLexer)
    (lval : yySymType) :
    ((consumeNumberEnd T acc lex lval).1 = -1 ∧ (consumeNumberEnd T acc lex lval).2.2 = lval) ∨
      ((consumeNumberEnd T acc lex lval).1 = T.code .NUMBER ∧
        (consumeNumberEnd T acc lex lval).2.2.numberRepr = acc) := by
  simp only [consumeNumberEnd]
  cases Atoi acc with
  | error e => exact Or.inl ⟨rfl, rfl⟩
  | ok i => exact Or.inr ⟨rfl, rfl⟩

theorem repr_consumeNumberLoop (T : TokenCodes) (U : UnicodeTables) (lex : MyLexer)
    (lval : yySymType) :
    ∀ (input acc : List Nat),
      ((consumeNumberLoop T U acc lex lval input).1 = -1 ∧
          (consumeNumberLoop T U acc lex lval input).2.2 = lval) ∨
        ((consumeNumberLoop T U acc lex lval input).1 = T.code .NUMBER ∧
          ∃ t, (consumeNumberLoop T U acc lex lval input).2.2.numberRepr = acc ++ t) := by
  intro input
  induction input with
  | nil =>
    intro acc
    rw [consumeNumberLoop]
    rcases repr_consumeNumberEnd T acc { lex with bufReader := [] } lval with h | h
    · exact Or.inl h
    · exact Or.inr ⟨h.1, [], by rw [h.2, List.append_nil]⟩
  | cons r rest ih =>
    intro acc
    rw [consumeNumberLoop]
    split_ifs
    · rcases repr_consumeNumberEnd T acc
        (({ lex with bufReader := rest } : MyLexer).unreadRune r) lval with h | h
      · exact Or.inl h
      · exact Or.inr ⟨h.1, [], by rw [h.2, List.append_nil]⟩
    · rcases ih (acc ++ [r]) with h | ⟨h, t, ht⟩
      · exact Or.inl h
      · exact Or.inr ⟨h, r :: t, by rw [ht]; simp⟩

theorem repr_consumeNumber (T : TokenCodes) (U : UnicodeTables) (lex : MyLexer)
    (lval : yySymType) (hd : IsDigit U lex.peekRune = true) :
    ((consumeNumber T U lex lval).1 = -1 ∧ (consumeNumber T U lex lval).2.2 = lval) ∨
      ((consumeNumber T U lex lval).1 = T.code .NUMBER ∧
        startsWithDigit U (consumeNumber T U lex lval).2.2.numberRepr = true) := by
  obtain ⟨input, e⟩ := lex
  cases input with
  | nil => simp [peekRune, IsDigit] at hd
  | cons r rest =>
    have hr : IsDigit U r = true := by simpa [peekRune] using hd
    simp only [consumeNumber, readRune, Bool.false_eq_true, if_false]
    rcases repr_consumeNumberLoop T U ⟨rest, e⟩ lval rest [r] with h | ⟨h, t, ht⟩
    · exact Or.inl h
    · refine Or.inr ⟨h, ?_⟩
      rw [ht]
      exact hr

theorem repr_consumeNumberOrRealEnd (T : TokenCodes) (U : UnicodeTables) (lex : MyLexer)
    (lval : yySymType) (old : List Nat) (rv : Float64) (fr : List Nat)
    (hl : lval.numberRepr = old ∨ startsWithDigit U lval.numberRepr = true)
    (hfr : startsWithDigit U fr = true) :
    reprOutcome U old (consumeNumberOrRealEnd T lex lval rv fr) := by
  simp only [consumeNumberOrRealEnd, reprOutcome]
  split_ifs
  · exact hl
  · exact Or.inr hfr

theorem repr_exponent_digits (T : TokenCodes) (U : UnicodeTables) (lex : MyLexer)
    (lval : yySymType) (old : List Nat) (rv : Float64) (x : Int) (fr : List Nat)
    (hl : lval.numberRepr = old ∨ startsWithDigit U lval.numberRepr = true)
    (hfr : startsWithDigit U fr = true) :
    reprOutcome U old
      (if IsDigit U lex.peekRune = true then
        if ((consumeNumber T U lex lval).1 != T.code .NUMBER) = true then
          consumeNumber T U lex lval
        else
          consumeNumberOrRealEnd T (consumeNumber T U lex lval).2.1
            (consumeNumber T U lex lval).2.2
            (rv * Float64.Pow10 (x * (consumeNumber T U lex lval).2.2.number))
            (fr ++ (consumeNumber T U lex lval).2.2.numberRepr)
      else
        consumeNumberOrRealEnd T (lex.Error (.expectedExponent fr lex.peekRune)) lval rv fr) := by
  by_cases hd : IsDigit U lex.peekRune = true
  · rw [if_pos hd]
    rcases repr_consumeNumber T U lex lval hd with ⟨hc, he⟩ | ⟨hc, hs⟩
    · have hne : ((consumeNumber T U lex lval).1 != T.code .NUMBER) = true := by
        simp [hc, T.neg_one_ne]
      rw [if_pos hne]
      show (consumeNumber T U lex lval).2.2.numberRepr = old ∨ _
      rw [he]
      exact hl
    · have hne : ((consumeNumber T U lex lval).1 != T.code .NUMBER) = false := by simp [hc]
      rw [hne, if_neg (by simp)]
      exact repr_consumeNumberOrRealEnd T U _ _ old _ _ (Or.inr hs)
        (startsWithDigit_append U _ _ hfr)
  · rw [if_neg hd]
    exact repr_consumeNumberOrRealEnd T U _ lval old rv fr hl hfr

theorem repr_exponent (T : TokenCodes) (U : UnicodeTables) (lex : MyLexer)
    (lval : yySymType) (old : List Nat) (rv : Float64) (fr : List Nat)
    (hl : lval.numberRepr = old ∨ startsWithDigit U lval.numberRepr = true)
    (hfr : startsWithDigit U fr = true) :
    reprOutcome U old (consumeNumberOrRealExponent T U lex lval rv fr) := by
  obtain ⟨input, e⟩ := lex
  unfold consumeNumberOrRealExponent
  by_cases hlow : (ToLower U (peekRune ⟨input, e⟩) == 101) = true
  · rw [if_pos hlow]
    cases input with
    | nil => simp [peekRune, ToLower] at hlow
    | cons r rest =>
      simp only [readRune, peekRune]
      by_cases hsign : (rest.headD 0 == 45) = true
      · simp only [hsign, if_true]
        cases rest with
        | nil => simp at hsign
        | cons s rest2 =>
          exact repr_exponent_digits T U ⟨rest2, e⟩ lval old _ (-1) _ hl
            (startsWithDigit_append U _ _ (startsWithDigit_append U _ _ hfr))
      · simp only [hsign, if_false, Bool.false_eq_true]
        exact repr_exponent_digits T U ⟨rest, e⟩ lval old _ 1 _ hl
          (startsWithDigit_append U _ _ hfr)
  · rw [if_neg hlow]
    exact repr_consumeNumberOrRealEnd T U _ lval old rv fr hl hfr

theorem repr_fraction (T : TokenCodes) (U : UnicodeTables) (lex : MyLexer)
    (lval : yySymType) (old : List Nat) (rv : Float64) (fr : List Nat)
    (hl : lval.numberRepr = old ∨ startsWithDigit U lval.numberRepr = true)
    (hfr : startsWithDigit U fr = true) :
    reprOutcome U old (consumeNumberOrRealFraction T U lex lval rv fr) := by
  obtain ⟨input, e⟩ := lex
  unfold consumeNumberOrRealFraction
  by_cases hdot : (peekRune ⟨input, e⟩ == 46) = true
  · rw [if_pos hdot]
    cases input with
    | nil => simp [peekRune] at hdot
    | cons r rest =>
      simp only [readRune]
      by_cases hd : IsDigit U (peekRune ⟨rest, e⟩) = true
      · rw [if_pos hd]
        rcases repr_consumeNumber T U ⟨rest, e⟩ lval hd with ⟨hc, he⟩ | ⟨hc, hs⟩
        · have hne : ((consumeNumber T U ⟨rest, e⟩ lval).1 != T.code .NUMBER) = true := by
            simp [hc, T.neg_one_ne]
          simp only [hne, if_true]
          show (consumeNumber T U ⟨rest, e⟩ lval).2.2.numberRepr = old ∨ _
          rw [he]
          exact hl
        · have hne : ((consumeNumber T U ⟨rest, e⟩ lval).1 != T.code .NUMBER) = false := by
            simp [hc]
          simp only [hne, Bool.false_eq_true, if_false]
          exact repr_exponent T U _ _ old _ _ (Or.inr hs)
            (startsWithDigit_append U _ _ (startsWithDigit_append U _ _ hfr))
      · rw [if_neg hd]
        exact repr_exponent T U ⟨rest, e⟩ lval old _ _ hl (startsWithDigit_append U _ _ hfr)
  · rw [if_neg hdot]
    exact repr_exponent T U _ lval old rv fr hl hfr

theorem repr_consumeNumberOrReal (T : TokenCodes) (U : UnicodeTables) (lex : MyLexer)
    (lval : yySymType) (realStart : Float64) (hd : IsDigit U lex.peekRune = true) :
    reprOutcome U lval.numberRepr (consumeNumberOrReal T U lex lval realStart) := by
  unfold consumeNumberOrReal
  rcases repr_consumeNumber T U lex lval hd with ⟨hc, he⟩ | ⟨hc, hs⟩
  · have hne : ((consumeNumber T U lex lval).1 != T.code .NUMBER) = true := by
      simp [hc, T.neg_one_ne]
    simp only [hne, if_true]
    show (consumeNumber T U lex lval).2.2.numberRepr = lval.numberRepr ∨ _
    rw [he]
    exact Or.inl rfl
  · have hne : ((consumeNumber T U lex lval).1 != T.code .NUMBER) = false := by simp [hc]
    simp only [hne, Bool.false_eq_true, if_false]
    exact repr_fraction T U _ _ _ _ _ (Or.inr hs) hs

theorem repr_lexToken (T : TokenCodes) (U : UnicodeTables) (r : Nat) (lex : MyLexer)
    (lval : yySymType) :
    reprOutcome U lval.numberRepr (lexToken T U r lex lval) := by
  unfold lexToken
  by_cases hl : IsLetter U r = true
  · rw [if_pos hl]
    dsimp only
    rcases consumeWord U (lex.unreadRune r) with ⟨m | content, lex1⟩
    · exact Or.inl rfl
    · dsimp only
      by_cases hu : IsUpper U r = true
      · rw [if_pos hu]
        cases lookupReserved content <;> exact Or.inl rfl
      · rw [if_neg hu]
        exact Or.inl rfl
  rw [if_neg hl]
  by_cases hd : IsDigit U r = true
  · rw [if_pos hd]
    exact repr_consumeNumberOrReal T U _ lval _ (by simpa [unreadRune, peekRune] using hd)
  rw [if_neg hd]
  by_cases hm : (r == 45 && IsDigit U lex.peekRune) = true
  · rw [if_pos hm]
    simp only [Bool.and_eq_true] at hm
    exact repr_consumeNumberOrReal T U lex lval _ hm.2
  rw [if_neg hm]
  by_cases h1 : (r == 58 && lex.peekRunes 2 == [58, 61]) = true
  · rw [if_pos h1]; exact Or.inl rfl
  rw [if_neg h1]
  by_cases h2 : (r == 46 && lex.peekRunes 2 == [46, 46]) = true
  · rw [if_pos h2]; exact Or.inl rfl
  rw [if_neg h2]
  by_cases h3 : (r == 46 && lex.peekRune == 46) = true
  · rw [if_pos h3]; exact Or.inl rfl
  rw [if_neg h3]
  by_cases h4 : (r == 91 && lex.peekRune == 91) = true
  · rw [if_pos h4]; exact Or.inl rfl
  rw [if_neg h4]
  by_cases h5 : (r == 93 && lex.peekRune == 93) = true
  · rw [if_pos h5]; exact Or.inl rfl
  rw [if_neg h5]
  exact Or.inl rfl

/-- Whatever text a call of `Lex` writes to `lval.numberRepr` begins with a digit: the call
returns with the text that was there before, or with one that begins with a digit. -/
theorem recorded_text_begins_with_digit (T : TokenCodes) (U : UnicodeTables) (lex : MyLexer)
    (lval : yySymType) :
    ∃ res, MyLexer.Lex T U lex lval = some res ∧ reprOutcome U lval.numberRepr res := by
  rcases Lex_total T U lex lval with h | ⟨r, rest, _, _, h⟩
  · exact ⟨_, h, Or.inl rfl⟩
  · exact ⟨_, h, repr_lexToken T U r _ lval⟩

/-- The recorded text of a literal written with a minus sign is never the literal: on every
input that begins with the minus sign, `Lex` returns with a text in `lval.numberRepr` that
differs from the input, unless the input itself was there before the call. -/
theorem signed_literal_text_lost (T : TokenCodes) (U : UnicodeTables) (lval : yySymType)
    (s : List Nat) (h : lval.numberRepr ≠ 45 :: s) :
    ∃ res, MyLexer.Lex T U (MyLexer.start (45 :: s)) lval = some res ∧
      res.2.2.numberRepr ≠ 45 :: s := by
  obtain ⟨res, hl, hres⟩ := recorded_text_begins_with_digit T U (MyLexer.start (45 :: s)) lval
  refine ⟨res, hl, fun heq => ?_⟩
  rcases hres with h1 | h1
  · exact h (h1.symm.trans heq)
  · rw [heq, startsWithDigit_not_minus] at h1
    cases h1

theorem signed_literal_text_lost_witness :
    ∃ res, MyLexer.Lex consecutiveCodes latin1Tables (MyLexer.start (45 :: str "1.5e3"))
        yySymType.zero = some res ∧
      res.2.2.numberRepr ≠ 45 :: str "1.5e3" :=
  signed_literal_text_lost consecutiveCodes latin1Tables yySymType.zero (str "1.5e3")
    (by decide)

end Asn1go
